import Mathlib

/-!
Verification of the EQlib core against its specification.

Shallow embedding of the C++ sources:
- `src/include/eqlib/SparseStructure.h` (sparse pattern: construction,
  lookup, triangular-to-general expansion, orientation conversion),
- `src/include/eqlib/ProblemData.h` (accumulation buffer),
- `src/include/EQlib/LevenbergMarquardt.h` (Armijo backtracking,
  More-Thuente style line search `cvsrch`/`cstep`, and the `minimize`
  driver).

Conventions: the C++ `TIndex = int` is modelled as `Int` (the claims under
study never exercise machine-integer overflow), `double` payload values
moved by the pattern operations are modelled as `Int` (they are only
copied, never computed with), and line-search scalars are modelled as `ℚ`
(exact arithmetic; the claims under study are not about rounding).
Out-of-range reads, which are undefined behaviour in the C++, are
modelled by total `getD`-style accessors with default `0`; every theorem
below either keeps all accesses in range by hypothesis or exhibits the
out-of-range access explicitly.  The template parameter `TRowMajor` is
the explicit `rm : Bool` argument; `TIndexMap = true` (the default) is
the hash-map lookup built by the constructor, whose last-write-wins
insertion order is modelled faithfully.
-/

/-- Total read of an `Int`-indexed vector entry, default `0` (out-of-range
reads are UB in the C++ source; theorems keep them in range). -/
def getI (l : List Int) (k : Int) : Int :=
  if 0 ≤ k then l.getD k.toNat 0 else 0

/-- Half-open integer interval `[a, b)` as a list, in increasing order.
Models a C++ `for (k = a; k < b; k++)` traversal. -/
def intRange (a b : Int) : List Int :=
  (List.range (b - a).toNat).map (fun t : Nat => a + (t : Int))

theorem length_intRange (a b : Int) : (intRange a b).length = (b - a).toNat := by
  unfold intRange
  rw [List.length_map, List.length_range]

theorem mem_intRange {a b k : Int} : k ∈ intRange a b ↔ a ≤ k ∧ k < b := by
  unfold intRange
  rw [List.mem_map]
  constructor
  · rintro ⟨t, ht, rfl⟩
    rw [List.mem_range] at ht
    omega
  · intro h
    refine ⟨(k - a).toNat, ?_, ?_⟩
    · rw [List.mem_range]; omega
    · omega

theorem nodup_intRange (a b : Int) : (intRange a b).Nodup := by
  unfold intRange
  refine List.Nodup.map (fun x y h => ?_) (List.nodup_range _)
  omega

/-- Sparse index structure: mirrors the member variables of
`eqlib::SparseStructure` (`m_rows`, `m_cols`, `m_ia`, `m_ja`).  The
orientation template parameter `TRowMajor` is passed separately as
`rm : Bool` to the operations that depend on it. -/
structure SparseStructure where
  rows : Int
  cols : Int
  ia : List Int
  ja : List Int
deriving DecidableEq

/-- Leading dimension size: `TRowMajor ? rows : cols`. -/
def leadingSize (rm : Bool) (rows cols : Int) : Int := if rm then rows else cols

/-- Secondary dimension size: `TRowMajor ? cols : rows`. -/
def secondarySize (rm : Bool) (rows cols : Int) : Int := if rm then cols else rows

/-- Model of `Eigen ... maxCoeff()` over a nonempty vector. -/
def maxCoeff (l : List Int) : Int := l.foldl max (getI l 0)

/-- The validating constructor
`SparseStructure(rows, cols, ia, ja)` (SparseStructure.h:28-61): rejects
`ia` whose length differs from the leading dimension plus one, and a
nonempty `ja` whose largest entry reaches the secondary dimension;
everything else is accepted.  `none` models the thrown
`std::invalid_argument`. -/
def construct (rm : Bool) (rows cols : Int) (ia ja : List Int) :
    Option SparseStructure :=
  if (ia.length : Int) ≠ leadingSize rm rows cols + 1 then none
  else if 0 < ja.length ∧ maxCoeff ja ≥ secondarySize rm rows cols then none
  else some ⟨rows, cols, ia, ja⟩

/-- Number of stored slots: `m_ia.back()`. -/
def nb_nonzeros (s : SparseStructure) : Int := s.ia.getLastD 0

/-- Slot range of leading index `i`: the C++ loop
`for (k = m_ia[i]; k < m_ia[i+1]; k++)`. -/
def rowRange (s : SparseStructure) (i : Int) : List Int :=
  intRange (getI s.ia i) (getI s.ia (i + 1))

/-- Lookup map built by the constructor when `TIndexMap` holds: the loop
`for k in [ia[i], ia[i+1]): m_indices[i][ja[k]] = k` inserts in
increasing `k`, so a duplicate secondary index keeps the **last** slot.
`indexMapFind s i j` is `m_indices[i].find(j)`. -/
def indexMapFind (s : SparseStructure) (i j : Int) : Option Int :=
  (rowRange s i).foldl (fun acc k => if getI s.ja k = j then some k else acc) none

/-- Hash-map path of `get_index(row, col)` (SparseStructure.h:133-148,
`TIndexMap = true`): orient the query, consult the per-leading-index map,
`-1` when absent. -/
def get_index (rm : Bool) (s : SparseStructure) (row col : Int) : Int :=
  let i := if rm then row else col
  let j := if rm then col else row
  match indexMapFind s i j with
  | none => -1
  | some k => k

/-- Coordinate `(row, col)` has at least one stored slot. -/
def Stored (rm : Bool) (s : SparseStructure) (row col : Int) : Prop :=
  ∃ k ∈ rowRange s (if rm then row else col),
    getI s.ja k = (if rm then col else row)

instance (rm : Bool) (s : SparseStructure) (row col : Int) :
    Decidable (Stored rm s row col) := by
  unfold Stored; infer_instance

/-- In-range query coordinates, the caller contract asserted by
`get_index`. -/
def InRange (s : SparseStructure) (row col : Int) : Prop :=
  0 ≤ row ∧ row < s.rows ∧ 0 ≤ col ∧ col < s.cols

instance (s : SparseStructure) (row col : Int) :
    Decidable (InRange s row col) := by
  unfold InRange; infer_instance

-- ### generic lemmas about the last-write-wins fold

theorem lastHit_eq_none {p : Int → Prop} [DecidablePred p] :
    ∀ (l : List Int) (acc : Option Int),
      (l.foldl (fun a k => if p k then some k else a) acc = none) ↔
        (acc = none ∧ ∀ k ∈ l, ¬ p k) := by
  intro l
  induction l with
  | nil => intro acc; simp
  | cons x xs ih =>
    intro acc
    rw [List.foldl_cons, ih]
    by_cases hx : p x
    · simp [hx]
    · simp [hx]

theorem lastHit_eq_some {p : Int → Prop} [DecidablePred p] :
    ∀ (l : List Int) (acc : Option Int) (k : Int),
      l.foldl (fun a k => if p k then some k else a) acc = some k →
        (k ∈ l ∧ p k) ∨ acc = some k := by
  intro l
  induction l with
  | nil => intro acc k h; right; exact h
  | cons x xs ih =>
    intro acc k h
    simp only [List.foldl_cons] at h
    rcases ih _ _ h with ⟨hm, hp⟩ | hacc
    · exact Or.inl ⟨List.mem_cons_of_mem _ hm, hp⟩
    · by_cases hx : p x
      · simp [hx] at hacc
        exact Or.inl ⟨hacc ▸ List.mem_cons_self x xs, hacc ▸ hx⟩
      · simp [hx] at hacc
        exact Or.inr hacc

theorem lastHit_ne_none {p : Int → Prop} [DecidablePred p]
    (l : List Int) (acc : Option Int) (k : Int) (hk : k ∈ l) (hp : p k) :
    l.foldl (fun a k => if p k then some k else a) acc ≠ none := by
  intro h
  rcases (lastHit_eq_none l acc).mp h with ⟨-, hall⟩
  exact hall k hk hp

-- ### maxCoeff characterization

theorem foldl_max_le_self (l : List Int) (a : Int) : a ≤ l.foldl max a := by
  induction l generalizing a with
  | nil => simp
  | cons y ys ih => exact le_trans (le_max_left a y) (ih (max a y))

theorem foldl_max_mem_le (l : List Int) (a : Int) :
    ∀ x ∈ l, x ≤ l.foldl max a := by
  induction l generalizing a with
  | nil => simp
  | cons y ys ih =>
    intro x hx
    rcases List.mem_cons.mp hx with rfl | hx
    · exact le_trans (le_max_right a x) (foldl_max_le_self ys (max a x))
    · exact ih (max a y) x hx

theorem foldl_max_cases (l : List Int) (a : Int) :
    l.foldl max a = a ∨ l.foldl max a ∈ l := by
  induction l generalizing a with
  | nil => simp
  | cons y ys ih =>
    rcases ih (max a y) with h | h
    · rcases max_cases a y with ⟨h2, -⟩ | ⟨h2, -⟩
      · left; rw [List.foldl_cons, h, h2]
      · right; rw [List.foldl_cons, h, h2]; exact List.mem_cons_self y ys
    · right; exact List.mem_cons_of_mem y h

theorem maxCoeff_mem {l : List Int} (h : l ≠ []) : maxCoeff l ∈ l := by
  unfold maxCoeff
  rcases foldl_max_cases l (getI l 0) with hc | hc
  · rw [hc]
    cases l with
    | nil => exact absurd rfl h
    | cons x xs => simp [getI]
  · exact hc

theorem le_maxCoeff {l : List Int} (x : Int) (hx : x ∈ l) : x ≤ maxCoeff l :=
  foldl_max_mem_le l (getI l 0) x hx

theorem exists_ge_iff_maxCoeff (ja : List Int) (c : Int) :
    (∃ j ∈ ja, c ≤ j) ↔ (0 < ja.length ∧ c ≤ maxCoeff ja) := by
  constructor
  · rintro ⟨j, hj, hcj⟩
    have hne : ja ≠ [] := by rintro rfl; simp at hj
    refine ⟨by cases ja with | nil => exact absurd rfl hne | cons x xs => simp, ?_⟩
    exact le_trans hcj (le_maxCoeff j hj)
  · rintro ⟨hlen, hc⟩
    have hne : ja ≠ [] := by rintro rfl; simp at hlen
    exact ⟨maxCoeff ja, maxCoeff_mem hne, hc⟩

/-- C5 (amended): the validating constructor fails if and only if the
offset array's length differs from `leading_dim + 1`, or some secondary
index is too large (at least the secondary dimension).  Secondary indices
are only checked from above via `maxCoeff`; negative (still out-of-range)
entries are accepted. -/
theorem c5_construct_fails_iff (rm : Bool) (rows cols : Int)
    (ia ja : List Int) :
    construct rm rows cols ia ja = none ↔
      ((ia.length : Int) ≠ leadingSize rm rows cols + 1 ∨
        ∃ j ∈ ja, secondarySize rm rows cols ≤ j) := by
  unfold construct
  by_cases h1 : (ia.length : Int) ≠ leadingSize rm rows cols + 1
  · simp [h1]
  · rw [if_neg h1]
    by_cases h2 : 0 < ja.length ∧ maxCoeff ja ≥ secondarySize rm rows cols
    · have h3 : ∃ j ∈ ja, secondarySize rm rows cols ≤ j :=
        (exists_ge_iff_maxCoeff ja _).mpr ⟨h2.1, h2.2⟩
      simp [h2, h3]
    · have h3 : ¬ ∃ j ∈ ja, secondarySize rm rows cols ≤ j := by
        rw [exists_ge_iff_maxCoeff]; exact h2
      simp [h2, h3, h1]

/-- C5 counterexample: the pattern `rows = cols = 1`, `ia = [0, 1]`,
`ja = [-1]` has a secondary index `-1` that is out of bounds (the valid
range is `[0, 1)`), yet the validating constructor accepts it: only the
maximum of `ja` is compared against the secondary dimension, so negative
entries slip through.  This refutes the claim that construction fails
whenever some secondary index is out of bounds. -/
theorem c5_counterexample :
    construct false 1 1 [0, 1] [-1] = some ⟨1, 1, [0, 1], [-1]⟩ ∧
    ¬ (0 ≤ (-1 : Int) ∧ (-1 : Int) < 1) := by decide

/-- C2 counterexample: the validating constructor accepts
`rows = cols = 2`, `ia = [0, 5, 2]`, `ja = [0, 1, 0, 1, 0]` (the length
and the maximum-entry checks both pass), the query `(0, 0)` is in range
and has a stored slot, yet `get_index` returns `4` while `nnz`
(`ia.back()`) is `2`: the returned slot is not in `[0, nnz)`.  The
constructor never checks that the offsets are non-decreasing, start at
`0`, and end at `len(ja)`, so the claim fails for patterns that merely
passed construction. -/
theorem c2_counterexample :
    construct false 2 2 [0, 5, 2] [0, 1, 0, 1, 0] =
      some ⟨2, 2, [0, 5, 2], [0, 1, 0, 1, 0]⟩ ∧
    InRange ⟨2, 2, [0, 5, 2], [0, 1, 0, 1, 0]⟩ 0 0 ∧
    Stored false ⟨2, 2, [0, 5, 2], [0, 1, 0, 1, 0]⟩ 0 0 ∧
    get_index false ⟨2, 2, [0, 5, 2], [0, 1, 0, 1, 0]⟩ 0 0 = 4 ∧
    nb_nonzeros ⟨2, 2, [0, 5, 2], [0, 1, 0, 1, 0]⟩ = 2 := by decide

-- ### offset-array invariants (the spec's data-model invariants, not
-- ### enforced by the constructor)

/-- Adjacent monotonicity of the offset array. -/
def MonotoneIa (ia : List Int) : Prop :=
  ∀ t : Nat, t + 1 < ia.length → getI ia (t : Int) ≤ getI ia ((t : Int) + 1)

theorem monotone_getI_add {ia : List Int} (h : MonotoneIa ia) :
    ∀ (d a : Nat), a + d < ia.length →
      getI ia (a : Int) ≤ getI ia ((a + d : Nat) : Int) := by
  intro d
  induction d with
  | zero => intro a ha; simp
  | succ d ih =>
    intro a ha
    have h1 : getI ia (a : Int) ≤ getI ia ((a + d : Nat) : Int) := ih a (by omega)
    have h2 := h (a + d) (by omega)
    have h3 : ((a + d : Nat) : Int) + 1 = ((a + (d + 1) : Nat) : Int) := by
      push_cast; ring
    calc getI ia (a : Int) ≤ getI ia ((a + d : Nat) : Int) := h1
      _ ≤ getI ia (((a + d : Nat) : Int) + 1) := h2
      _ = getI ia ((a + (d + 1) : Nat) : Int) := by rw [h3]

theorem monotone_getI_int {ia : List Int} (h : MonotoneIa ia) {a b : Int}
    (ha : 0 ≤ a) (hab : a ≤ b) (hb : b < (ia.length : Int)) :
    getI ia a ≤ getI ia b := by
  have hb0 : 0 ≤ b := le_trans ha hab
  have hmain := monotone_getI_add h (b.toNat - a.toNat) a.toNat (by omega)
  have e1 : ((a.toNat : Nat) : Int) = a := Int.toNat_of_nonneg ha
  have e2 : ((a.toNat + (b.toNat - a.toNat) : Nat) : Int) = b := by omega
  rw [e1, e2] at hmain
  exact hmain

theorem getLastD_eq_getI (ia : List Int) (h : ia ≠ []) :
    ia.getLastD 0 = getI ia ((ia.length : Int) - 1) := by
  have hlen : 0 < ia.length := List.length_pos.mpr h
  rw [List.getLastD_eq_getLast?, List.getLast?_eq_getElem?]
  unfold getI
  rw [if_pos (by omega : (0:Int) ≤ (ia.length : Int) - 1)]
  rw [List.getD_eq_getElem?_getD]
  have e : ((ia.length : Int) - 1).toNat = ia.length - 1 := by omega
  rw [e]

/-- Well-formedness of a pattern: the length check the constructor makes,
together with the data-model invariants the spec states (offsets start
at `0`, are non-decreasing, and end at `len(ja)`) which the constructor
does **not** enforce. -/
def WellFormed (rm : Bool) (s : SparseStructure) : Prop :=
  (s.ia.length : Int) = leadingSize rm s.rows s.cols + 1 ∧
  getI s.ia 0 = 0 ∧
  MonotoneIa s.ia ∧
  s.ia.getLastD 0 = (s.ja.length : Int)

theorem rowRange_disjoint (s : SparseStructure) (hmono : MonotoneIa s.ia)
    {i1 i2 k : Int} (h01 : 0 ≤ i1) (h02 : 0 ≤ i2)
    (hb1 : i1 + 1 < (s.ia.length : Int)) (hb2 : i2 + 1 < (s.ia.length : Int))
    (hk1 : k ∈ rowRange s i1) (hk2 : k ∈ rowRange s i2) : i1 = i2 := by
  rw [rowRange, mem_intRange] at hk1 hk2
  by_contra hne
  rcases lt_or_gt_of_ne hne with hlt | hgt
  · have := monotone_getI_int hmono (a := i1 + 1) (b := i2)
      (by omega) (by omega) (by omega)
    omega
  · have := monotone_getI_int hmono (a := i2 + 1) (b := i1)
      (by omega) (by omega) (by omega)
    omega

theorem indexMapFind_spec (rm : Bool) (s : SparseStructure)
    (hwf : WellFormed rm s) (i j : Int) (hi0 : 0 ≤ i)
    (hiS : i < leadingSize rm s.rows s.cols) :
    (indexMapFind s i j = none ↔ ¬ ∃ k ∈ rowRange s i, getI s.ja k = j) ∧
    (∀ k, indexMapFind s i j = some k →
      k ∈ rowRange s i ∧ getI s.ja k = j ∧ 0 ≤ k ∧ k < nb_nonzeros s) := by
  obtain ⟨hlen, h0, hmono, hlast⟩ := hwf
  have hne : s.ia ≠ [] := by
    intro hnil
    rw [hnil] at hlen
    simp at hlen
    omega
  have hlenpos : i + 1 < (s.ia.length : Int) := by omega
  have hlo : 0 ≤ getI s.ia i := by
    have := monotone_getI_int hmono (a := 0) (b := i) le_rfl hi0 (by omega)
    omega
  have hhi : getI s.ia (i + 1) ≤ nb_nonzeros s := by
    rw [nb_nonzeros, getLastD_eq_getI s.ia hne]
    exact monotone_getI_int hmono (by omega) (by omega) (by omega)
  constructor
  · unfold indexMapFind
    rw [lastHit_eq_none (p := fun k => getI s.ja k = j)]
    simp
  · intro k hk
    rcases lastHit_eq_some (p := fun k => getI s.ja k = j) _ _ _ hk with
      ⟨hm, hp⟩ | habs
    · have hmem := hm
      rw [rowRange, mem_intRange] at hm
      exact ⟨hmem, hp, by omega, by omega⟩
    · exact absurd habs (by simp)

instance (ia : List Int) : Decidable (MonotoneIa ia) :=
  decidable_of_iff
    (∀ t : Nat, t < ia.length - 1 → getI ia (t : Int) ≤ getI ia ((t : Int) + 1))
    (by
      constructor
      · intro h t ht; exact h t (by omega)
      · intro h t ht; exact h t (by omega))

theorem get_index_eq (rm : Bool) (s : SparseStructure) (row col : Int) :
    get_index rm s row col =
      match indexMapFind s (if rm then row else col)
          (if rm then col else row) with
      | none => -1
      | some k => k := rfl

/-- C2 (amended): for a pattern accepted by the validating constructor
**whose offset array moreover satisfies the spec's data-model invariants**
(starts at `0`, non-decreasing, ends at `len(ja)` — the constructor itself
does not check these, see `c2_counterexample`), and for every in-range
query `(row, col)`: `get_index` returns the sentinel `-1` iff `(row, col)`
has no stored slot, otherwise a slot in `[0, nnz)`; and `get_index` is
injective on in-range coordinates with a stored slot. -/
theorem c2_get_index_amended (rm : Bool) (s : SparseStructure)
    (hc : construct rm s.rows s.cols s.ia s.ja = some s)
    (h0 : getI s.ia 0 = 0) (hmono : MonotoneIa s.ia)
    (hlast : s.ia.getLastD 0 = (s.ja.length : Int)) :
    (∀ row col, InRange s row col →
      ((get_index rm s row col = -1 ↔ ¬ Stored rm s row col) ∧
       (Stored rm s row col →
         0 ≤ get_index rm s row col ∧
         get_index rm s row col < nb_nonzeros s))) ∧
    (∀ r1 c1 r2 c2, InRange s r1 c1 → InRange s r2 c2 →
      Stored rm s r1 c1 → Stored rm s r2 c2 →
      get_index rm s r1 c1 = get_index rm s r2 c2 → r1 = r2 ∧ c1 = c2) := by
  have hlen : (s.ia.length : Int) = leadingSize rm s.rows s.cols + 1 := by
    by_contra hne
    rw [construct, if_pos hne] at hc
    exact Option.noConfusion hc
  have hWF : WellFormed rm s := ⟨hlen, h0, hmono, hlast⟩
  have orient : ∀ row col, InRange s row col →
      0 ≤ (if rm then row else col) ∧
      (if rm then row else col) < leadingSize rm s.rows s.cols := by
    intro row col hin
    obtain ⟨h1, h2, h3, h4⟩ := hin
    cases rm <;> simp [leadingSize] <;> omega
  have main : ∀ row col, InRange s row col →
      (get_index rm s row col = -1 ↔ ¬ Stored rm s row col) ∧
      (Stored rm s row col →
        0 ≤ get_index rm s row col ∧
        get_index rm s row col < nb_nonzeros s) := by
    intro row col hin
    obtain ⟨hi0, hiS⟩ := orient row col hin
    obtain ⟨hnone, hsome⟩ :=
      indexMapFind_spec rm s hWF (if rm then row else col)
        (if rm then col else row) hi0 hiS
    cases hfind : indexMapFind s (if rm then row else col)
        (if rm then col else row) with
    | none =>
      have hgi : get_index rm s row col = -1 := by
        rw [get_index_eq, hfind]
      have hns : ¬ Stored rm s row col := hnone.mp hfind
      exact ⟨by simp [hgi, hns], fun hs => absurd hs hns⟩
    | some k =>
      obtain ⟨hmem, hj, hk0, hknnz⟩ := hsome k hfind
      have hgi : get_index rm s row col = k := by
        rw [get_index_eq, hfind]
      have hs : Stored rm s row col := ⟨k, hmem, hj⟩
      refine ⟨⟨?_, fun hns => absurd hs hns⟩,
        fun _ => by rw [hgi]; exact ⟨hk0, hknnz⟩⟩
      intro hneg
      exfalso
      rw [hgi] at hneg
      omega
  refine ⟨main, ?_⟩
  intro r1 c1 r2 c2 hin1 hin2 hs1 hs2 heq
  obtain ⟨hi01, hiS1⟩ := orient r1 c1 hin1
  obtain ⟨hi02, hiS2⟩ := orient r2 c2 hin2
  obtain ⟨hnone1, hsome1⟩ := indexMapFind_spec rm s hWF _ _ hi01 hiS1
  obtain ⟨hnone2, hsome2⟩ := indexMapFind_spec rm s hWF _ _ hi02 hiS2
  cases hf1 : indexMapFind s (if rm then r1 else c1)
      (if rm then c1 else r1) with
  | none => exact absurd hs1 (hnone1.mp hf1)
  | some k1 =>
    cases hf2 : indexMapFind s (if rm then r2 else c2)
        (if rm then c2 else r2) with
    | none => exact absurd hs2 (hnone2.mp hf2)
    | some k2 =>
      obtain ⟨hm1, hj1, hk01, -⟩ := hsome1 k1 hf1
      obtain ⟨hm2, hj2, hk02, -⟩ := hsome2 k2 hf2
      have hg1 : get_index rm s r1 c1 = k1 := by rw [get_index_eq, hf1]
      have hg2 : get_index rm s r2 c2 = k2 := by rw [get_index_eq, hf2]
      have hk12 : k1 = k2 := by rw [hg1, hg2] at heq; exact heq
      subst hk12
      have hieq : (if rm then r1 else c1) = (if rm then r2 else c2) :=
        rowRange_disjoint s hmono hi01 hi02 (by omega) (by omega) hm1 hm2
      have hjeq : (if rm then c1 else r1) = (if rm then c2 else r2) := by
        rw [← hj1, ← hj2]
      cases rm
      · simp only [if_false] at hieq hjeq
        exact ⟨hjeq, hieq⟩
      · simp only [if_true] at hieq hjeq
        exact ⟨hieq, hjeq⟩

/-- C2 witness: the amended `get_index` characterization applied to the
concrete column-major pattern `rows = cols = 2`, `ia = [0, 1, 2]`,
`ja = [0, 1]` at the in-range query `(0, 1)`. -/
theorem c2_witness :
    (get_index false ⟨2, 2, [0, 1, 2], [0, 1]⟩ 0 1 = -1 ↔
      ¬ Stored false ⟨2, 2, [0, 1, 2], [0, 1]⟩ 0 1) ∧
    (Stored false ⟨2, 2, [0, 1, 2], [0, 1]⟩ 0 1 →
      0 ≤ get_index false ⟨2, 2, [0, 1, 2], [0, 1]⟩ 0 1 ∧
      get_index false ⟨2, 2, [0, 1, 2], [0, 1]⟩ 0 1 <
        nb_nonzeros ⟨2, 2, [0, 1, 2], [0, 1]⟩) :=
  (c2_get_index_amended false ⟨2, 2, [0, 1, 2], [0, 1]⟩ (by decide)
    (by decide) (by decide) (by decide)).1 0 1 (by decide)

-- ### ProblemData (accumulation buffer)

/-- Accumulation buffer `eqlib::ProblemData`: the flat main vector
`m_values`, the scratch vector `m_buffer`, the stored dimensions, and the
two timing accumulators.  The Eigen `Ref` segment views (`m_g`, `m_df`,
`m_dg_values`, `m_hm_values`) are modelled as on-demand slices below, as
they are always rebound to `m_values.segment(...)` by `resize`.
Scalars are modelled as `Int` (the buffer only zeroes, adds and slices
them). -/
structure ProblemData where
  n : Int
  m : Int
  nbNonzerosDg : Int
  nbNonzerosHm : Int
  values : List Int
  buffer : List Int
  computationTime : Int
  assembleTime : Int
deriving DecidableEq

/-- `ProblemData::set_zero()`: clears the main buffer, the scratch buffer
and both timing accumulators. -/
def set_zero (d : ProblemData) : ProblemData :=
  { d with
    values := List.replicate d.values.length 0
    buffer := List.replicate d.buffer.length 0
    computationTime := 0
    assembleTime := 0 }

/-- `ProblemData::resize(n, m, nb_nonzeros_dg, nb_nonzeros_hm,
max_element_n, max_element_m)` (ProblemData.h:55-80): stores the new
dimensions, reallocates `m_values` to `1 + m + n + nnz_dg + nnz_hm`
entries and `m_buffer` to
`max(1, max_element_m) * max_element_n
 + max(1, max_element_m) * max_element_n * max_element_n` entries, then
calls `set_zero()`. -/
def resize (d : ProblemData)
    (n m nbNonzerosDg nbNonzerosHm maxElementN maxElementM : Int) :
    ProblemData :=
  let nbEntries := 1 + m + n + nbNonzerosDg + nbNonzerosHm
  set_zero
    { d with
      n := n
      m := m
      nbNonzerosDg := nbNonzerosDg
      nbNonzerosHm := nbNonzerosHm
      values := List.replicate nbEntries.toNat 0
      buffer := List.replicate
        (max 1 maxElementM * maxElementN +
          max 1 maxElementM * maxElementN * maxElementN).toNat 0 }

/-- Segment view `m_values[0]`, the objective scalar `f`. -/
def f_seg (d : ProblemData) : List Int := d.values.take 1

/-- Segment view `m_g = m_values.segment(1, m)`. -/
def g_seg (d : ProblemData) : List Int :=
  (d.values.drop 1).take d.m.toNat

/-- Segment view `m_df = m_values.segment(1 + m, n)`. -/
def df_seg (d : ProblemData) : List Int :=
  (d.values.drop (1 + d.m).toNat).take d.n.toNat

/-- Segment view `m_dg_values = m_values.segment(1 + m + n, nnz_dg)`. -/
def dg_seg (d : ProblemData) : List Int :=
  (d.values.drop (1 + d.m + d.n).toNat).take d.nbNonzerosDg.toNat

/-- Segment view
`m_hm_values = m_values.segment(1 + m + n + nnz_dg, nnz_hm)`. -/
def hm_seg (d : ProblemData) : List Int :=
  (d.values.drop (1 + d.m + d.n + d.nbNonzerosDg).toNat).take
    d.nbNonzerosHm.toNat

/-- `ProblemData::operator+=(rhs)` (ProblemData.h:182-192): elementwise
addition of `m_values` (the caller contract `assert` requires equal
lengths), addition of both timing accumulators; `m_buffer` is untouched
and `rhs` is read-only. -/
def mergeAdd (d rhs : ProblemData) : ProblemData :=
  { d with
    values := List.zipWith (· + ·) d.values rhs.values
    computationTime := d.computationTime + rhs.computationTime
    assembleTime := d.assembleTime + rhs.assembleTime }

/-- C6 counterexample: `resize(n = 2, m = 3, nnz_A = 0, nnz_B = 0, ...)`
produces a main buffer of `1 + 3 + 2 + 0 + 0 = 6` entries, not the
`1 + m + nnz_A + nnz_B = 4` entries the four-segment claim implies: the
buffer also holds a second dense segment `df` of length `n = 2`
(`m_values.segment(1 + m, n)`). -/
theorem c6_counterexample :
    (resize ⟨0, 0, 0, 0, [], [], 0, 0⟩ 2 3 0 0 0 0).values.length = 6 ∧
    ¬ ((6 : Int) = 1 + 3 + 0 + 0) := by decide

/-- C6 (amended): after `resize(n, m, nnz_A, nnz_B, max_local_n,
max_local_m)` with nonnegative arguments, the main buffer consists of
exactly **five** contiguous segments — objective (length 1), dense `g`
(length `m`), dense `df` (length `n`), sparse-A values (length `nnz_A`),
sparse-B values (length `nnz_B`) — and the scratch region has exactly
`max(1, max_local_m) * max_local_n + max(1, max_local_m) * max_local_n²`
entries. -/
theorem resize_fields (d : ProblemData)
    (n m nnzDg nnzHm men mem : Int) :
    (resize d n m nnzDg nnzHm men mem).values =
      List.replicate (1 + m + n + nnzDg + nnzHm).toNat 0 ∧
    (resize d n m nnzDg nnzHm men mem).buffer =
      List.replicate
        (max 1 mem * men + max 1 mem * men * men).toNat 0 ∧
    (resize d n m nnzDg nnzHm men mem).n = n ∧
    (resize d n m nnzDg nnzHm men mem).m = m ∧
    (resize d n m nnzDg nnzHm men mem).nbNonzerosDg = nnzDg ∧
    (resize d n m nnzDg nnzHm men mem).nbNonzerosHm = nnzHm := by
  refine ⟨?_, ?_, rfl, rfl, rfl, rfl⟩
  · show List.replicate (List.replicate (1 + m + n + nnzDg + nnzHm).toNat
      (0:Int)).length 0 = _
    rw [List.length_replicate]
  · show List.replicate (List.replicate _ (0:Int)).length 0 = _
    rw [List.length_replicate]

theorem five_seg_partition (l : List Int) (a b c d e : Nat)
    (h : l.length = a + b + c + d + e) :
    l.take a ++ (l.drop a).take b ++ (l.drop (a + b)).take c ++
      (l.drop (a + b + c)).take d ++ (l.drop (a + b + c + d)).take e = l := by
  have h4 : (l.drop (a + b + c + d)).take e = l.drop (a + b + c + d) := by
    apply List.take_of_length_le
    rw [List.length_drop]
    omega
  have d2 : l.drop (a + b) = (l.drop a).drop b := by
    rw [List.drop_drop, Nat.add_comm]
  have d3 : l.drop (a + b + c) = ((l.drop a).drop b).drop c := by
    rw [List.drop_drop, List.drop_drop]
    congr 1
    omega
  have d4 : l.drop (a + b + c + d) = (((l.drop a).drop b).drop c).drop d := by
    rw [List.drop_drop, List.drop_drop, List.drop_drop]
    congr 1
    omega
  rw [h4, d2, d3, d4, List.append_assoc, List.append_assoc,
    List.append_assoc, List.take_append_drop, List.take_append_drop,
    List.take_append_drop, List.take_append_drop]

theorem c6_resize_amended (d : ProblemData)
    (n m nnzDg nnzHm men mem : Int)
    (hn : 0 ≤ n) (hm : 0 ≤ m) (ha : 0 ≤ nnzDg) (hb : 0 ≤ nnzHm)
    (hen : 0 ≤ men) :
    ((resize d n m nnzDg nnzHm men mem).values.length : Int) =
      1 + m + n + nnzDg + nnzHm ∧
    f_seg (resize d n m nnzDg nnzHm men mem) ++
      g_seg (resize d n m nnzDg nnzHm men mem) ++
      df_seg (resize d n m nnzDg nnzHm men mem) ++
      dg_seg (resize d n m nnzDg nnzHm men mem) ++
      hm_seg (resize d n m nnzDg nnzHm men mem) =
      (resize d n m nnzDg nnzHm men mem).values ∧
    ((f_seg (resize d n m nnzDg nnzHm men mem)).length : Int) = 1 ∧
    ((g_seg (resize d n m nnzDg nnzHm men mem)).length : Int) = m ∧
    ((df_seg (resize d n m nnzDg nnzHm men mem)).length : Int) = n ∧
    ((dg_seg (resize d n m nnzDg nnzHm men mem)).length : Int) = nnzDg ∧
    ((hm_seg (resize d n m nnzDg nnzHm men mem)).length : Int) = nnzHm ∧
    ((resize d n m nnzDg nnzHm men mem).buffer.length : Int) =
      max 1 mem * men + max 1 mem * men * men := by
  obtain ⟨hv, hbuf, hn1, hm1, ha1, hb1⟩ :=
    resize_fields d n m nnzDg nnzHm men mem
  have hmax : (0:Int) ≤ max 1 mem * men + max 1 mem * men * men := by
    have h1 : (0:Int) ≤ max 1 mem := le_trans zero_le_one (le_max_left 1 mem)
    positivity
  have hlen : (resize d n m nnzDg nnzHm men mem).values.length =
      1 + m.toNat + n.toNat + nnzDg.toNat + nnzHm.toNat := by
    rw [hv, List.length_replicate]
    omega
  have e1 : (1 + m).toNat = 1 + m.toNat := by omega
  have e2 : (1 + m + n).toNat = 1 + m.toNat + n.toNat := by omega
  have e3 : (1 + m + n + nnzDg).toNat =
      1 + m.toNat + n.toNat + nnzDg.toNat := by omega
  refine ⟨?_, ?_, ?_, ?_, ?_, ?_, ?_, ?_⟩
  · rw [hlen]; omega
  · simp only [f_seg, g_seg, df_seg, dg_seg, hm_seg]
    rw [hn1, hm1, ha1, hb1, e1, e2, e3]
    exact five_seg_partition _ 1 m.toNat n.toNat nnzDg.toNat
      nnzHm.toNat hlen
  · simp only [f_seg]
    rw [List.length_take, hlen]
    omega
  · simp only [g_seg]
    rw [hm1, List.length_take, List.length_drop, hlen]
    omega
  · simp only [df_seg]
    rw [hn1, hm1, e1, List.length_take, List.length_drop, hlen]
    omega
  · simp only [dg_seg]
    rw [hn1, hm1, ha1, e2, List.length_take, List.length_drop, hlen]
    omega
  · simp only [hm_seg]
    rw [hn1, hm1, ha1, hb1, e3, List.length_take, List.length_drop, hlen]
    omega
  · rw [hbuf, List.length_replicate]
    omega

/-- C6 witness: the amended `resize` layout at
`n = 2, m = 3, nnz_A = 4, nnz_B = 5, max_local_n = 2, max_local_m = 3`. -/
theorem c6_witness :
    ((resize ⟨0, 0, 0, 0, [], [], 0, 0⟩ 2 3 4 5 2 3).values.length : Int) =
      1 + 3 + 2 + 4 + 5 ∧
    f_seg (resize ⟨0, 0, 0, 0, [], [], 0, 0⟩ 2 3 4 5 2 3) ++
      g_seg (resize ⟨0, 0, 0, 0, [], [], 0, 0⟩ 2 3 4 5 2 3) ++
      df_seg (resize ⟨0, 0, 0, 0, [], [], 0, 0⟩ 2 3 4 5 2 3) ++
      dg_seg (resize ⟨0, 0, 0, 0, [], [], 0, 0⟩ 2 3 4 5 2 3) ++
      hm_seg (resize ⟨0, 0, 0, 0, [], [], 0, 0⟩ 2 3 4 5 2 3) =
      (resize ⟨0, 0, 0, 0, [], [], 0, 0⟩ 2 3 4 5 2 3).values ∧
    ((f_seg (resize ⟨0, 0, 0, 0, [], [], 0, 0⟩ 2 3 4 5 2 3)).length : Int) = 1 ∧
    ((g_seg (resize ⟨0, 0, 0, 0, [], [], 0, 0⟩ 2 3 4 5 2 3)).length : Int) = 3 ∧
    ((df_seg (resize ⟨0, 0, 0, 0, [], [], 0, 0⟩ 2 3 4 5 2 3)).length : Int) = 2 ∧
    ((dg_seg (resize ⟨0, 0, 0, 0, [], [], 0, 0⟩ 2 3 4 5 2 3)).length : Int) = 4 ∧
    ((hm_seg (resize ⟨0, 0, 0, 0, [], [], 0, 0⟩ 2 3 4 5 2 3)).length : Int) = 5 ∧
    ((resize ⟨0, 0, 0, 0, [], [], 0, 0⟩ 2 3 4 5 2 3).buffer.length : Int) =
      max 1 3 * 2 + max 1 3 * 2 * 2 :=
  c6_resize_amended ⟨0, 0, 0, 0, [], [], 0, 0⟩ 2 3 4 5 2 3
    (by decide) (by decide) (by decide) (by decide) (by decide)

theorem getI_zipWith_add (a b : List Int) (i : Nat)
    (ha : i < a.length) (hb : i < b.length) :
    getI (List.zipWith (· + ·) a b) (i : Int) =
      getI a (i : Int) + getI b (i : Int) := by
  unfold getI
  rw [if_pos (by omega : (0:Int) ≤ (i : Int)),
    if_pos (by omega : (0:Int) ≤ (i : Int)),
    if_pos (by omega : (0:Int) ≤ (i : Int))]
  have hIN : ((i : Int)).toNat = i := by omega
  rw [hIN]
  have hz : i < (List.zipWith (· + ·) a b).length := by
    rw [List.length_zipWith]; omega
  rw [List.getD_eq_getElem _ _ hz, List.getD_eq_getElem _ _ ha,
    List.getD_eq_getElem _ _ hb, List.getElem_zipWith]

/-- C7: `operator+=` on two buffers with main value vectors of equal
length adds the other buffer's main values elementwise into this
buffer's, adds both timing accumulators, and leaves scratch alone: the
receiver's scratch buffer is unchanged, and the result does not depend on
the other operand's scratch buffer at all (the other operand itself is
read-only, being a functional argument here as it is `const&` in C++). -/
theorem c7_merge_spec (d rhs : ProblemData)
    (h : d.values.length = rhs.values.length) :
    (mergeAdd d rhs).values.length = d.values.length ∧
    (∀ i : Nat, i < d.values.length →
      getI (mergeAdd d rhs).values (i : Int) =
        getI d.values (i : Int) + getI rhs.values (i : Int)) ∧
    (mergeAdd d rhs).computationTime =
      d.computationTime + rhs.computationTime ∧
    (mergeAdd d rhs).assembleTime = d.assembleTime + rhs.assembleTime ∧
    (mergeAdd d rhs).buffer = d.buffer ∧
    (∀ rhs2 : ProblemData, rhs2.values = rhs.values →
      rhs2.computationTime = rhs.computationTime →
      rhs2.assembleTime = rhs.assembleTime →
      mergeAdd d rhs2 = mergeAdd d rhs) := by
  refine ⟨?_, ?_, rfl, rfl, rfl, ?_⟩
  · show (List.zipWith _ _ _).length = _
    rw [List.length_zipWith]
    omega
  · intro i hi
    exact getI_zipWith_add d.values rhs.values i hi (by omega)
  · intro rhs2 h1 h2 h3
    unfold mergeAdd
    rw [h1, h2, h3]

/-- C7 witness: the merge specification applied to two concrete buffers
with equal-length main vectors; their scratch buffers differ and survive
untouched on the left. -/
theorem c7_witness :
    (mergeAdd ⟨0, 0, 0, 0, [1, 2], [5], 3, 4⟩
        ⟨0, 0, 0, 0, [10, 20], [7], 1, 1⟩).values.length =
      ([1, 2] : List Int).length ∧
    (∀ i : Nat, i < ([1, 2] : List Int).length →
      getI (mergeAdd ⟨0, 0, 0, 0, [1, 2], [5], 3, 4⟩
          ⟨0, 0, 0, 0, [10, 20], [7], 1, 1⟩).values (i : Int) =
        getI [1, 2] (i : Int) + getI [10, 20] (i : Int)) ∧
    (mergeAdd ⟨0, 0, 0, 0, [1, 2], [5], 3, 4⟩
        ⟨0, 0, 0, 0, [10, 20], [7], 1, 1⟩).computationTime = 3 + 1 ∧
    (mergeAdd ⟨0, 0, 0, 0, [1, 2], [5], 3, 4⟩
        ⟨0, 0, 0, 0, [10, 20], [7], 1, 1⟩).assembleTime = 4 + 1 ∧
    (mergeAdd ⟨0, 0, 0, 0, [1, 2], [5], 3, 4⟩
        ⟨0, 0, 0, 0, [10, 20], [7], 1, 1⟩).buffer = [5] ∧
    (∀ rhs2 : ProblemData, rhs2.values = [10, 20] →
      rhs2.computationTime = 1 → rhs2.assembleTime = 1 →
      mergeAdd ⟨0, 0, 0, 0, [1, 2], [5], 3, 4⟩ rhs2 =
        mergeAdd ⟨0, 0, 0, 0, [1, 2], [5], 3, 4⟩
          ⟨0, 0, 0, 0, [10, 20], [7], 1, 1⟩) :=
  c7_merge_spec ⟨0, 0, 0, 0, [1, 2], [5], 3, 4⟩
    ⟨0, 0, 0, 0, [10, 20], [7], 1, 1⟩ rfl

-- ### binary-search lookup path (TIndexMap = false, and get_index_bounded)

/-- Position of the iterator returned by
`std::lower_bound(lower, upper, j)` over the slot interval `[lo, hi)` of
`m_ja`: the first position whose entry is not less than `j`, or `hi`
when every entry is.  (`std::lower_bound` itself only probes inside
`[lo, hi)`.) -/
def lowerBoundPos (ja : List Int) (j lo hi : Int) : Int :=
  match (intRange lo hi).find? (fun k => decide (j ≤ getI ja k)) with
  | some k => k
  | none => hi

/-- `get_index_bounded(j, lo, hi)` (SparseStructure.h:113-131).  The C++
condition is `if (*it != j || it == upper) return -1;`: note that `*it`
is dereferenced **before** the `it == upper` comparison; the position
read by that dereference is exactly `lowerBoundPos`. -/
def get_index_bounded (s : SparseStructure) (j lo hi : Int) : Int :=
  let it := lowerBoundPos s.ja j lo hi
  if getI s.ja it ≠ j ∨ it = hi then -1 else it

/-- Binary-search path of `get_index(row, col)`
(SparseStructure.h:149-166, `TIndexMap = false`): same search over the
slot interval `[m_ia[i], m_ia[i+1])`, with the same
dereference-before-end-check condition. -/
def get_index_nomap (rm : Bool) (s : SparseStructure) (row col : Int) : Int :=
  let i := if rm then row else col
  let j := if rm then col else row
  let it := lowerBoundPos s.ja j (getI s.ia i) (getI s.ia (i + 1))
  if getI s.ja it ≠ j ∨ it = getI s.ia (i + 1) then -1 else it

/-- C10: on the column-major pattern `rows = 2, cols = 1`,
`ia = [0, 1]`, `ja = [0]`, the in-range query `(row, col) = (1, 0)` is
absent and its row index `1` is greater than every stored entry of the
searched range `[0, 1)` — the last range of the pattern, whose upper end
is `nnz`.  `lower_bound` therefore returns the range end, position
`1 = nnz`, and the C++ `*it != j` test dereferences that end iterator —
a read of `m_ja[nnz]`, outside `[0, nnz)` — before `it == upper` is
consulted.  The claim that the end check precedes the dereference (and
that all reads stay inside `[0, nnz)`) is therefore violated by the
code, even though the returned result is still the correct `-1`. -/
theorem c10_deref_out_of_range :
    InRange ⟨2, 1, [0, 1], [0]⟩ 1 0 ∧
    ¬ Stored false ⟨2, 1, [0, 1], [0]⟩ 1 0 ∧
    lowerBoundPos [0] 1 (getI [0, 1] 0) (getI [0, 1] 1) =
      nb_nonzeros ⟨2, 1, [0, 1], [0]⟩ ∧
    ¬ (lowerBoundPos [0] 1 (getI [0, 1] 0) (getI [0, 1] 1) <
        nb_nonzeros ⟨2, 1, [0, 1], [0]⟩) ∧
    get_index_nomap false ⟨2, 1, [0, 1], [0]⟩ 1 0 = -1 ∧
    get_index_bounded ⟨2, 1, [0, 1], [0]⟩ 1 0 1 = -1 := by decide

-- ### the Levenberg-Marquardt driver entry point

/-- Observable state of the external `System<true>` oracle used by
`EQlib::LevenbergMarquardt`: its current position `x`. -/
structure LMSystem where
  x : List ℚ
deriving DecidableEq

/-- `LevenbergMarquardt::minimize(maxiter, rtol, xtol)`
(LevenbergMarquardt.h:424-440): logs, reads the system position
`Vector x = m_system->x()`, constructs the functor, and calls the
third-party `Eigen::LevenbergMarquardt` solver (`lm.minimize(x)`), here
the parameter `lmMinimize` acting on the initial iterate and on the
system it mutates through the functor callbacks.  The C++ function
returns `void` — the mutated system is the only observable result — and
the parameters `maxiter`, `rtol` and `xtol` are accepted but never
read. -/
def minimize (lmMinimize : List ℚ → LMSystem → LMSystem) (sys : LMSystem)
    (maxiter : Int) (rtol xtol : ℚ) : LMSystem :=
  lmMinimize sys.x sys

/-- C1 counterexample: `minimize` produces the identical result under an
iteration cap of `1` and of `1000000` (and arbitrary tolerances): the
`maxiter`, `rtol`, `xtol` arguments are ignored by the body, so the
claimed stopping criteria (gradient norm, step norm, iteration cap
`max_iterations`) do not govern the iteration; and the result type
carries no stopping reason — the C++ signature is
`void minimize(...)`. -/
theorem c1_counterexample :
    minimize (fun _ s => s) ⟨[0]⟩ 1 (1/2) (1/2) =
      minimize (fun _ s => s) ⟨[0]⟩ 1000000 (1/1000000) (1/1000000) := rfl

/-- C1 (amended): `minimize(max_iterations, relative_tolerance,
step_tolerance)` ignores all three parameters and returns nothing (C++
`void`); it delegates entirely to the external Eigen
Levenberg-Marquardt solver invoked on the system's current position,
whose mutation of the system is the only observable effect.  No final
position and no stopping reason are returned to the caller. -/
theorem c1_minimize_amended (lm : List ℚ → LMSystem → LMSystem)
    (sys : LMSystem) (maxiter maxiter2 : Int)
    (rtol rtol2 xtol xtol2 : ℚ) :
    minimize lm sys maxiter rtol xtol = minimize lm sys maxiter2 rtol2 xtol2 ∧
    minimize lm sys maxiter rtol xtol = lm sys.x sys := ⟨rfl, rfl⟩

-- ### line searches (scalars as ℚ, vectors as List ℚ)

/-- Dot product `g.dot(d)` of two `Vector`s. -/
def dotQ (a b : List ℚ) : ℚ := (List.zipWith (· * ·) a b).sum

/-- Vector sum `x + y`. -/
def vaddQ (a b : List ℚ) : List ℚ := List.zipWith (· + ·) a b

/-- Scalar multiple `c * v`. -/
def smulQ (c : ℚ) (v : List ℚ) : List ℚ := v.map (fun t => c * t)

/-- While-loop of `linesearch_armijo` (LevenbergMarquardt.h:77-83):
`while (f > f_in + alpha * cache) { alpha *= rho; f = fObj(x + alpha*d) }`
with `rho = 0.9`.  The C++ loop has no iteration cap (spec §9 flags
this); `fuel` bounds the recursion, `none` meaning the loop is still
running after `fuel` shrink steps. -/
def armijoGo (fObj : List ℚ → ℚ) (x d : List ℚ) (fIn cache : ℚ) :
    Nat → ℚ → ℚ → Option ℚ
  | 0, _, _ => none
  | fuel + 1, alpha, f =>
    if f > fIn + alpha * cache then
      let alpha2 := alpha * (9 / 10)
      armijoGo fObj x d fIn cache fuel alpha2
        (fObj (vaddQ x (smulQ alpha2 d)))
    else some alpha

/-- `linesearch_armijo(x, search_dir, alpha_init)`
(LevenbergMarquardt.h:59-86), parametrized by the oracle (`f`, `g` of
`System::assemble`, which is repository code outside `src/`): evaluates
`f` at `x + alpha*d`, then `f` and the gradient at `x`, forms
`cache = c * grad.dot(d)` with `c = 0.2`, and runs the shrink loop. -/
def linesearch_armijo (fObj : List ℚ → ℚ) (gObj : List ℚ → List ℚ)
    (x d : List ℚ) (alphaInit : ℚ) (fuel : Nat) : Option ℚ :=
  let f0 := fObj (vaddQ x (smulQ alphaInit d))
  let fIn := fObj x
  let grad := gObj x
  let cache := (1 / 5) * dotQ grad d
  armijoGo fObj x d fIn cache fuel alphaInit f0

theorem armijoGo_sound (fObj : List ℚ → ℚ) (x d : List ℚ)
    (fIn cache : ℚ) :
    ∀ (fuel : Nat) (alpha f : ℚ), f = fObj (vaddQ x (smulQ alpha d)) →
      ∀ a, armijoGo fObj x d fIn cache fuel alpha f = some a →
        fObj (vaddQ x (smulQ a d)) ≤ fIn + a * cache := by
  intro fuel
  induction fuel with
  | zero => intro alpha f _ a h; exact Option.noConfusion h
  | succ fuel ih =>
    intro alpha f hf a h
    rw [armijoGo] at h
    by_cases hc : f > fIn + alpha * cache
    · rw [if_pos hc] at h
      exact ih _ _ rfl a h
    · rw [if_neg hc] at h
      have ha : alpha = a := Option.some.inj h
      subst ha
      rw [← hf]
      exact le_of_not_lt hc

/-- Oracle `f(x) = x²` on the first coordinate. -/
def fsq (v : List ℚ) : ℚ := (v.headD 0) ^ 2

/-- Gradient oracle of `fsq`. -/
def gsq (v : List ℚ) : List ℚ := [2 * v.headD 0]

/-- C8: whenever the Armijo backtracking loop terminates with step `a`,
the sufficient-decrease condition
`f(x + a*d) ≤ f(x) + 0.2 * a * (g(x)·d)` holds; and on the convex
instance `f(x) = x²` from `x = 2` with direction `-1` and `alpha0 = 1`
the loop terminates within fuel `1`, i.e. after zero shrink steps, with
the accepted step `1`. -/
theorem c8_armijo_sufficient_decrease :
    (∀ (fObj : List ℚ → ℚ) (gObj : List ℚ → List ℚ)
      (x d : List ℚ) (alphaInit : ℚ) (fuel : Nat) (a : ℚ),
      linesearch_armijo fObj gObj x d alphaInit fuel = some a →
      fObj (vaddQ x (smulQ a d)) ≤
        fObj x + 1 / 5 * a * dotQ (gObj x) d) ∧
    linesearch_armijo fsq gsq [2] [-1] 1 1 = some 1 := by
  constructor
  · intro fObj gObj x d alphaInit fuel a h
    have := armijoGo_sound fObj x d (fObj x) (1 / 5 * dotQ (gObj x) d)
      fuel alphaInit (fObj (vaddQ x (smulQ alphaInit d))) rfl a h
    calc fObj (vaddQ x (smulQ a d)) ≤
        fObj x + a * (1 / 5 * dotQ (gObj x) d) := this
      _ = fObj x + 1 / 5 * a * dotQ (gObj x) d := by ring
  · show armijoGo fsq [2] [-1] (fsq [2]) (1 / 5 * dotQ (gsq [2]) [-1]) 1 1
      (fsq (vaddQ [2] (smulQ 1 [-1]))) = some 1
    rw [armijoGo]
    rw [if_neg]
    norm_num [fsq, gsq, dotQ, vaddQ, smulQ]

/-- C8 witness: the sufficient-decrease conclusion instantiated on the
convex example, using the terminating run from the theorem itself. -/
theorem c8_witness :
    fsq (vaddQ [2] (smulQ 1 [-1])) ≤ fsq [2] + 1 / 5 * 1 * dotQ (gsq [2]) [-1] :=
  c8_armijo_sufficient_decrease.1 fsq gsq [2] [-1] 1 1 1
    c8_armijo_sufficient_decrease.2

-- ### More-Thuente style safeguarded line search (cvsrch / cstep)

/-- Oracle `f(x) = (x - 1)²` on the first coordinate. -/
def f1 (v : List ℚ) : ℚ := (v.headD 0 - 1) ^ 2

/-- Gradient oracle of `f1`. -/
def g1 (v : List ℚ) : List ℚ := [2 * (v.headD 0 - 1)]

/-- Output state of `cstep`: the by-reference parameters it writes
(`stx/fx/dx`, `sty/fy/dy`, `stp`, `brackt`, and `info`, the last being
bound to the caller's `infoc`). -/
structure CstepState where
  stx : ℚ
  fx : ℚ
  dx : ℚ
  sty : ℚ
  fy : ℚ
  dy : ℚ
  stp : ℚ
  brackt : Bool
  info : Int
deriving DecidableEq

/-- `LevenbergMarquardt::cstep` (LevenbergMarquardt.h:247-416), the
safeguarded-step subroutine: classify the trial point against the current
best, pick a cubic / quadratic / extrapolated candidate step, update the
bracket, clamp.  `sq` is the external `sqrt` from the math library; the
caller passes its trial bounds `stmin/stmax` as `stpmin/stpmax`.  The
early `return -1` (malformed input) leaves every parameter unchanged
except `info`, already reset to `0`. -/
def cstep (sq : ℚ → ℚ) (stpmin stpmax : ℚ)
    (stx fx dx sty fy dy stp fp dp : ℚ) (brackt : Bool) : CstepState :=
  if (brackt ∧ (stp ≤ min stx sty ∨ stp ≥ max stx sty)) ∨
      dx * (stp - stx) ≥ 0 ∨ stpmax < stpmin then
    ⟨stx, fx, dx, sty, fy, dy, stp, brackt, 0⟩
  else
    let sgnd := dp * (dx / |dx|)
    let res : Int × Bool × ℚ × Bool :=
      if fp > fx then
        let theta := 3 * (fx - fp) / (stp - stx) + dx + dp
        let s := max theta (max dx dp)
        let gamma0 := s * sq ((theta / s) * (theta / s) - (dx / s) * (dp / s))
        let gamma := if stp < stx then -gamma0 else gamma0
        let p := (gamma - dx) + theta
        let q := ((gamma - dx) + gamma) + dp
        let r := p / q
        let stpc := stx + r * (stp - stx)
        let stpq := stx +
          ((dx / ((fx - fp) / (stp - stx) + dx)) / 2) * (stp - stx)
        let stpf := if |stpc - stx| < |stpq - stx| then stpc
          else stpc + (stpq - stpc) / 2
        (1, true, stpf, true)
      else if sgnd < 0 then
        let theta := 3 * (fx - fp) / (stp - stx) + dx + dp
        let s := max theta (max dx dp)
        let gamma0 := s * sq ((theta / s) * (theta / s) - (dx / s) * (dp / s))
        let gamma := if stp > stx then -gamma0 else gamma0
        let p := (gamma - dp) + theta
        let q := ((gamma - dp) + gamma) + dx
        let r := p / q
        let stpc := stp + r * (stx - stp)
        let stpq := stp + (dp / (dp - dx)) * (stx - stp)
        let stpf := if |stpc - stp| > |stpq - stp| then stpc else stpq
        (2, false, stpf, true)
      else if |dp| < |dx| then
        let theta := 3 * (fx - fp) / (stp - stx) + dx + dp
        let s := max theta (max dx dp)
        let gamma0 := s * sq (max 0 ((theta / s) * (theta / s) -
          (dx / s) * (dp / s)))
        let gamma := if stp > stx then -gamma0 else gamma0
        let p := (gamma - dp) + theta
        let q := (gamma + (dx - dp)) + gamma
        let r := p / q
        let stpc := if r < 0 ∧ gamma ≠ 0 then stp + r * (stx - stp)
          else if stp > stx then stpmax else stpmin
        let stpq := stp + (dp / (dp - dx)) * (stx - stp)
        let stpf := if brackt then
            (if |stp - stpc| < |stp - stpq| then stpc else stpq)
          else
            (if |stp - stpc| > |stp - stpq| then stpc else stpq)
        (3, true, stpf, brackt)
      else
        let stpf := if brackt then
            (let theta := 3 * (fp - fy) / (sty - stp) + dy + dp
             let s := max theta (max dy dp)
             let gamma0 := s * sq ((theta / s) * (theta / s) -
               (dy / s) * (dp / s))
             let gamma := if stp > sty then -gamma0 else gamma0
             let p := (gamma - dp) + theta
             let q := ((gamma - dp) + gamma) + dy
             let r := p / q
             stp + r * (sty - stp))
          else if stp > stx then stpmax else stpmin
        (4, false, stpf, brackt)
    let info := res.1
    let bound := res.2.1
    let stpf := res.2.2.1
    let brackt2 := res.2.2.2
    let bu : ℚ × ℚ × ℚ × ℚ × ℚ × ℚ :=
      if fp > fx then (stp, fp, dp, stx, fx, dx)
      else if sgnd < 0 then (stx, fx, dx, stp, fp, dp)
      else (sty, fy, dy, stp, fp, dp)
    let sty2 := bu.1
    let fy2 := bu.2.1
    let dy2 := bu.2.2.1
    let stx2 := bu.2.2.2.1
    let fx2 := bu.2.2.2.2.1
    let dx2 := bu.2.2.2.2.2
    let stpf2 := max stpmin (min stpmax stpf)
    let stp3 := if brackt2 ∧ bound then
        (if sty2 > stx2 then min (stx2 + (66 / 100) * (sty2 - stx2)) stpf2
         else max (stx2 + (66 / 100) * (sty2 - stx2)) stpf2)
      else stpf2
    ⟨stx2, fx2, dx2, sty2, fy2, dy2, stp3, brackt2, info⟩

/-- Loop-carried state of `cvsrch`. -/
structure CvState where
  stx : ℚ
  fx : ℚ
  dgx : ℚ
  sty : ℚ
  fy : ℚ
  dgy : ℚ
  stp : ℚ
  brackt : Bool
  stage1 : Bool
  width : ℚ
  width1 : ℚ
  nfev : Nat
  infoc : Int
deriving DecidableEq

/-- The `while (true)` loop of `cvsrch` (LevenbergMarquardt.h:149-242):
derive trial bounds, clamp the trial step, evaluate the oracle at
`wa + stp * s`, assign the stopping codes 6..1 in the fixed source order
(a later assignment overwrites an earlier one, so the smallest-numbered
satisfied condition wins), return `-1` with the step and the evaluation
count on any nonzero code, otherwise run `cstep` (on objective values
shifted by the sufficient-decrease line while in stage 1) and the
anti-stagnation bisection safeguard, and iterate.  `fuel` bounds the
recursion; `none` means the C++ loop is still running. -/
def cvsrchLoop (sq : ℚ → ℚ) (fObj : List ℚ → ℚ) (gObj : List ℚ → List ℚ)
    (wa s : List ℚ) (finit dginit dgtest : ℚ) :
    Nat → CvState → Option (Int × ℚ × Nat)
  | 0, _ => none
  | fuel + 1, st =>
    let stmin := if st.brackt then min st.stx st.sty else st.stx
    let stmax := if st.brackt then max st.stx st.sty
      else st.stp + 4 * (st.stp - st.stx)
    let stpA := max st.stp ((1 : ℚ) / 10 ^ 15)
    let stpB := min stpA ((10 : ℚ) ^ 15)
    let stpC :=
      if (st.brackt ∧ (stpB ≤ stmin ∨ stpB ≥ stmax)) ∨
          st.nfev ≥ 20 - 1 ∨ st.infoc = 0 ∨
          (st.brackt ∧ stmax - stmin ≤ (1 : ℚ) / 10 ^ 15 * stmax) then
        st.stx
      else stpB
    let x := vaddQ wa (smulQ stpC s)
    let f := fObj x
    let g := gObj x
    let nfev := st.nfev + 1
    let dg := dotQ g s
    let ftest1 := finit + stpC * dgtest
    let info0 : Int := 0
    let info1 := if (st.brackt ∧ (stpC ≤ stmin ∨ stpC ≥ stmax)) ∨
        st.infoc = 0 then 6 else info0
    let info2 := if stpC = (10 : ℚ) ^ 15 ∧ f ≤ ftest1 ∧ dg ≤ dgtest then 5
      else info1
    let info3 := if stpC = (1 : ℚ) / 10 ^ 15 ∧ (f > ftest1 ∨ dg ≥ dgtest)
      then 4 else info2
    let info4 := if nfev ≥ 20 then 3 else info3
    let info5 := if st.brackt ∧ stmax - stmin ≤ (1 : ℚ) / 10 ^ 15 * stmax
      then 2 else info4
    let info6 := if f ≤ ftest1 ∧ |dg| ≤ (1 : ℚ) / 100 * (-dginit) then 1
      else info5
    if info6 ≠ 0 then some (-1, stpC, nfev)
    else
      let stage1 := if st.stage1 ∧ f ≤ ftest1 ∧
          dg ≥ min ((1 : ℚ) / 10 ^ 4) ((1 : ℚ) / 100) * dginit then false
        else st.stage1
      let next : CvState :=
        if stage1 ∧ f ≤ st.fx ∧ f > ftest1 then
          let fm := f - stpC * dgtest
          let fxm := st.fx - st.stx * dgtest
          let fym := st.fy - st.sty * dgtest
          let dgm := dg - dgtest
          let dgxm := st.dgx - dgtest
          let dgym := st.dgy - dgtest
          let cs := cstep sq stmin stmax st.stx fxm dgxm st.sty fym dgym
            stpC fm dgm st.brackt
          { stx := cs.stx, fx := cs.fx + cs.stx * dgtest,
            dgx := cs.dx + dgtest, sty := cs.sty,
            fy := cs.fy + cs.sty * dgtest, dgy := cs.dy + dgtest,
            stp := cs.stp, brackt := cs.brackt, stage1 := stage1,
            width := st.width, width1 := st.width1, nfev := nfev,
            infoc := cs.info }
        else
          let cs := cstep sq stmin stmax st.stx st.fx st.dgx st.sty st.fy
            st.dgy stpC f dg st.brackt
          { stx := cs.stx, fx := cs.fx, dgx := cs.dx, sty := cs.sty,
            fy := cs.fy, dgy := cs.dy, stp := cs.stp, brackt := cs.brackt,
            stage1 := stage1, width := st.width, width1 := st.width1,
            nfev := nfev, infoc := cs.info }
      let next2 : CvState :=
        if next.brackt then
          { next with
            stp := if |next.sty - next.stx| ≥ (66 / 100) * next.width1 then
                next.stx + (1 / 2) * (next.sty - next.stx)
              else next.stp
            width1 := next.width
            width := |next.sty - next.stx| }
        else next
      cvsrchLoop sq fObj gObj wa s finit dginit dgtest fuel next2

/-- `LevenbergMarquardt::cvsrch` (LevenbergMarquardt.h:107-245): computes
`dginit = g.dot(s)` and, when `dginit >= 0` (not a descent direction),
returns `-1` immediately — before any trial evaluation and leaving `stp`
untouched.  Note `-1` is also what the loop returns on every ordinary
termination (line 209 returns `-1` whenever a stopping code is set).
Result: `(return code, final stp, number of trial evaluations)`. -/
def cvsrch (sq : ℚ → ℚ) (fObj : List ℚ → ℚ) (gObj : List ℚ → List ℚ)
    (x : List ℚ) (f : ℚ) (g : List ℚ) (stp : ℚ) (s : List ℚ)
    (fuel : Nat) : Option (Int × ℚ × Nat) :=
  let dginit := dotQ g s
  if dginit ≥ 0 then some (-1, stp, 0)
  else
    let dgtest := (1 : ℚ) / 10 ^ 4 * dginit
    let width := (10 : ℚ) ^ 15 - (1 : ℚ) / 10 ^ 15
    let width1 := 2 * width
    cvsrchLoop sq fObj gObj x s f dginit dgtest fuel
      { stx := 0, fx := f, dgx := dginit, sty := 0, fy := f, dgy := dginit,
        stp := stp, brackt := false, stage1 := true,
        width := width, width1 := width1, nfev := 0, infoc := 1 }

/-- `LevenbergMarquardt::linesearch_morethuente`
(LevenbergMarquardt.h:88-105): evaluates the oracle at the start point,
calls `cvsrch` with `ak = alpha_init` passed by reference, **ignores the
return code**, and returns `ak` (the final `stp`). -/
def linesearch_morethuente (sq : ℚ → ℚ) (fObj : List ℚ → ℚ)
    (gObj : List ℚ → List ℚ) (x d : List ℚ) (alphaInit : ℚ)
    (fuel : Nat) : Option ℚ :=
  let fval := fObj x
  let g := gObj x
  (cvsrch sq fObj gObj x fval g alphaInit d fuel).map (fun r => r.2.1)


/-- C9 (amended): when the directional derivative `g·s` at the starting
point is not strictly negative, `cvsrch` returns immediately — code `-1`,
zero trial evaluations, step unchanged — and `linesearch_morethuente`
returns the initial step unchanged; but no distinct
`NotADescentDirection` failure is surfaced to the caller: `cvsrch`
returns `-1` on ordinary termination as well, and
`linesearch_morethuente` discards the code altogether, so the caller
receives a bare step value indistinguishable from a successful search
(see `c9_counterexample`). -/
theorem c9_no_descent_amended (sq : ℚ → ℚ) (fObj : List ℚ → ℚ)
    (gObj : List ℚ → List ℚ) (x : List ℚ) (f : ℚ) (g : List ℚ)
    (stp : ℚ) (s : List ℚ) (fuel : Nat)
    (h : dotQ g s ≥ 0) (h2 : dotQ (gObj x) s ≥ 0) :
    cvsrch sq fObj gObj x f g stp s fuel = some (-1, stp, 0) ∧
    linesearch_morethuente sq fObj gObj x s stp fuel = some stp := by
  have hc : cvsrch sq fObj gObj x f g stp s fuel = some (-1, stp, 0) := by
    simp only [cvsrch]
    rw [if_pos h]
  have hc2 : cvsrch sq fObj gObj x (fObj x) (gObj x) stp s fuel =
      some (-1, stp, 0) := by
    simp only [cvsrch]
    rw [if_pos h2]
  refine ⟨hc, ?_⟩
  simp only [linesearch_morethuente]
  rw [hc2]
  rfl

/-- C9 counterexample: the failure is **not** surfaced to the calling
optimizer.  On the ascending instance (`f1(x) = (x-1)²` from `x = 2`
along `d = +1`, `g·d = 2 ≥ 0`) `cvsrch` aborts with code `-1`, zero
evaluations and unchanged step; on the descending instance from `x = 0`
the very first trial satisfies the strong Wolfe test and `cvsrch`
terminates successfully — also with code `-1`.  `linesearch_morethuente`
discards the code in both runs and returns the bare step `1` in both:
the caller receives identical observable results for the non-descent
failure and for a genuine success, refuting the claim that the failure
is surfaced. -/
theorem c9_counterexample :
    dotQ (g1 [2]) [1] ≥ 0 ∧
    ¬ (dotQ (g1 [0]) [1] ≥ 0) ∧
    cvsrch (fun q => q) f1 g1 [2] (f1 [2]) (g1 [2]) 1 [1] 1 =
      some (-1, 1, 0) ∧
    cvsrch (fun q => q) f1 g1 [0] (f1 [0]) (g1 [0]) 1 [1] 1 =
      some (-1, 1, 1) ∧
    linesearch_morethuente (fun q => q) f1 g1 [2] [1] 1 1 = some 1 ∧
    linesearch_morethuente (fun q => q) f1 g1 [0] [1] 1 1 = some 1 := by
  refine ⟨?_, ?_, ?_, ?_, ?_, ?_⟩
  · norm_num [dotQ, g1]
  · norm_num [dotQ, g1]
  · norm_num [cvsrch, f1, g1, dotQ]
  · norm_num [cvsrch, cvsrchLoop, f1, g1, dotQ, vaddQ, smulQ]
  · norm_num [linesearch_morethuente, cvsrch, f1, g1, dotQ]
  · norm_num [linesearch_morethuente, cvsrch, cvsrchLoop, f1, g1, dotQ,
      vaddQ, smulQ]

/-- C9 witness: the amended no-descent behaviour on the concrete
ascending instance `f(x) = x²` at `x = 2`, direction `+1`. -/
theorem c9_witness :
    cvsrch (fun q => q) fsq gsq [2] (fsq [2]) (gsq [2]) 1 [1] 3 =
      some (-1, 1, 0) ∧
    linesearch_morethuente (fun q => q) fsq gsq [2] [1] 1 3 = some 1 :=
  c9_no_descent_amended (fun q => q) fsq gsq [2] (fsq [2]) (gsq [2])
    1 [1] 3 (by norm_num [dotQ, gsq]) (by norm_num [dotQ, gsq])

-- ### to_general (triangular-to-general expansion)

/-- Entry traversal of the double loop in `to_general`
(SparseStructure.h:214/251): the pairs `(i, k)` with `i` over `[0, n)`
(`n = m_rows`, the structure being square by the `assert`) and `k` over
`[m_ia[i], m_ia[i+1])`, in loop order. -/
def tgEntries (s : SparseStructure) : List (Int × Int) :=
  (intRange 0 s.rows).flatMap (fun i => (rowRange s i).map (fun k => (i, k)))

/-- `pattern[a].push_back(x)` on a vector-of-rows. -/
def listApp (pat : List (List Int)) (a : Int) (x : Int) : List (List Int) :=
  pat.set a.toNat ((pat.getD a.toNat []) ++ [x])

/-- Body of the double loop of `to_general`
(SparseStructure.h:215-227): read `j = m_ja[k]`, push `j`/`k` onto
`pattern[i]`/`indices[i]`, and unless on the diagonal also push `i`/`k`
onto `pattern[j]`/`indices[j]`. -/
def tgStep (ja : List Int) (st : List (List Int) × List (List Int))
    (e : Int × Int) : List (List Int) × List (List Int) :=
  let i := e.1
  let k := e.2
  let j := getI ja k
  let pat := listApp st.1 i j
  let ind := listApp st.2 i k
  if i = j then (pat, ind)
  else (listApp pat j i, listApp ind j k)

/-- The `pattern` and `indices` row vectors after the double loop of
`to_general`, both starting as `n` empty rows. -/
def tgState (s : SparseStructure) : List (List Int) × List (List Int) :=
  (tgEntries s).foldl (tgStep s.ja)
    (List.replicate s.rows.toNat [], List.replicate s.rows.toNat [])

/-- `from_pattern(rows, cols, pattern)` (SparseStructure.h:169-203):
prefix sums of the row sizes give `ia`, the concatenated rows give `ja`.
(The C++ then routes through the validating constructor, whose checks
hold for the patterns `to_general` produces.) -/
def from_pattern (rows cols : Int) (pattern : List (List Int)) :
    SparseStructure :=
  { rows := rows
    cols := cols
    ia := List.scanl (· + ·) 0 (pattern.map (fun r => (r.length : Int)))
    ja := pattern.flatten }

/-- `to_general()` (SparseStructure.h:205-240): the general structure
built from the expanded pattern, together with `value_indices`, the
concatenation of the `indices` rows (length reserved as
`nnz * 2 - n`). -/
def to_general (s : SparseStructure) : SparseStructure × List Int :=
  (from_pattern s.rows s.cols (tgState s).1, (tgState s).2.flatten)

/-- Value overload `to_general(values)` (SparseStructure.h:242-279):
rebuilds the same pattern and indices, then scatters
`new_values(i++) = values(index)` over the `indices` rows in order. -/
def to_general_values (s : SparseStructure) (values : List Int) :
    SparseStructure × List Int :=
  (from_pattern s.rows s.cols (tgState s).1,
   (tgState s).2.foldl
     (fun acc row => row.foldl (fun acc2 k => acc2 ++ [getI values k]) acc)
     [])

/-- Coordinates `(leading, secondary)` of the stored slots of a (square,
leading-dimension `rows`) structure, in slot storage order. -/
def structCoords (s : SparseStructure) : List (Int × Int) :=
  (intRange 0 s.rows).flatMap
    (fun i => (rowRange s i).map (fun k => (i, getI s.ja k)))

instance (s : SparseStructure) (c : Int × Int) :
    Decidable (c ∈ structCoords s) := by
  unfold structCoords; infer_instance

/-- Coordinates of a vector-of-rows pattern, row `t` of the list being
leading index `a + t`. -/
def patCoords : Int → List (List Int) → List (Int × Int)
  | _, [] => []
  | a, r :: rs => r.map (fun b => (a, b)) ++ patCoords (a + 1) rs

/-- Full-pattern slot `(a, b)` originates from triangular slot `k`:
either directly (`b` is the stored secondary of `k` and `k` lies in
leading range `a`) or transposed. -/
def OriginRel (s : SparseStructure) (a b k : Int) : Prop :=
  (b = getI s.ja k ∧ k ∈ rowRange s a) ∨
  (a = getI s.ja k ∧ k ∈ rowRange s b)

theorem entriesCoords_eq (s : SparseStructure) :
    (tgEntries s).map (fun e => (e.1, getI s.ja e.2)) = structCoords s := by
  unfold tgEntries structCoords
  rw [List.map_flatMap]
  congr 1
  funext i
  rw [List.map_map]
  rfl

-- ### slice machinery: reading a from_pattern structure row by row

theorem getI_cons_succ (x : Int) (xs : List Int) (k : Int) (h : 0 ≤ k) :
    getI (x :: xs) (k + 1) = getI xs k := by
  unfold getI
  rw [if_pos (by omega : (0:Int) ≤ k + 1), if_pos h]
  have e : (k + 1).toNat = k.toNat + 1 := by omega
  rw [e, List.getD_cons_succ]

theorem getI_cons_zero (x : Int) (xs : List Int) : getI (x :: xs) 0 = x := by
  unfold getI
  rw [if_pos le_rfl]
  rfl

theorem scanl_getI (l : List Int) :
    ∀ (a : Int) (i : Nat), i ≤ l.length →
      getI (List.scanl (· + ·) a l) (i : Int) = a + (l.take i).sum := by
  induction l with
  | nil =>
    intro a i hi
    have : i = 0 := Nat.le_zero.mp hi
    subst this
    show getI [a] 0 = a + ([] : List Int).sum
    rw [getI_cons_zero]
    simp
  | cons x xs ih =>
    intro a i hi
    cases i with
    | zero =>
      rw [List.scanl_cons]
      show getI (a :: _) 0 = _
      rw [getI_cons_zero]
      simp
    | succ i =>
      rw [List.scanl_cons]
      show getI (a :: List.scanl (· + ·) (a + x) xs) ((i + 1 : Nat) : Int) = _
      have hc : ((i + 1 : Nat) : Int) = (i : Int) + 1 := by push_cast; ring
      rw [hc, getI_cons_succ _ _ _ (by omega)]
      rw [ih (a + x) i (by simpa using hi)]
      rw [List.take_succ_cons, List.sum_cons]
      ring

theorem getLastD_irrel (l : List Int) (d1 d2 : Int) (h : l ≠ []) :
    l.getLastD d1 = l.getLastD d2 := by
  rw [List.getLastD_eq_getLast?, List.getLastD_eq_getLast?,
    List.getLast?_eq_getElem?]
  have hlen : 0 < l.length := List.length_pos.mpr h
  rw [List.getElem?_eq_getElem (by omega : l.length - 1 < l.length)]
  rfl

theorem scanl_getLastD (l : List Int) : ∀ a : Int,
    (List.scanl (· + ·) a l).getLastD 0 = a + l.sum := by
  induction l with
  | nil => intro a; simp [List.scanl]
  | cons x xs ih =>
    intro a
    rw [List.scanl_cons]
    show (a :: List.scanl (· + ·) (a + x) xs).getLastD 0 = _
    rw [List.getLastD_cons]
    have hne : List.scanl (· + ·) (a + x) xs ≠ [] := by
      intro hnil
      have hl := List.length_scanl (f := (· + ·)) (a + x) xs
      rw [hnil] at hl
      simp at hl
    rw [getLastD_irrel _ a 0 hne, ih (a + x), List.sum_cons]
    ring

theorem map_getD_range (row : List Int) :
    (List.range row.length).map (fun t => row.getD t 0) = row := by
  induction row with
  | nil => rfl
  | cons x xs ih =>
    rw [List.length_cons, List.range_succ_eq_map, List.map_cons,
      List.map_map]
    have h0 : (x :: xs).getD 0 0 = x := List.getD_cons_zero
    have hfun : ((fun t => (x :: xs).getD t 0) ∘ Nat.succ) =
        fun t => xs.getD t 0 := by
      funext t
      simp [List.getD_cons_succ]
    rw [h0, hfun, ih]

theorem slice_of_append (pre row rest : List Int) :
    (intRange (pre.length : Int) ((pre.length : Int) + row.length)).map
      (fun k => getI (pre ++ (row ++ rest)) k) = row := by
  unfold intRange
  rw [List.map_map]
  have e : (((pre.length : Int) + row.length) - pre.length).toNat =
      row.length := by omega
  rw [e]
  have hcong : ∀ t ∈ List.range row.length,
      ((fun k => getI (pre ++ (row ++ rest)) k) ∘
        fun t : Nat => (pre.length : Int) + t) t = row.getD t 0 := by
    intro t ht
    rw [List.mem_range] at ht
    show getI (pre ++ (row ++ rest)) ((pre.length : Int) + t) = row.getD t 0
    unfold getI
    rw [if_pos (by omega)]
    have e2 : ((pre.length : Int) + t).toNat = pre.length + t := by omega
    rw [e2, List.getD_eq_getElem?_getD, List.getD_eq_getElem?_getD,
      List.getElem?_append, if_neg (by omega)]
    have e3 : pre.length + t - pre.length = t := by omega
    rw [e3, List.getElem?_append, if_pos ht]
  rw [List.map_congr_left hcong, map_getD_range]

theorem flatten_take_length_cast (pat : List (List Int)) (i : Nat) :
    (((pat.take i).flatten.length : Nat) : Int) =
      ((pat.map (fun r => (r.length : Int))).take i).sum := by
  rw [List.length_flatten, Nat.cast_list_sum, List.map_take, List.map_take,
    List.map_map]
  rfl

theorem from_pattern_ia (rows cols : Int) (pat : List (List Int)) (i : Nat)
    (hi : i ≤ pat.length) :
    getI (from_pattern rows cols pat).ia (i : Int) =
      ((pat.map (fun r => (r.length : Int))).take i).sum := by
  show getI (List.scanl (· + ·) 0 _) (i : Int) = _
  rw [scanl_getI _ 0 i (by rw [List.length_map]; exact hi)]
  ring

theorem from_pattern_row (rows cols : Int) (pat : List (List Int)) (i : Nat)
    (hi : i < pat.length) :
    (rowRange (from_pattern rows cols pat) (i : Int)).map
      (fun k => getI (from_pattern rows cols pat).ja k) = pat.getD i [] := by
  have h1 := from_pattern_ia rows cols pat i (le_of_lt hi)
  have h2 := from_pattern_ia rows cols pat (i + 1) hi
  have hsplit : pat = pat.take i ++ (pat.getD i [] :: pat.drop (i + 1)) := by
    conv_lhs => rw [← List.take_append_drop i pat]
    congr 1
    rw [List.drop_eq_getElem_cons hi]
    congr 1
    exact (List.getD_eq_getElem pat [] hi).symm
  have hja : (from_pattern rows cols pat).ja =
      (pat.take i).flatten ++
        (pat.getD i [] ++ (pat.drop (i + 1)).flatten) := by
    show pat.flatten = _
    conv_lhs => rw [hsplit]
    rw [List.flatten_append, List.flatten_cons]
  have hoff : getI (from_pattern rows cols pat).ia (i : Int) =
      ((pat.take i).flatten.length : Int) := by
    rw [h1, flatten_take_length_cast]
  have hoff2 : getI (from_pattern rows cols pat).ia ((i : Int) + 1) =
      ((pat.take i).flatten.length : Int) +
        ((pat.getD i []).length : Int) := by
    have hc : ((i : Int) + 1) = ((i + 1 : Nat) : Int) := by push_cast; ring
    rw [hc, h2]
    rw [List.sum_take_succ _ i (by rw [List.length_map]; exact hi)]
    rw [← flatten_take_length_cast]
    congr 1
    rw [List.getElem_map, List.getD_eq_getElem pat [] hi]
  rw [rowRange, hoff, hoff2, hja]
  exact slice_of_append _ _ _

theorem flatMap_congr_mem {α β : Type} {l : List α} {f g : α → List β}
    (h : ∀ x ∈ l, f x = g x) : l.flatMap f = l.flatMap g := by
  induction l with
  | nil => rfl
  | cons x xs ih =>
    rw [List.flatMap_cons, List.flatMap_cons, h x (by simp),
      ih (fun y hy => h y (by simp [hy]))]

theorem intRange_eq_cons {a b : Int} (h : a < b) :
    intRange a b = a :: intRange (a + 1) b := by
  unfold intRange
  have e : (b - a).toNat = (b - (a + 1)).toNat + 1 := by omega
  rw [e, List.range_succ_eq_map, List.map_cons, List.map_map]
  congr 1
  · simp
  · congr 1
    funext t
    show a + ((t + 1 : Nat) : Int) = (a + 1) + (t : Int)
    push_cast
    ring

theorem patCoords_eq (pat : List (List Int)) :
    ∀ a : Int, (intRange a (a + pat.length)).flatMap
      (fun i => (pat.getD (i - a).toNat []).map (fun b => (i, b))) =
      patCoords a pat := by
  induction pat with
  | nil =>
    intro a
    have : intRange a (a + ([] : List (List Int)).length) = [] := by
      unfold intRange
      simp
    rw [this]
    rfl
  | cons r rs ih =>
    intro a
    have hcons : intRange a (a + ((r :: rs).length : Int)) =
        a :: intRange (a + 1) (a + ((r :: rs).length : Int)) := by
      apply intRange_eq_cons
      have : (0 : Int) < ((r :: rs).length : Int) := by
        rw [List.length_cons]; push_cast; omega
      omega
    rw [hcons, List.flatMap_cons]
    have e0 : ((a - a).toNat) = 0 := by omega
    have elen : a + ((r :: rs).length : Int) = (a + 1) + (rs.length : Int) := by
      rw [List.length_cons]
      push_cast
      ring
    rw [e0, elen, List.getD_cons_zero]
    have hfun : ∀ i ∈ intRange (a + 1) ((a + 1) + (rs.length : Int)),
        ((r :: rs).getD (i - a).toNat []).map (fun b => (i, b)) =
        (rs.getD (i - (a + 1)).toNat []).map (fun b => (i, b)) := by
      intro i hi
      rw [mem_intRange] at hi
      have e1 : (i - a).toNat = (i - (a + 1)).toNat + 1 := by omega
      rw [e1, List.getD_cons_succ]
    rw [flatMap_congr_mem hfun, ih (a + 1)]
    rfl

theorem structCoords_from_pattern (rows cols : Int) (pat : List (List Int))
    (hrows : rows = (pat.length : Int)) :
    structCoords (from_pattern rows cols pat) = patCoords 0 pat := by
  unfold structCoords
  have hr : (from_pattern rows cols pat).rows = (pat.length : Int) := hrows
  rw [hr]
  have hmem : ∀ i ∈ intRange 0 (pat.length : Int),
      (rowRange (from_pattern rows cols pat) i).map
        (fun k => (i, getI (from_pattern rows cols pat).ja k)) =
      (pat.getD (i - 0).toNat []).map (fun b => (i, b)) := by
    intro i hi
    rw [mem_intRange] at hi
    obtain ⟨t, rfl⟩ : ∃ t : Nat, (t : Int) = i := ⟨i.toNat, by omega⟩
    have ht : t < pat.length := by exact_mod_cast hi.2
    have hmm : (fun k => ((t : Int), getI (from_pattern rows cols pat).ja k)) =
        (fun b => ((t : Int), b)) ∘
          (fun k => getI (from_pattern rows cols pat).ja k) := rfl
    rw [hmm, ← List.map_map, from_pattern_row rows cols pat t ht]
    have e : ((t : Int) - 0).toNat = t := by omega
    rw [e]
  rw [flatMap_congr_mem hmem]
  have e2 : (pat.length : Int) = 0 + (pat.length : Int) := by ring
  rw [e2]
  exact patCoords_eq pat 0

-- ### effects of the to_general fold

theorem listApp_length (pat : List (List Int)) (i x : Int) :
    (listApp pat i x).length = pat.length := List.length_set pat i.toNat _

theorem listApp_getD (pat : List (List Int)) (i x : Int) (a : Nat)
    (hi2 : i.toNat < pat.length) :
    (listApp pat i x).getD a [] =
      if i.toNat = a then pat.getD a [] ++ [x] else pat.getD a [] := by
  unfold listApp
  rw [List.getD_eq_getElem?_getD, List.getElem?_set]
  by_cases h : i.toNat = a
  · rw [if_pos h, if_pos (by omega), if_pos h]
    subst h
    rw [List.getD_eq_getElem?_getD]
    cases hx : pat[i.toNat]? with
    | none =>
      rw [List.getElem?_eq_none_iff] at hx
      omega
    | some r => rfl
  · rw [if_neg h, if_neg h, List.getD_eq_getElem?_getD]

theorem listApp_count (pat : List (List Int)) (i x : Int) (a : Nat) (b : Int)
    (hi2 : i.toNat < pat.length) :
    ((listApp pat i x).getD a []).count b =
      (pat.getD a []).count b + (if i.toNat = a ∧ x = b then 1 else 0) := by
  rw [listApp_getD pat i x a hi2]
  by_cases h : i.toNat = a
  · rw [if_pos h, List.count_append]
    by_cases hx : x = b
    · rw [if_pos ⟨h, hx⟩]
      subst hx
      simp [List.count_cons]
    · rw [if_neg (by tauto)]
      simp [List.count_cons, hx]
  · rw [if_neg h, if_neg (by tauto)]
    omega

theorem tgStep_count (ja : List Int)
    (st : List (List Int) × List (List Int)) (e : Int × Int) (n : Nat)
    (hlen : st.1.length = n) (h1 : 0 ≤ e.1) (h2 : e.1 < (n : Int))
    (h3 : 0 ≤ getI ja e.2) (h4 : getI ja e.2 < (n : Int))
    (a : Nat) (b : Int) :
    ((tgStep ja st e).1.getD a []).count b =
      (st.1.getD a []).count b
      + (if e.1 = (a : Int) ∧ getI ja e.2 = b then 1 else 0)
      + (if e.1 ≠ getI ja e.2 ∧ getI ja e.2 = (a : Int) ∧ e.1 = b
          then 1 else 0) := by
  unfold tgStep
  by_cases hij : e.1 = getI ja e.2
  · rw [if_pos hij]
    show ((listApp st.1 e.1 (getI ja e.2)).getD a []).count b = _
    rw [listApp_count _ _ _ _ _ (by omega : e.1.toNat < st.1.length)]
    have hiff : (e.1.toNat = a ∧ getI ja e.2 = b) ↔
        (e.1 = (a : Int) ∧ getI ja e.2 = b) := by
      constructor
      · rintro ⟨u, v⟩; exact ⟨by omega, v⟩
      · rintro ⟨u, v⟩; exact ⟨by omega, v⟩
    rw [if_congr hiff rfl rfl,
      if_neg (fun hcon => hcon.1 hij :
        ¬(e.1 ≠ getI ja e.2 ∧ getI ja e.2 = (a : Int) ∧ e.1 = b))]
    omega
  · rw [if_neg hij]
    show ((listApp (listApp st.1 e.1 (getI ja e.2)) (getI ja e.2) e.1).getD
      a []).count b = _
    rw [listApp_count _ _ _ _ _
      (by rw [listApp_length]; omega : (getI ja e.2).toNat <
        (listApp st.1 e.1 (getI ja e.2)).length)]
    rw [listApp_count _ _ _ _ _ (by omega : e.1.toNat < st.1.length)]
    have hiff1 : (e.1.toNat = a ∧ getI ja e.2 = b) ↔
        (e.1 = (a : Int) ∧ getI ja e.2 = b) := by
      constructor
      · rintro ⟨u, v⟩; exact ⟨by omega, v⟩
      · rintro ⟨u, v⟩; exact ⟨by omega, v⟩
    have hiff2 : ((getI ja e.2).toNat = a ∧ e.1 = b) ↔
        (e.1 ≠ getI ja e.2 ∧ getI ja e.2 = (a : Int) ∧ e.1 = b) := by
      constructor
      · rintro ⟨u, v⟩; exact ⟨hij, by omega, v⟩
      · rintro ⟨u, v, w⟩; exact ⟨by omega, w⟩
    rw [if_congr hiff1 rfl rfl, if_congr hiff2 rfl rfl]

theorem tgFold_count (ja : List Int) (n : Nat) :
    ∀ (E : List (Int × Int)) (st : List (List Int) × List (List Int)),
      st.1.length = n →
      (∀ e ∈ E, 0 ≤ e.1 ∧ e.1 < (n : Int) ∧ 0 ≤ getI ja e.2 ∧
        getI ja e.2 < (n : Int)) →
      ∀ (a : Nat) (b : Int),
      ((E.foldl (tgStep ja) st).1.getD a []).count b =
        (st.1.getD a []).count b
        + (E.map (fun e => (e.1, getI ja e.2))).count ((a : Int), b)
        + ((E.map (fun e => (e.1, getI ja e.2))).filter
            (fun c => c.1 ≠ c.2)).count (b, (a : Int)) := by
  intro E
  induction E with
  | nil => intro st h1 h2 a b; simp
  | cons e E ih =>
    intro st hlen hE a b
    rw [List.foldl_cons]
    have he := hE e (by simp)
    have hlen2 : (tgStep ja st e).1.length = n := by
      unfold tgStep listApp
      by_cases hij : e.1 = getI ja e.2
      · simp [hij, List.length_set, hlen]
      · simp [hij, List.length_set, hlen]
    rw [ih (tgStep ja st e) hlen2 (fun y hy => hE y (by simp [hy])) a b]
    rw [tgStep_count ja st e n hlen he.1 he.2.1 he.2.2.1 he.2.2.2 a b]
    simp only [List.map_cons, List.filter_cons, ne_eq, decide_not,
      Bool.not_eq_true', decide_eq_false_iff_not, decide_eq_true_eq]
    split_ifs <;>
      simp only [List.count_cons, beq_iff_eq, Prod.mk.injEq] <;>
      split_ifs <;> omega

theorem sum_set_nat (l : List Nat) : ∀ (i : Nat) (v : Nat), i < l.length →
    (l.set i v).sum + l.getD i 0 = l.sum + v := by
  induction l with
  | nil => intro i v h; simp at h
  | cons x xs ih =>
    intro i v h
    cases i with
    | zero => simp [List.sum_cons]; omega
    | succ i =>
      rw [List.set_cons_succ, List.sum_cons, List.sum_cons,
        List.getD_cons_succ]
      have := ih i v (by simpa using h)
      omega

theorem listApp_flatten_length (pat : List (List Int)) (i x : Int)
    (hi2 : i.toNat < pat.length) :
    (listApp pat i x).flatten.length = pat.flatten.length + 1 := by
  rw [List.length_flatten, List.length_flatten]
  unfold listApp
  rw [List.map_set]
  have hlen : i.toNat < (pat.map List.length).length := by
    rw [List.length_map]; exact hi2
  have hsum := sum_set_nat (pat.map List.length) i.toNat
    (pat.getD i.toNat [] ++ [x]).length hlen
  have hg : (pat.map List.length).getD i.toNat 0 =
      (pat.getD i.toNat []).length := by
    rw [List.getD_eq_getElem _ _ hlen, List.getElem_map,
      List.getD_eq_getElem pat [] hi2]
  rw [hg, List.length_append] at hsum
  simp at hsum ⊢
  omega

theorem tgStep_lengths (ja : List Int)
    (st : List (List Int) × List (List Int)) (e : Int × Int) (n : Nat)
    (hlen1 : st.1.length = n) (hlen2 : st.2.length = n)
    (h1 : 0 ≤ e.1) (h2 : e.1 < (n : Int)) (h3 : 0 ≤ getI ja e.2)
    (h4 : getI ja e.2 < (n : Int)) :
    (tgStep ja st e).1.length = n ∧ (tgStep ja st e).2.length = n ∧
    (tgStep ja st e).1.flatten.length =
      st.1.flatten.length + (if e.1 = getI ja e.2 then 1 else 2) ∧
    (tgStep ja st e).2.flatten.length =
      st.2.flatten.length + (if e.1 = getI ja e.2 then 1 else 2) := by
  unfold tgStep
  by_cases hij : e.1 = getI ja e.2
  · rw [if_pos hij]
    refine ⟨by rw [listApp_length]; exact hlen1,
      by rw [listApp_length]; exact hlen2, ?_, ?_⟩
    · rw [if_pos hij, listApp_flatten_length _ _ _ (by omega)]
    · rw [if_pos hij, listApp_flatten_length _ _ _ (by omega)]
  · rw [if_neg hij]
    refine ⟨by rw [listApp_length, listApp_length]; exact hlen1,
      by rw [listApp_length, listApp_length]; exact hlen2, ?_, ?_⟩
    · rw [if_neg hij,
        listApp_flatten_length _ _ _
          (by rw [listApp_length]; omega),
        listApp_flatten_length _ _ _ (by omega)]
    · rw [if_neg hij,
        listApp_flatten_length _ _ _
          (by rw [listApp_length]; omega),
        listApp_flatten_length _ _ _ (by omega)]

theorem tgFold_lengths (ja : List Int) (n : Nat) :
    ∀ (E : List (Int × Int)) (st : List (List Int) × List (List Int)),
      st.1.length = n → st.2.length = n →
      (∀ e ∈ E, 0 ≤ e.1 ∧ e.1 < (n : Int) ∧ 0 ≤ getI ja e.2 ∧
        getI ja e.2 < (n : Int)) →
      (E.foldl (tgStep ja) st).1.length = n ∧
      (E.foldl (tgStep ja) st).2.length = n ∧
      (E.foldl (tgStep ja) st).1.flatten.length =
        st.1.flatten.length
        + (E.filter (fun e => e.1 = getI ja e.2)).length
        + 2 * (E.filter (fun e => ¬ e.1 = getI ja e.2)).length ∧
      (E.foldl (tgStep ja) st).2.flatten.length =
        st.2.flatten.length
        + (E.filter (fun e => e.1 = getI ja e.2)).length
        + 2 * (E.filter (fun e => ¬ e.1 = getI ja e.2)).length := by
  intro E
  induction E with
  | nil => intro st h1 h2 _; simpa using ⟨h1, h2⟩
  | cons e E ih =>
    intro st hlen1 hlen2 hE
    rw [List.foldl_cons]
    have he := hE e (by simp)
    obtain ⟨s1, s2, s3, s4⟩ := tgStep_lengths ja st e n hlen1 hlen2
      he.1 he.2.1 he.2.2.1 he.2.2.2
    obtain ⟨f1, f2, f3, f4⟩ := ih (tgStep ja st e) s1 s2
      (fun y hy => hE y (by simp [hy]))
    refine ⟨f1, f2, ?_, ?_⟩
    · rw [f3, s3]
      simp only [List.filter_cons, decide_eq_true_eq, decide_not,
        Bool.not_eq_true', decide_eq_false_iff_not]
      split_ifs <;> simp <;> omega
    · rw [f4, s4]
      simp only [List.filter_cons, decide_eq_true_eq, decide_not,
        Bool.not_eq_true', decide_eq_false_iff_not]
      split_ifs <;> simp <;> omega

theorem listApp_zip (P Q : List (List Int)) (i x y : Int) (a : Nat)
    (hiP : i.toNat < P.length) (hiQ : i.toNat < Q.length)
    (heq : (P.getD a []).length = (Q.getD a []).length) :
    ((listApp P i x).getD a []).zip ((listApp Q i y).getD a []) =
      if i.toNat = a then (P.getD a []).zip (Q.getD a []) ++ [(x, y)]
      else (P.getD a []).zip (Q.getD a []) := by
  rw [listApp_getD P i x a hiP, listApp_getD Q i y a hiQ]
  by_cases h : i.toNat = a
  · rw [if_pos h, if_pos h, if_pos h, List.zip_append heq]
    rfl
  · rw [if_neg h, if_neg h, if_neg h]

theorem listApp_getD_length (P : List (List Int)) (i x : Int) (a : Nat)
    (hiP : i.toNat < P.length) :
    ((listApp P i x).getD a []).length =
      (P.getD a []).length + (if i.toNat = a then 1 else 0) := by
  rw [listApp_getD P i x a hiP]
  by_cases h : i.toNat = a
  · rw [if_pos h, if_pos h, List.length_append]
    rfl
  · rw [if_neg h, if_neg h]
    omega

theorem tgStep_zip (s : SparseStructure)
    (st : List (List Int) × List (List Int)) (e : Int × Int) (n : Nat)
    (hlen1 : st.1.length = n) (hlen2 : st.2.length = n)
    (h1 : 0 ≤ e.1) (h2 : e.1 < (n : Int)) (h3 : 0 ≤ getI s.ja e.2)
    (h4 : getI s.ja e.2 < (n : Int)) (hkr : e.2 ∈ rowRange s e.1)
    (heq : ∀ a : Nat, (st.1.getD a []).length = (st.2.getD a []).length)
    (hrel : ∀ a : Nat, ∀ p ∈ (st.1.getD a []).zip (st.2.getD a []),
      OriginRel s (a : Int) p.1 p.2) :
    (∀ a : Nat, ((tgStep s.ja st e).1.getD a []).length =
      ((tgStep s.ja st e).2.getD a []).length) ∧
    (∀ a : Nat, ∀ p ∈ ((tgStep s.ja st e).1.getD a []).zip
        ((tgStep s.ja st e).2.getD a []),
      OriginRel s (a : Int) p.1 p.2) := by
  unfold tgStep
  by_cases hij : e.1 = getI s.ja e.2
  · rw [if_pos hij]
    have hiP : e.1.toNat < st.1.length := by omega
    have hiQ : e.1.toNat < st.2.length := by omega
    constructor
    · intro a
      show ((listApp st.1 e.1 (getI s.ja e.2)).getD a []).length =
        ((listApp st.2 e.1 e.2).getD a []).length
      rw [listApp_getD_length _ _ _ _ hiP, listApp_getD_length _ _ _ _ hiQ,
        heq a]
    · intro a p hp
      show OriginRel s (a : Int) p.1 p.2
      rw [show ((listApp st.1 e.1 (getI s.ja e.2)).getD a []).zip
          ((listApp st.2 e.1 e.2).getD a []) = _ from
          listApp_zip st.1 st.2 e.1 (getI s.ja e.2) e.2 a hiP hiQ (heq a)]
        at hp
      by_cases ha : e.1.toNat = a
      · rw [if_pos ha] at hp
        rcases List.mem_append.mp hp with hp | hp
        · exact hrel a p hp
        · have : p = (getI s.ja e.2, e.2) := by simpa using hp
          subst this
          left
          refine ⟨rfl, ?_⟩
          have : (a : Int) = e.1 := by omega
          rw [this]
          exact hkr
      · rw [if_neg ha] at hp
        exact hrel a p hp
  · rw [if_neg hij]
    have hiP : e.1.toNat < st.1.length := by omega
    have hiQ : e.1.toNat < st.2.length := by omega
    have hjP : (getI s.ja e.2).toNat < (listApp st.1 e.1 (getI s.ja e.2)).length := by
      rw [listApp_length]; omega
    have hjQ : (getI s.ja e.2).toNat < (listApp st.2 e.1 e.2).length := by
      rw [listApp_length]; omega
    have heq2 : ∀ a : Nat,
        ((listApp st.1 e.1 (getI s.ja e.2)).getD a []).length =
        ((listApp st.2 e.1 e.2).getD a []).length := by
      intro a
      rw [listApp_getD_length _ _ _ _ hiP, listApp_getD_length _ _ _ _ hiQ,
        heq a]
    constructor
    · intro a
      show ((listApp (listApp st.1 e.1 (getI s.ja e.2)) (getI s.ja e.2)
          e.1).getD a []).length = _
      rw [listApp_getD_length _ _ _ _ hjP, listApp_getD_length _ _ _ _ hjQ,
        heq2 a]
    · intro a p hp
      show OriginRel s (a : Int) p.1 p.2
      rw [show ((listApp (listApp st.1 e.1 (getI s.ja e.2)) (getI s.ja e.2)
          e.1).getD a []).zip ((listApp (listApp st.2 e.1 e.2)
          (getI s.ja e.2) e.2).getD a []) = _ from
          listApp_zip _ _ (getI s.ja e.2) e.1 e.2 a hjP hjQ (heq2 a)] at hp
      by_cases ha2 : (getI s.ja e.2).toNat = a
      · rw [if_pos ha2] at hp
        rcases List.mem_append.mp hp with hp | hp
        · rw [show ((listApp st.1 e.1 (getI s.ja e.2)).getD a []).zip
              ((listApp st.2 e.1 e.2).getD a []) = _ from
              listApp_zip st.1 st.2 e.1 (getI s.ja e.2) e.2 a hiP hiQ
                (heq a)] at hp
          by_cases ha : e.1.toNat = a
          · rw [if_pos ha] at hp
            rcases List.mem_append.mp hp with hp | hp
            · exact hrel a p hp
            · have : p = (getI s.ja e.2, e.2) := by simpa using hp
              subst this
              left
              refine ⟨rfl, ?_⟩
              have : (a : Int) = e.1 := by omega
              rw [this]
              exact hkr
          · rw [if_neg ha] at hp
            exact hrel a p hp
        · have : p = (e.1, e.2) := by simpa using hp
          subst this
          right
          constructor
          · show (a : Int) = getI s.ja e.2
            omega
          · show e.2 ∈ rowRange s e.1
            exact hkr
      · rw [if_neg ha2] at hp
        rw [show ((listApp st.1 e.1 (getI s.ja e.2)).getD a []).zip
            ((listApp st.2 e.1 e.2).getD a []) = _ from
            listApp_zip st.1 st.2 e.1 (getI s.ja e.2) e.2 a hiP hiQ
              (heq a)] at hp
        by_cases ha : e.1.toNat = a
        · rw [if_pos ha] at hp
          rcases List.mem_append.mp hp with hp | hp
          · exact hrel a p hp
          · have : p = (getI s.ja e.2, e.2) := by simpa using hp
            subst this
            left
            refine ⟨rfl, ?_⟩
            have : (a : Int) = e.1 := by omega
            rw [this]
            exact hkr
        · rw [if_neg ha] at hp
          exact hrel a p hp

theorem tgFold_zip (s : SparseStructure) (n : Nat) :
    ∀ (E : List (Int × Int)) (st : List (List Int) × List (List Int)),
      st.1.length = n → st.2.length = n →
      (∀ e ∈ E, 0 ≤ e.1 ∧ e.1 < (n : Int) ∧ 0 ≤ getI s.ja e.2 ∧
        getI s.ja e.2 < (n : Int) ∧ e.2 ∈ rowRange s e.1) →
      (∀ a : Nat, (st.1.getD a []).length = (st.2.getD a []).length) →
      (∀ a : Nat, ∀ p ∈ (st.1.getD a []).zip (st.2.getD a []),
        OriginRel s (a : Int) p.1 p.2) →
      (∀ a : Nat, ((E.foldl (tgStep s.ja) st).1.getD a []).length =
        ((E.foldl (tgStep s.ja) st).2.getD a []).length) ∧
      (∀ a : Nat, ∀ p ∈ ((E.foldl (tgStep s.ja) st).1.getD a []).zip
          ((E.foldl (tgStep s.ja) st).2.getD a []),
        OriginRel s (a : Int) p.1 p.2) := by
  intro E
  induction E with
  | nil => intro st _ _ _ heq hrel; exact ⟨heq, hrel⟩
  | cons e E ih =>
    intro st hlen1 hlen2 hE heq hrel
    rw [List.foldl_cons]
    have he := hE e (by simp)
    obtain ⟨z1, z2⟩ := tgStep_zip s st e n hlen1 hlen2 he.1 he.2.1
      he.2.2.1 he.2.2.2.1 he.2.2.2.2 heq hrel
    have hl := tgStep_lengths s.ja st e n hlen1 hlen2 he.1 he.2.1
      he.2.2.1 he.2.2.2.1
    exact ih (tgStep s.ja st e) hl.1 hl.2.1
      (fun y hy => hE y (by simp [hy])) z1 z2

theorem mem_tgEntries {s : SparseStructure} {e : Int × Int} :
    e ∈ tgEntries s ↔ e.1 ∈ intRange 0 s.rows ∧ e.2 ∈ rowRange s e.1 := by
  unfold tgEntries
  rw [List.mem_flatMap]
  constructor
  · rintro ⟨i, hi, hmem⟩
    rw [List.mem_map] at hmem
    obtain ⟨k, hk, rfl⟩ := hmem
    exact ⟨hi, hk⟩
  · rintro ⟨h1, h2⟩
    exact ⟨e.1, h1, List.mem_map.mpr ⟨e.2, h2, rfl⟩⟩

theorem intRange_succ_right {a : Int} (b : Int) (h : a ≤ b) :
    intRange a (b + 1) = intRange a b ++ [b] := by
  unfold intRange
  have e : (b + 1 - a).toNat = (b - a).toNat + 1 := by omega
  rw [e, List.range_succ, List.map_append]
  congr 1
  show [a + ((b - a).toNat : Int)] = [b]
  congr 1
  omega

theorem entries_telescope (s : SparseStructure) (hmono : MonotoneIa s.ia) :
    ∀ m : Nat, m < s.ia.length →
      (((intRange 0 (m : Int)).flatMap
        (fun i => (rowRange s i).map (fun k => (i, k)))).length : Int) =
        getI s.ia (m : Int) - getI s.ia 0 := by
  intro m
  induction m with
  | zero =>
    intro _
    have h00 : ((0 : Nat) : Int) = 0 := rfl
    rw [h00]
    have hnil : intRange 0 0 = [] := by unfold intRange; simp
    rw [hnil]
    simp
  | succ m ih =>
    intro h
    have hc : ((m + 1 : Nat) : Int) = (m : Int) + 1 := by push_cast; ring
    rw [hc, intRange_succ_right _ (by omega : (0:Int) ≤ (m : Int)),
      List.flatMap_append, List.length_append]
    have hmo := hmono m h
    have hsingle : ((([(m : Int)].flatMap
        (fun i => (rowRange s i).map (fun k => (i, k)))).length) : Int) =
        getI s.ia ((m : Int) + 1) - getI s.ia (m : Int) := by
      show ((((rowRange s (m : Int)).map
        (fun k => ((m : Int), k))) ++ []).length : Int) = _
      rw [List.append_nil, List.length_map, rowRange, length_intRange]
      omega
    push_cast
    push_cast at ih hsingle
    rw [ih (by omega), hsingle]
    ring

theorem getI_mem {l : List Int} {k : Int} (h1 : 0 ≤ k)
    (h2 : k < (l.length : Int)) : getI l k ∈ l := by
  unfold getI
  rw [if_pos h1, List.getD_eq_getElem _ _ (by omega : k.toNat < l.length)]
  exact List.getElem_mem _

theorem tgEntries_bounds (s : SparseStructure)
    (hlen : (s.ia.length : Int) = s.rows + 1)
    (h0 : getI s.ia 0 = 0) (hmono : MonotoneIa s.ia)
    (hlast : s.ia.getLastD 0 = (s.ja.length : Int))
    (hjrange : ∀ j ∈ s.ja, 0 ≤ j ∧ j < s.rows) :
    ∀ e ∈ tgEntries s, 0 ≤ e.1 ∧ e.1 < s.rows ∧ 0 ≤ getI s.ja e.2 ∧
      getI s.ja e.2 < s.rows ∧ e.2 ∈ rowRange s e.1 ∧
      0 ≤ e.2 ∧ e.2 < (s.ja.length : Int) := by
  intro e he
  rw [mem_tgEntries] at he
  obtain ⟨h1, h2⟩ := he
  rw [mem_intRange] at h1
  have hkmem := h2
  rw [rowRange, mem_intRange] at h2
  have hne : s.ia ≠ [] := by
    intro hnil
    rw [hnil] at hlen
    simp at hlen
    omega
  have hlo : 0 ≤ getI s.ia e.1 := by
    have := monotone_getI_int hmono (a := 0) (b := e.1) le_rfl h1.1
      (by omega)
    omega
  have hhi : getI s.ia (e.1 + 1) ≤ (s.ja.length : Int) := by
    rw [← hlast, getLastD_eq_getI s.ia hne]
    exact monotone_getI_int hmono (by omega) (by omega) (by omega)
  have hk1 : 0 ≤ e.2 := by omega
  have hk2 : e.2 < (s.ja.length : Int) := by omega
  have hjm := hjrange _ (getI_mem hk1 hk2)
  exact ⟨h1.1, h1.2, hjm.1, hjm.2, hkmem, hk1, hk2⟩

theorem foldl_append_map (values : List Int) :
    ∀ (row : List Int) (acc : List Int),
      row.foldl (fun acc2 k => acc2 ++ [getI values k]) acc =
        acc ++ row.map (fun k => getI values k) := by
  intro row
  induction row with
  | nil => intro acc; simp
  | cons x xs ih =>
    intro acc
    rw [List.foldl_cons, ih, List.map_cons]
    simp

theorem scatter_eq_map (values : List Int) :
    ∀ (rowsList : List (List Int)) (acc : List Int),
      rowsList.foldl
        (fun acc2 row =>
          row.foldl (fun acc3 k => acc3 ++ [getI values k]) acc2) acc =
        acc ++ rowsList.flatten.map (fun k => getI values k) := by
  intro rl
  induction rl with
  | nil => intro acc; simp
  | cons r rs ih =>
    intro acc
    rw [List.foldl_cons, foldl_append_map values r acc, ih,
      List.flatten_cons, List.map_append, List.append_assoc]

theorem count_map_pair (r : List Int) (c a b : Int) :
    (r.map (fun x => (c, x))).count (a, b) =
      if a = c then r.count b else 0 := by
  induction r with
  | nil => simp
  | cons x xs ih =>
    rw [List.map_cons, List.count_cons, ih, List.count_cons]
    by_cases hac : a = c
    · by_cases hxb : x = b
      · rw [if_pos hac, if_pos hac]
        have : ((c, x) == (a, b)) = true := by
          rw [beq_iff_eq, Prod.mk.injEq]
          exact ⟨hac.symm, hxb⟩
        rw [this]
        have : (x == b) = true := by rw [beq_iff_eq]; exact hxb
        rw [this]
      · rw [if_pos hac, if_pos hac]
        have h1 : ((c, x) == (a, b)) = false := by
          rw [beq_eq_false_iff_ne]
          intro hcon
          rw [Prod.mk.injEq] at hcon
          exact hxb hcon.2
        have h2 : (x == b) = false := by
          rw [beq_eq_false_iff_ne]
          exact hxb
        rw [h1, h2]
    · rw [if_neg hac, if_neg hac]
      have h1 : ((c, x) == (a, b)) = false := by
        rw [beq_eq_false_iff_ne]
        intro hcon
        rw [Prod.mk.injEq] at hcon
        exact hac hcon.1.symm
      rw [h1]
      simp

theorem patCoords_count_lt (pat : List (List Int)) :
    ∀ (a0 a b : Int), a < a0 → (patCoords a0 pat).count (a, b) = 0 := by
  induction pat with
  | nil => intro a0 a b _; rfl
  | cons r rs ih =>
    intro a0 a b h
    show (r.map (fun x => (a0, x)) ++ patCoords (a0 + 1) rs).count (a, b) = 0
    rw [List.count_append, count_map_pair, if_neg (by omega),
      ih (a0 + 1) a b (by omega)]

theorem patCoords_count_in (pat : List (List Int)) :
    ∀ (a0 a b : Int), a0 ≤ a → a < a0 + pat.length →
      (patCoords a0 pat).count (a, b) =
        (pat.getD (a - a0).toNat []).count b := by
  induction pat with
  | nil =>
    intro a0 a b h1 h2
    simp at h2
    omega
  | cons r rs ih =>
    intro a0 a b h1 h2
    show (r.map (fun x => (a0, x)) ++ patCoords (a0 + 1) rs).count (a, b) = _
    rw [List.count_append, count_map_pair]
    by_cases ha : a = a0
    · rw [if_pos ha, patCoords_count_lt rs (a0 + 1) a b (by omega)]
      have e : (a - a0).toNat = 0 := by omega
      rw [e, List.getD_cons_zero]
      omega
    · rw [if_neg ha]
      have hlen : a < (a0 + 1) + rs.length := by
        rw [List.length_cons] at h2
        push_cast at h2 ⊢
        omega
      rw [ih (a0 + 1) a b (by omega) hlen]
      have e : (a - a0).toNat = (a - (a0 + 1)).toNat + 1 := by omega
      rw [e, List.getD_cons_succ]
      omega

theorem from_pattern_nnz (rows cols : Int) (pat : List (List Int)) :
    nb_nonzeros (from_pattern rows cols pat) = (pat.flatten.length : Int) := by
  show (List.scanl (· + ·) 0 _).getLastD 0 = _
  rw [scanl_getLastD, zero_add, List.length_flatten, Nat.cast_list_sum,
    List.map_map]
  rfl

theorem diag_filter_length (coords : List (Int × Int)) (n : Nat)
    (hnodup : coords.Nodup)
    (hrange : ∀ c ∈ coords, 0 ≤ c.1 ∧ c.1 < (n : Int) ∧ 0 ≤ c.2 ∧
      c.2 < (n : Int))
    (hdiag : ∀ a ∈ intRange 0 (n : Int), (a, a) ∈ coords) :
    (coords.filter (fun c => c.1 = c.2)).length = n := by
  have hD : (coords.filter (fun c => decide (c.1 = c.2))).Nodup :=
    hnodup.filter _
  have hM : ((intRange 0 (n : Int)).map
      (fun a => ((a, a) : Int × Int))).Nodup := by
    refine List.Nodup.map ?_ (nodup_intRange 0 (n : Int))
    intro x y h
    injection h
  have hext : ∀ c : Int × Int,
      c ∈ coords.filter (fun c => decide (c.1 = c.2)) ↔
      c ∈ (intRange 0 (n : Int)).map (fun a => ((a, a) : Int × Int)) := by
    intro c
    rw [List.mem_filter, List.mem_map]
    constructor
    · rintro ⟨hc, hd⟩
      rw [decide_eq_true_eq] at hd
      obtain ⟨r1, r2, r3, r4⟩ := hrange c hc
      exact ⟨c.1, mem_intRange.mpr ⟨r1, r2⟩, Prod.ext rfl hd⟩
    · rintro ⟨a, ha, rfl⟩
      exact ⟨hdiag a ha, by simp⟩
  have hfin : (coords.filter (fun c => decide (c.1 = c.2))).toFinset =
      ((intRange 0 (n : Int)).map (fun a => ((a, a) : Int × Int))).toFinset := by
    apply Finset.ext
    intro c
    rw [List.mem_toFinset, List.mem_toFinset]
    exact hext c
  have hc1 := List.toFinset_card_of_nodup hD
  have hc2 := List.toFinset_card_of_nodup hM
  have hlenM : ((intRange 0 (n : Int)).map
      (fun a => ((a, a) : Int × Int))).length = n := by
    rw [List.length_map, length_intRange]
    omega
  calc (coords.filter (fun c => c.1 = c.2)).length
      = (coords.filter (fun c => decide (c.1 = c.2))).toFinset.card :=
        hc1.symm
    _ = ((intRange 0 (n : Int)).map
        (fun a => ((a, a) : Int × Int))).toFinset.card := by rw [hfin]
    _ = n := by rw [hc2, hlenM]

theorem patCoords_zip_flatten (s : SparseStructure) :
    ∀ (pat ind : List (List Int)) (a0 : Int),
      (∀ t : Nat, (pat.getD t []).length = (ind.getD t []).length) →
      pat.length = ind.length →
      (∀ t : Nat, t < pat.length →
        ∀ p ∈ (pat.getD t []).zip (ind.getD t []),
          OriginRel s (a0 + (t : Int)) p.1 p.2) →
      ∀ q ∈ (patCoords a0 pat).zip ind.flatten,
        OriginRel s q.1.1 q.1.2 q.2 := by
  intro pat
  induction pat with
  | nil => intro ind a0 _ _ _ q hq; simp [patCoords] at hq
  | cons r rs ih =>
    intro ind a0 hrow hcount hrel q hq
    cases ind with
    | nil => simp at hcount
    | cons i0 irest =>
      show OriginRel s q.1.1 q.1.2 q.2
      have hr0 : r.length = i0.length := by
        have := hrow 0
        simpa using this
      have hz : (patCoords a0 (r :: rs)).zip (i0 :: irest).flatten =
          ((r.map (fun b => (a0, b))).zip i0) ++
            ((patCoords (a0 + 1) rs).zip irest.flatten) := by
        show ((r.map (fun b => (a0, b))) ++ patCoords (a0 + 1) rs).zip
          (i0 ++ irest.flatten) = _
        rw [List.zip_append (by rw [List.length_map]; exact hr0)]
      rw [hz] at hq
      rcases List.mem_append.mp hq with hq | hq
      · rw [List.zip_map_left] at hq
        rw [List.mem_map] at hq
        obtain ⟨p, hp, rfl⟩ := hq
        have := hrel 0 (by simp) p (by simpa using hp)
        simpa using this
      · refine ih irest (a0 + 1) ?_ (by simpa using hcount) ?_ q hq
        · intro t
          have := hrow (t + 1)
          simpa using this
        · intro t ht p hp
          have := hrel (t + 1) (by simpa using ht) p (by simpa using hp)
          have e : a0 + ((t + 1 : Nat) : Int) = (a0 + 1) + (t : Int) := by
            push_cast
            ring
          rw [e] at this
          exact this

theorem getD_replicate_nil (n t : Nat) :
    (List.replicate n ([] : List Int)).getD t [] = [] := by
  rw [List.getD_eq_getElem?_getD, List.getElem?_replicate]
  by_cases h : t < n
  · rw [if_pos h]
    rfl
  · rw [if_neg h]
    rfl

theorem count_pair_eq_one {l : List (Int × Int)} {c : Int × Int}
    (hnd : l.Nodup) (hc : c ∈ l) : l.count c = 1 := by
  induction l with
  | nil => simp at hc
  | cons x xs ih =>
    rw [List.count_cons]
    rcases List.mem_cons.mp hc with rfl | hc2
    · have hnx : c ∉ xs := (List.nodup_cons.mp hnd).1
      have hz : xs.count c = 0 := by
        rw [List.count_eq_zero]
        exact hnx
      rw [hz]
      simp
    · rw [ih (List.nodup_cons.mp hnd).2 hc2]
      have hne : x ≠ c := by
        intro h
        subst h
        exact (List.nodup_cons.mp hnd).1 hc2
      have hb : (x == c) = false := by
        rw [beq_eq_false_iff_ne]
        exact hne
      rw [hb]
      simp

/-- C3: for every square pattern with valid offsets and in-range
secondary indices that stores exactly one triangle of a symmetric matrix
with the full diagonal included — each coordinate stored at most once,
no off-diagonal pair stored on both sides, every diagonal coordinate
present — `to_general` yields a pattern with exactly `2*nnz - n` slots
in which each diagonal coordinate appears exactly once and each stored
off-diagonal pair appears exactly twice (once per triangle); the
accompanying slot map has length `2*nnz - n` and sends each full-pattern
slot to its originating triangular slot (`OriginRel`); and the value
overload scatters a value array through exactly that slot map. -/
theorem c3_to_general_spec (s : SparseStructure)
    (hsq : s.rows = s.cols) (hpos : 0 ≤ s.rows)
    (hlen : (s.ia.length : Int) = s.rows + 1)
    (h0 : getI s.ia 0 = 0) (hmono : MonotoneIa s.ia)
    (hlast : s.ia.getLastD 0 = (s.ja.length : Int))
    (hjrange : ∀ j ∈ s.ja, 0 ≤ j ∧ j < s.rows)
    (hdiag : ∀ a ∈ intRange 0 s.rows, ((a, a) : Int × Int) ∈ structCoords s)
    (hnodup : (structCoords s).Nodup)
    (htri : ∀ c ∈ structCoords s, ((c.2, c.1) : Int × Int) ∈ structCoords s →
      c.1 = c.2) :
    nb_nonzeros (to_general s).1 = 2 * nb_nonzeros s - s.rows ∧
    ((to_general s).2.length : Int) = 2 * nb_nonzeros s - s.rows ∧
    (∀ a : Int, 0 ≤ a → a < s.rows →
      (structCoords (to_general s).1).count (a, a) = 1) ∧
    (∀ c : Int × Int, c ∈ structCoords s → c.1 ≠ c.2 →
      (structCoords (to_general s).1).count c = 1 ∧
      (structCoords (to_general s).1).count (c.2, c.1) = 1) ∧
    (∀ q ∈ (structCoords (to_general s).1).zip (to_general s).2,
      OriginRel s q.1.1 q.1.2 q.2) ∧
    (∀ values : List Int,
      (to_general_values s values).1 = (to_general s).1 ∧
      (to_general_values s values).2 =
        (to_general s).2.map (fun k => getI values k)) := by
  have hn : ((s.rows.toNat : Nat) : Int) = s.rows := by omega
  have hEb := tgEntries_bounds s hlen h0 hmono hlast hjrange
  have hEb2 : ∀ e ∈ tgEntries s, 0 ≤ e.1 ∧ e.1 < ((s.rows.toNat : Nat) : Int) ∧
      0 ≤ getI s.ja e.2 ∧ getI s.ja e.2 < ((s.rows.toNat : Nat) : Int) := by
    intro e he
    obtain ⟨a1, a2, a3, a4, -, -, -⟩ := hEb e he
    exact ⟨a1, by omega, a3, by omega⟩
  have hl0a : (List.replicate s.rows.toNat ([] : List Int)).length =
      s.rows.toNat := List.length_replicate _ _
  obtain ⟨f1, f2, f3, f4⟩ := tgFold_lengths s.ja s.rows.toNat (tgEntries s)
    (List.replicate s.rows.toNat [], List.replicate s.rows.toNat [])
    hl0a hl0a hEb2
  have hflat0 : (List.replicate s.rows.toNat ([] : List Int)).flatten.length
      = 0 := by
    rw [List.length_flatten, List.map_replicate]
    simp
  have hplen : (((tgState s).1.length : Nat) : Int) = s.rows := by
    show ((((tgEntries s).foldl (tgStep s.ja)
      (List.replicate s.rows.toNat [],
        List.replicate s.rows.toNat [])).1.length : Nat) : Int) = s.rows
    rw [f1]
    omega
  have hcoords := entriesCoords_eq s
  have hcrange : ∀ c ∈ structCoords s, 0 ≤ c.1 ∧
      c.1 < ((s.rows.toNat : Nat) : Int) ∧ 0 ≤ c.2 ∧
      c.2 < ((s.rows.toNat : Nat) : Int) := by
    intro c hc
    rw [← hcoords, List.mem_map] at hc
    obtain ⟨e, he, rfl⟩ := hc
    obtain ⟨a1, a2, a3, a4, -, -, -⟩ := hEb e he
    exact ⟨a1, by omega, a3, by omega⟩
  have hdlen : ((structCoords s).filter
      (fun c => c.1 = c.2)).length = s.rows.toNat := by
    apply diag_filter_length _ s.rows.toNat hnodup hcrange
    intro a ha
    apply hdiag
    rwa [hn] at ha
  have hEnnz : (((tgEntries s).length : Nat) : Int) = nb_nonzeros s := by
    have htel := entries_telescope s hmono s.rows.toNat (by omega)
    have hne : s.ia ≠ [] := by
      intro hnil
      rw [hnil] at hlen
      simp at hlen
      omega
    have hnnz : nb_nonzeros s = getI s.ia s.rows := by
      rw [nb_nonzeros, getLastD_eq_getI s.ia hne]
      congr 1
      omega
    have hnnz2 : nb_nonzeros s = getI s.ia ((s.rows.toNat : Nat) : Int) := by
      rw [hnnz]
      congr 1
      omega
    rw [hnnz2]
    show (((intRange 0 s.rows).flatMap
      (fun i => (rowRange s i).map (fun k => (i, k)))).length : Int) = _
    have hrw : intRange 0 s.rows =
        intRange 0 ((s.rows.toNat : Nat) : Int) := by rw [hn]
    rw [hrw, htel, h0]
    ring
  have hEdiag : ((tgEntries s).filter
      (fun e => e.1 = getI s.ja e.2)).length = s.rows.toNat := by
    have hc2 := congrArg
      (fun l : List (Int × Int) =>
        (l.filter (fun c => decide (c.1 = c.2))).length) hcoords
    simp only at hc2
    rw [List.filter_map, List.length_map] at hc2
    exact hc2.trans hdlen
  have hEsplit : (tgEntries s).length =
      ((tgEntries s).filter (fun e => e.1 = getI s.ja e.2)).length +
      ((tgEntries s).filter (fun e => ¬ e.1 = getI s.ja e.2)).length := by
    have hsp := List.length_eq_countP_add_countP
      (fun e : Int × Int => decide (e.1 = getI s.ja e.2)) (tgEntries s)
    rw [List.countP_eq_length_filter, List.countP_eq_length_filter] at hsp
    simp only [decide_eq_true_eq] at hsp
    exact hsp
  have hres1 : nb_nonzeros (to_general s).1 = 2 * nb_nonzeros s - s.rows := by
    show nb_nonzeros (from_pattern s.rows s.cols (tgState s).1) = _
    rw [from_pattern_nnz]
    show (((tgEntries s).foldl (tgStep s.ja)
      (List.replicate s.rows.toNat [],
        List.replicate s.rows.toNat [])).1.flatten.length : Int) = _
    rw [f3, hflat0]
    omega
  have hres2 : ((to_general s).2.length : Int) =
      2 * nb_nonzeros s - s.rows := by
    show (((tgEntries s).foldl (tgStep s.ja)
      (List.replicate s.rows.toNat [],
        List.replicate s.rows.toNat [])).2.flatten.length : Int) = _
    rw [f4, hflat0]
    omega
  have hSC : structCoords (to_general s).1 = patCoords 0 (tgState s).1 := by
    show structCoords (from_pattern s.rows s.cols (tgState s).1) = _
    apply structCoords_from_pattern
    rw [← hplen]
  have hcount := tgFold_count s.ja s.rows.toNat (tgEntries s)
    (List.replicate s.rows.toNat [], List.replicate s.rows.toNat [])
    hl0a hEb2
  have hcount2 : ∀ (a : Nat) (b : Int),
      (((tgState s).1.getD a []).count b) =
        (structCoords s).count ((a : Int), b) +
        ((structCoords s).filter (fun c => c.1 ≠ c.2)).count (b, (a : Int)) := by
    intro a b
    have := hcount a b
    rw [hcoords] at this
    show (((tgEntries s).foldl (tgStep s.ja)
      (List.replicate s.rows.toNat [],
        List.replicate s.rows.toNat [])).1.getD a []).count b = _
    rw [this, getD_replicate_nil]
    simp
  have hres3 : ∀ a : Int, 0 ≤ a → a < s.rows →
      (structCoords (to_general s).1).count (a, a) = 1 := by
    intro a ha1 ha2
    rw [hSC, patCoords_count_in _ 0 a a ha1 (by rw [zero_add, hplen]; omega)]
    have e : (a - 0).toNat = a.toNat := by omega
    rw [e, hcount2 a.toNat a]
    have ec : ((a.toNat : Nat) : Int) = a := by omega
    rw [ec]
    have c1 : (structCoords s).count (a, a) = 1 :=
      count_pair_eq_one hnodup
        (hdiag a (mem_intRange.mpr ⟨ha1, ha2⟩))
    have c2 : ((structCoords s).filter
        (fun c => c.1 ≠ c.2)).count (a, a) = 0 := by
      rw [List.count_eq_zero]
      intro hmem
      rw [List.mem_filter] at hmem
      simp at hmem
    rw [c1, c2]
  have hres4 : ∀ c : Int × Int, c ∈ structCoords s → c.1 ≠ c.2 →
      (structCoords (to_general s).1).count c = 1 ∧
      (structCoords (to_general s).1).count (c.2, c.1) = 1 := by
    intro c hc hne
    obtain ⟨r1, r2, r3, r4⟩ := hcrange c hc
    have hnc : ((c.2, c.1) : Int × Int) ∉ structCoords s := by
      intro hmem
      exact hne (htri c hc hmem)
    constructor
    · rw [hSC]
      have hcc : c = (c.1, c.2) := rfl
      rw [hcc, patCoords_count_in _ 0 c.1 c.2 r1
        (by rw [zero_add, hplen]; omega)]
      have e : (c.1 - 0).toNat = c.1.toNat := by omega
      rw [e, hcount2 c.1.toNat c.2]
      have ec : ((c.1.toNat : Nat) : Int) = c.1 := by omega
      rw [ec]
      have c1 : (structCoords s).count (c.1, c.2) = 1 := by
        rw [← hcc]
        exact count_pair_eq_one hnodup hc
      have c2 : ((structCoords s).filter
          (fun d => d.1 ≠ d.2)).count (c.2, c.1) = 0 := by
        rw [List.count_eq_zero]
        intro hmem
        exact hnc ((List.filter_sublist _).subset hmem)
      rw [c1, c2]
    · rw [hSC, patCoords_count_in _ 0 c.2 c.1 r3
        (by rw [zero_add, hplen]; omega)]
      have e : (c.2 - 0).toNat = c.2.toNat := by omega
      rw [e, hcount2 c.2.toNat c.1]
      have ec : ((c.2.toNat : Nat) : Int) = c.2 := by omega
      rw [ec]
      have c1 : (structCoords s).count (c.2, c.1) = 0 := by
        rw [List.count_eq_zero]
        exact hnc
      have c2 : ((structCoords s).filter
          (fun d => d.1 ≠ d.2)).count (c.1, c.2) = 1 := by
        apply count_pair_eq_one (hnodup.filter _)
        rw [List.mem_filter]
        refine ⟨by rw [← (rfl : c = (c.1, c.2))]; exact hc, by
          simp [hne]⟩
      rw [c1, c2]
  have hEb4 : ∀ e ∈ tgEntries s, 0 ≤ e.1 ∧
      e.1 < ((s.rows.toNat : Nat) : Int) ∧ 0 ≤ getI s.ja e.2 ∧
      getI s.ja e.2 < ((s.rows.toNat : Nat) : Int) ∧
      e.2 ∈ rowRange s e.1 := by
    intro e he
    obtain ⟨a1, a2, a3, a4, a5, -, -⟩ := hEb e he
    exact ⟨a1, by omega, a3, by omega, a5⟩
  obtain ⟨z1, z2⟩ := tgFold_zip s s.rows.toNat (tgEntries s)
    (List.replicate s.rows.toNat [], List.replicate s.rows.toNat [])
    hl0a hl0a hEb4
    (fun a => by simp only [getD_replicate_nil])
    (fun a p hp => by simp only [getD_replicate_nil, List.zip_nil_left] at hp; simp at hp)
  have hres5 : ∀ q ∈ (structCoords (to_general s).1).zip (to_general s).2,
      OriginRel s q.1.1 q.1.2 q.2 := by
    intro q hq
    rw [hSC] at hq
    refine patCoords_zip_flatten s (tgState s).1 (tgState s).2 0
      z1 (f1.trans f2.symm) ?_ q hq
    intro t ht p hp
    have := z2 t p hp
    rwa [zero_add]
  refine ⟨hres1, hres2, hres3, hres4, hres5, ?_⟩
  intro values
  refine ⟨rfl, ?_⟩
  show (tgState s).2.foldl _ [] = _
  rw [scatter_eq_map values (tgState s).2 []]
  rw [List.nil_append]
  rfl

theorem c3_witness :
    nb_nonzeros (to_general ⟨2, 2, [0, 2, 3], [0, 1, 1]⟩).1 =
      2 * nb_nonzeros ⟨2, 2, [0, 2, 3], [0, 1, 1]⟩ - 2 ∧
    (structCoords (to_general ⟨2, 2, [0, 2, 3], [0, 1, 1]⟩).1).count
      (0, 0) = 1 ∧
    (structCoords (to_general ⟨2, 2, [0, 2, 3], [0, 1, 1]⟩).1).count
      (0, 1) = 1 ∧
    (structCoords (to_general ⟨2, 2, [0, 2, 3], [0, 1, 1]⟩).1).count
      (1, 0) = 1 :=
  have h := c3_to_general_spec ⟨2, 2, [0, 2, 3], [0, 1, 1]⟩ (by decide)
    (by decide) (by decide) (by decide) (by decide) (by decide) (by decide)
    (by decide) (by decide) (by decide)
  ⟨h.1, h.2.2.1 0 (by decide) (by decide),
    (h.2.2.2.1 (0, 1) (by decide) (by decide)).1,
    (h.2.2.2.1 (0, 1) (by decide) (by decide)).2⟩

/-- C3 counterexample: the slot map returned by `to_general` is not a
permutation.  On the 2x2 triangle with coordinates (0,0), (0,1), (1,1)
(ia = [0,2,3], ja = [0,1,1]) it is [0, 1, 1, 2]: the off-diagonal
triangular slot 1 appears twice (once per triangle), so the map has
length 2*nnz - n = 4 over only nnz = 3 slots and is not injective. -/
theorem c3_counterexample :
    (to_general ⟨2, 2, [0, 2, 3], [0, 1, 1]⟩).2 = [0, 1, 1, 2] ∧
    ¬ (to_general ⟨2, 2, [0, 2, 3], [0, 1, 1]⟩).2.Nodup := by
  decide

-- ### convert_from (counting-sort orientation transpose)

/-- In-place array write `l[k] = v` with a `TIndex` (`Int`) index.  An
out-of-range write — undefined behaviour in the C++ — is modelled as a
no-op; all theorems below only rely on in-range writes. -/
def listSet (l : List Int) (k v : Int) : List Int :=
  if 0 ≤ k then l.set k.toNat v else l

/-- One write of the scatter loop of `convert_from`
(SparseStructure.h:312-322) on the state `(ia, ja, values)`, fed the
triple `z = (source leading index i, secondary index j = ja(k), source
value a_values(k))`: `dest = ia[j]; ja[dest] = i; values[dest] =
a_values[k]; ia[j]++`. -/
def scatStep (st : List Int × List Int × List Int) (z : Int × Int × Int) :
    List Int × List Int × List Int :=
  (listSet st.1 z.2.1 (getI st.1 z.2.1 + 1),
   listSet st.2.1 (getI st.1 z.2.1) z.1,
   listSet st.2.2 (getI st.1 z.2.1) z.2.2)

/-- `n = TRowMajor ? other.cols() : other.rows()` of `convert_from`:
the leading dimension of `other` (which has the opposite orientation). -/
def cfDimN (rm : Bool) (o : SparseStructure) : Int :=
  if rm then o.cols else o.rows

/-- `m = TRowMajor ? other.rows() : other.cols()` of `convert_from`:
the secondary dimension of `other`, the leading dimension of the
result. -/
def cfDimM (rm : Bool) (o : SparseStructure) : Int :=
  if rm then o.rows else o.cols

/-- Histogram phase (SparseStructure.h:294-298): `ia` (length `m+1`)
zero-filled, then `ia[other.ja(k)] += 1` for every slot `k`. -/
def cfHist (rm : Bool) (o : SparseStructure) : List Int :=
  (intRange 0 (nb_nonzeros o)).foldl
    (fun l k => listSet l (getI o.ja k) (getI l (getI o.ja k) + 1))
    (List.replicate (cfDimM rm o + 1).toNat 0)

/-- Cumulative-sum phase plus `ia[m] = nnz`
(SparseStructure.h:300-308): `for j < m: temp = ia[j]; ia[j] = cumsum;
cumsum += temp`, then the final slot is set to `nnz`. -/
def cfCum (rm : Bool) (o : SparseStructure) : List Int :=
  listSet
    (((intRange 0 (cfDimM rm o)).foldl
        (fun (p : List Int × Int) j => (listSet p.1 j p.2, p.2 + getI p.1 j))
        (cfHist rm o, 0)).1)
    (cfDimM rm o) (nb_nonzeros o)

/-- Scatter phase (SparseStructure.h:310-322): `a_values` is a snapshot
of `values`; the double loop over leading index `i` and its slots `k`
performs one `scatStep` per slot.  `ja` starts zero-initialised
(`std::vector<TIndex> ja(nb_nonzeros)`), the value output starts as the
in-place-modified `values`. -/
def cfScat (rm : Bool) (o : SparseStructure) (values : List Int) :
    List Int × List Int × List Int :=
  (intRange 0 (cfDimN rm o)).foldl
    (fun st i =>
      (rowRange o i).foldl
        (fun st k => scatStep st (i, getI o.ja k, getI values k)) st)
    (cfCum rm o, List.replicate (nb_nonzeros o).toNat 0, values)

/-- Shift-restore phase (SparseStructure.h:324-330): `last = 0;
for j <= m: temp = ia[j]; ia[j] = last; last = temp`. -/
def cfShift (rm : Bool) (o : SparseStructure) (values : List Int) :
    List Int :=
  ((intRange 0 (cfDimM rm o + 1)).foldl
      (fun (p : List Int × Int) j => (listSet p.1 j p.2, getI p.1 j))
      ((cfScat rm o values).1, 0)).1

/-- `convert_from(other, values)` (SparseStructure.h:284-333): the
counting-sort transpose of scipy's `csr_tocsc`.  `rm` is the TARGET
orientation (`other` has the opposite one); the result goes through the
validating constructor (`Type(other.rows(), other.cols(), ia, ja)`),
and `values` is permuted in place — modelled by returning the new value
array alongside. -/
def convert_from (rm : Bool) (o : SparseStructure) (values : List Int) :
    Option (SparseStructure × List Int) :=
  (construct rm o.rows o.cols (cfShift rm o values)
      (cfScat rm o values).2.1).map
    (fun s2 => (s2, (cfScat rm o values).2.2))

/-- Traversal triples `(leading index i, secondary index ja(k),
value(k))` of a structure, in slot order — what the scatter loop of
`convert_from` reads. -/
def cfZ (s : SparseStructure) (n : Int) (vals : List Int) :
    List (Int × Int × Int) :=
  (intRange 0 n).flatMap
    (fun i => (rowRange s i).map (fun k => (i, getI s.ja k, getI vals k)))

/-- Stable bucket partition of a triple list by secondary index:
bucket `j` keeps, in order, the triples whose secondary index is `j`. -/
def bucketsBy (m : Int) (W : List (Int × Int × Int)) :
    List (List (Int × Int × Int)) :=
  (intRange 0 m).map (fun j => W.filter (fun z => z.2.1 = j))

theorem listSet_length (l : List Int) (k v : Int) :
    (listSet l k v).length = l.length := by
  unfold listSet
  split
  · exact List.length_set l k.toNat v
  · rfl

theorem getI_listSet_self (l : List Int) (k v : Int) (h0 : 0 ≤ k)
    (hk : k < (l.length : Int)) : getI (listSet l k v) k = v := by
  unfold listSet getI
  rw [if_pos h0, if_pos h0, List.getD_eq_getElem?_getD,
    List.getElem?_set_self (by omega : k.toNat < l.length)]
  rfl

theorem getI_listSet_ne (l : List Int) (k v t : Int) (h : t ≠ k) :
    getI (listSet l k v) t = getI l t := by
  unfold listSet getI
  by_cases h0 : 0 ≤ k
  · rw [if_pos h0]
    by_cases ht : 0 ≤ t
    · rw [if_pos ht, if_pos ht, List.getD_eq_getElem?_getD,
        List.getD_eq_getElem?_getD,
        List.getElem?_set_ne (by omega : k.toNat ≠ t.toNat)]
    · rw [if_neg ht, if_neg ht]
  · rw [if_neg h0]

/-- C4 counterexample: `convert_from` bucket-sorts the secondary indices
of each range; on the 2x2 pattern whose single nonempty range stores its
secondary indices out of order (`ia = [0,2,2]`, `ja = [1,0]`,
values `[10,20]`), the round trip returns `ja = [0,1]` and values
`[20,10]` — sorted, not the original ordering. -/
theorem c4_counterexample :
    (convert_from true ⟨2, 2, [0, 2, 2], [1, 0]⟩ [10, 20]).bind
        (fun p => convert_from false p.1 p.2) =
      some (⟨2, 2, [0, 2, 2], [0, 1]⟩, [20, 10]) ∧
    (([0, 1] : List Int) ≠ [1, 0] ∧ ([20, 10] : List Int) ≠ [10, 20]) := by
  constructor
  · decide
  · decide

theorem getI_replicate_zero (n : Nat) (t : Int) :
    getI (List.replicate n (0 : Int)) t = 0 := by
  unfold getI
  split
  · rw [List.getD_eq_getElem?_getD, List.getElem?_replicate]
    split <;> rfl
  · rfl

theorem list_eq_of_getI (l1 l2 : List Int) (hlen : l1.length = l2.length)
    (h : ∀ t : Nat, t < l1.length → getI l1 (t : Int) = getI l2 (t : Int)) :
    l1 = l2 := by
  refine List.ext_getElem hlen ?_
  intro t h1 h2
  have ht := h t h1
  unfold getI at ht
  rw [if_pos (by omega : (0 : Int) ≤ (t : Int)),
    if_pos (by omega : (0 : Int) ≤ (t : Int))] at ht
  have e : ((t : Int)).toNat = t := rfl
  rw [e, List.getD_eq_getElem _ _ h1, List.getD_eq_getElem _ _ h2] at ht
  exact ht

theorem ja_recon (l : List Int) :
    (intRange 0 (l.length : Int)).map (fun k => getI l k) = l := by
  unfold intRange
  rw [List.map_map]
  have e : ((l.length : Int) - 0).toNat = l.length := by omega
  rw [e]
  have hc : ∀ t ∈ List.range l.length,
      ((fun k => getI l k) ∘ fun t : Nat => 0 + (t : Int)) t = l.getD t 0 := by
    intro t ht
    show getI l (0 + (t : Int)) = l.getD t 0
    unfold getI
    rw [if_pos (by omega)]
    congr 1
    omega
  rw [List.map_congr_left hc, map_getD_range]

theorem getI_append_right (A B : List Int) (r : Nat) :
    getI (A ++ B) ((A.length : Int) + r) = getI B (r : Int) := by
  unfold getI
  rw [if_pos (by omega), if_pos (by omega)]
  have e : ((A.length : Int) + r).toNat = A.length + r := by omega
  rw [e, List.getD_eq_getElem?_getD, List.getD_eq_getElem?_getD,
    List.getElem?_append_right (by omega : A.length ≤ A.length + r)]
  have e2 : A.length + r - A.length = r := by omega
  rw [e2]
  rfl

theorem intRange_append (a b c : Int) (hab : a ≤ b) (hbc : b ≤ c) :
    intRange a b ++ intRange b c = intRange a c := by
  unfold intRange
  have e : (c - a).toNat = (b - a).toNat + (c - b).toNat := by omega
  rw [e, List.range_add, List.map_append, List.map_map]
  congr 1
  apply List.map_congr_left
  intro t ht
  show b + (t : Int) = a + (((b - a).toNat + t : Nat) : Int)
  push_cast
  omega

theorem intRange_take (m : Int) (t : Nat) (ht : (t : Int) ≤ m) :
    (intRange 0 m).take t = intRange 0 (t : Int) := by
  unfold intRange
  rw [← List.map_take, List.take_range]
  have e : t ⊓ (m - 0).toNat = ((t : Int) - 0).toNat := by
    rw [inf_eq_min]
    omega
  rw [e]

theorem filter_lt_succ (l : List Int) (j : Int) :
    (l.filter (fun x => x < j + 1)).length =
      (l.filter (fun x => x < j)).length +
        (l.filter (fun x => x = j)).length := by
  induction l with
  | nil => rfl
  | cons x l ih =>
    simp only [List.filter_cons, decide_eq_true_eq]
    by_cases h2 : x < j
    · rw [if_pos (by omega : x < j + 1), if_pos h2,
        if_neg (by omega : ¬ x = j)]
      simp only [List.length_cons]
      omega
    · by_cases h3 : x = j
      · rw [if_pos (by omega : x < j + 1), if_neg h2, if_pos h3]
        simp only [List.length_cons]
        omega
      · rw [if_neg (by omega : ¬ x < j + 1), if_neg h2, if_neg h3]
        exact ih

theorem length_filter_map_eq {α β : Type} (f : α → β) (p : β → Bool)
    (l : List α) :
    ((l.map f).filter p).length = (l.filter (fun a => p (f a))).length := by
  rw [List.filter_map, List.length_map]
  rfl

theorem foldl_flatMap {α β γ : Type} (l : List α) (g : α → List β)
    (f : γ → β → γ) (b : γ) :
    (l.flatMap g).foldl f b = l.foldl (fun b a => (g a).foldl f b) b := by
  induction l generalizing b with
  | nil => rfl
  | cons x xs ih =>
    rw [List.flatMap_cons, List.foldl_append, List.foldl_cons, ih]

theorem hist_fold (ja : List Int) (K : List Int) :
    ∀ l0 : List Int,
      (∀ k ∈ K, 0 ≤ getI ja k ∧ getI ja k < (l0.length : Int)) →
      (K.foldl
          (fun l k => listSet l (getI ja k) (getI l (getI ja k) + 1))
          l0).length = l0.length ∧
      ∀ t : Int,
        getI (K.foldl
            (fun l k => listSet l (getI ja k) (getI l (getI ja k) + 1))
            l0) t =
          getI l0 t + ((K.filter (fun k => getI ja k = t)).length : Int) := by
  induction K with
  | nil =>
    intro l0 _
    refine ⟨rfl, ?_⟩
    intro t
    simp
  | cons k K ih =>
    intro l0 hb
    have hk := hb k (by simp)
    have hlen1 : (listSet l0 (getI ja k) (getI l0 (getI ja k) + 1)).length =
        l0.length := listSet_length _ _ _
    obtain ⟨ihl, ihg⟩ := ih (listSet l0 (getI ja k) (getI l0 (getI ja k) + 1))
      (by
        intro k' hk'
        rw [hlen1]
        exact hb k' (by simp [hk']))
    rw [List.foldl_cons]
    refine ⟨by rw [ihl, hlen1], ?_⟩
    intro t
    rw [ihg t]
    by_cases ht : getI ja k = t
    · rw [← ht, getI_listSet_self l0 (getI ja k) _ hk.1 hk.2]
      simp only [List.filter_cons, decide_eq_true_eq, if_pos ht]
      push_cast [List.length_cons]
      ring
    · rw [getI_listSet_ne l0 (getI ja k) _ t (fun he => ht he.symm)]
      simp only [List.filter_cons, decide_eq_true_eq, if_neg ht]

theorem cumsum_fold (l0 : List Int) (b : Nat) (hb : b ≤ l0.length) :
    ((intRange 0 (b : Int)).foldl
        (fun (p : List Int × Int) j => (listSet p.1 j p.2, p.2 + getI p.1 j))
        (l0, 0)).1.length = l0.length ∧
    (∀ t : Int, (b : Int) ≤ t →
      getI ((intRange 0 (b : Int)).foldl
          (fun (p : List Int × Int) j =>
            (listSet p.1 j p.2, p.2 + getI p.1 j))
          (l0, 0)).1 t = getI l0 t) ∧
    (∀ t : Nat, t < b →
      getI ((intRange 0 (b : Int)).foldl
          (fun (p : List Int × Int) j =>
            (listSet p.1 j p.2, p.2 + getI p.1 j))
          (l0, 0)).1 (t : Int) = (l0.take t).sum) ∧
    ((intRange 0 (b : Int)).foldl
        (fun (p : List Int × Int) j => (listSet p.1 j p.2, p.2 + getI p.1 j))
        (l0, 0)).2 = (l0.take b).sum := by
  induction b with
  | zero =>
    have hnil : intRange 0 (0 : Int) = [] := by unfold intRange; simp
    simp only [Nat.cast_zero]
    rw [hnil]
    refine ⟨rfl, fun t _ => rfl, fun t ht => absurd ht (by omega), by simp⟩
  | succ b ih =>
    obtain ⟨ih1, ih2, ih3, ih4⟩ := ih (by omega)
    have hc : ((b + 1 : Nat) : Int) = (b : Int) + 1 := by push_cast; ring
    rw [hc, intRange_succ_right _ (by omega : (0 : Int) ≤ (b : Int)),
      List.foldl_append]
    simp only [List.foldl_cons, List.foldl_nil]
    have hread : getI ((intRange 0 (b : Int)).foldl
        (fun (p : List Int × Int) j => (listSet p.1 j p.2, p.2 + getI p.1 j))
        (l0, 0)).1 (b : Int) = getI l0 (b : Int) := ih2 (b : Int) le_rfl
    have hgb : getI l0 (b : Int) =
        (l0.take (b + 1)).sum - (l0.take b).sum := by
      unfold getI
      rw [if_pos (by omega)]
      have e : ((b : Int)).toNat = b := rfl
      rw [e, List.getD_eq_getElem _ _ (by omega : b < l0.length),
        List.sum_take_succ l0 b (by omega)]
      ring
    refine ⟨?_, ?_, ?_, ?_⟩
    · rw [listSet_length, ih1]
    · intro t htt
      rw [getI_listSet_ne _ _ _ _ (by omega : t ≠ (b : Int))]
      exact ih2 t (by omega)
    · intro t htt
      by_cases he : t = b
      · subst he
        rw [ih4, getI_listSet_self _ _ _ (by omega) (by rw [ih1]; omega)]
      · rw [getI_listSet_ne _ _ _ _ (by omega : (t : Int) ≠ (b : Int))]
        exact ih3 t (by omega)
    · rw [ih4, hread, hgb]
      ring

theorem shift_fold (l0 : List Int) (b : Nat) (hb : b ≤ l0.length) :
    ((intRange 0 (b : Int)).foldl
        (fun (p : List Int × Int) j => (listSet p.1 j p.2, getI p.1 j))
        (l0, 0)).1.length = l0.length ∧
    (∀ t : Int, (b : Int) ≤ t →
      getI ((intRange 0 (b : Int)).foldl
          (fun (p : List Int × Int) j => (listSet p.1 j p.2, getI p.1 j))
          (l0, 0)).1 t = getI l0 t) ∧
    (∀ t : Nat, t < b →
      getI ((intRange 0 (b : Int)).foldl
          (fun (p : List Int × Int) j => (listSet p.1 j p.2, getI p.1 j))
          (l0, 0)).1 (t : Int) =
        (if t = 0 then 0 else getI l0 ((t : Int) - 1))) ∧
    ((intRange 0 (b : Int)).foldl
        (fun (p : List Int × Int) j => (listSet p.1 j p.2, getI p.1 j))
        (l0, 0)).2 = (if b = 0 then 0 else getI l0 ((b : Int) - 1)) := by
  induction b with
  | zero =>
    have hnil : intRange 0 (0 : Int) = [] := by unfold intRange; simp
    simp only [Nat.cast_zero]
    rw [hnil]
    exact ⟨rfl, fun t _ => rfl, fun t ht => absurd ht (by omega), by simp⟩
  | succ b ih =>
    obtain ⟨ih1, ih2, ih3, ih4⟩ := ih (by omega)
    have hc : ((b + 1 : Nat) : Int) = (b : Int) + 1 := by push_cast; ring
    rw [hc, intRange_succ_right _ (by omega : (0 : Int) ≤ (b : Int)),
      List.foldl_append]
    simp only [List.foldl_cons, List.foldl_nil]
    have hread : getI ((intRange 0 (b : Int)).foldl
        (fun (p : List Int × Int) j => (listSet p.1 j p.2, getI p.1 j))
        (l0, 0)).1 (b : Int) = getI l0 (b : Int) := ih2 (b : Int) le_rfl
    refine ⟨?_, ?_, ?_, ?_⟩
    · rw [listSet_length, ih1]
    · intro t htt
      rw [getI_listSet_ne _ _ _ _ (by omega : t ≠ (b : Int))]
      exact ih2 t (by omega)
    · intro t htt
      by_cases he : t = b
      · subst he
        rw [ih4, getI_listSet_self _ _ _ (by omega) (by rw [ih1]; omega)]
      · rw [getI_listSet_ne _ _ _ _ (by omega : (t : Int) ≠ (b : Int))]
        exact ih3 t (by omega)
    · rw [hread, if_neg (by omega : ¬ b + 1 = 0)]
      congr 1
      push_cast
      ring

theorem scatter_fold (mb : Int) (W : List (Int × Int × Int)) :
    ∀ (st : List Int × List Int × List Int) (pos : Int → Int),
      (∀ z ∈ W, 0 ≤ z.2.1 ∧ z.2.1 < mb) →
      (mb ≤ (st.1.length : Int)) →
      (∀ j : Int, 0 ≤ j → j < mb → getI st.1 j = pos j) →
      (∀ j : Int, 0 ≤ j → j < mb → 0 ≤ pos j ∧
        pos j + ((W.filter (fun w => w.2.1 = j)).length : Int) ≤
          (st.2.1.length : Int) ∧
        pos j + ((W.filter (fun w => w.2.1 = j)).length : Int) ≤
          (st.2.2.length : Int)) →
      (∀ j1 j2 : Int, 0 ≤ j1 → j1 < j2 → j2 < mb →
        pos j1 + ((W.filter (fun w => w.2.1 = j1)).length : Int) ≤ pos j2) →
      (W.foldl scatStep st).1.length = st.1.length ∧
      (W.foldl scatStep st).2.1.length = st.2.1.length ∧
      (W.foldl scatStep st).2.2.length = st.2.2.length ∧
      (∀ j : Int, 0 ≤ j → j < mb →
        getI (W.foldl scatStep st).1 j =
          pos j + ((W.filter (fun w => w.2.1 = j)).length : Int)) ∧
      (∀ t : Int, (t < 0 ∨ mb ≤ t) →
        getI (W.foldl scatStep st).1 t = getI st.1 t) ∧
      (∀ t : Int,
        (∀ j : Int, 0 ≤ j → j < mb →
          ¬(pos j ≤ t ∧
            t < pos j + ((W.filter (fun w => w.2.1 = j)).length : Int))) →
        getI (W.foldl scatStep st).2.1 t = getI st.2.1 t ∧
        getI (W.foldl scatStep st).2.2 t = getI st.2.2 t) ∧
      (∀ j : Int, 0 ≤ j → j < mb →
        ∀ r : Nat, r < (W.filter (fun w => w.2.1 = j)).length →
          getI (W.foldl scatStep st).2.1 (pos j + (r : Int)) =
            getI ((W.filter (fun w => w.2.1 = j)).map (fun w => w.1))
              (r : Int) ∧
          getI (W.foldl scatStep st).2.2 (pos j + (r : Int)) =
            getI ((W.filter (fun w => w.2.1 = j)).map (fun w => w.2.2))
              (r : Int)) := by
  induction W with
  | nil =>
    intro st pos hkeys hlia hcur hbnd hdisj
    refine ⟨rfl, rfl, rfl, ?_, fun t _ => rfl, fun t _ => ⟨rfl, rfl⟩, ?_⟩
    · intro j h0 h1
      simp only [List.filter_nil, List.length_nil, Nat.cast_zero, add_zero]
      exact hcur j h0 h1
    · intro j h0 h1 r hr
      simp at hr
  | cons z W ihW =>
    intro st pos hkeys hlia hcur hbnd hdisj
    obtain ⟨hz0, hz1⟩ := hkeys z (by simp)
    have hdest : getI st.1 z.2.1 = pos z.2.1 := hcur z.2.1 hz0 hz1
    have hflt : ∀ j : Int, j ≠ z.2.1 →
        (z :: W).filter (fun w => w.2.1 = j) =
          W.filter (fun w => w.2.1 = j) := by
      intro j hj
      have hne : ¬ z.2.1 = j := fun h => hj h.symm
      simp only [List.filter_cons, decide_eq_true_eq, if_neg hne]
    have hflt0 : (z :: W).filter (fun w => w.2.1 = z.2.1) =
        z :: W.filter (fun w => w.2.1 = z.2.1) := by
      simp [List.filter_cons]
    have hst1 : (scatStep st z).1 =
        listSet st.1 z.2.1 (getI st.1 z.2.1 + 1) := rfl
    have hst21 : (scatStep st z).2.1 =
        listSet st.2.1 (pos z.2.1) z.1 := by
      show listSet st.2.1 (getI st.1 z.2.1) z.1 = _
      rw [hdest]
    have hst22 : (scatStep st z).2.2 =
        listSet st.2.2 (pos z.2.1) z.2.2 := by
      show listSet st.2.2 (getI st.1 z.2.1) z.2.2 = _
      rw [hdest]
    have hl1 : (scatStep st z).1.length = st.1.length := by
      rw [hst1]; exact listSet_length _ _ _
    have hl21 : (scatStep st z).2.1.length = st.2.1.length := by
      rw [hst21]; exact listSet_length _ _ _
    have hl22 : (scatStep st z).2.2.length = st.2.2.length := by
      rw [hst22]; exact listSet_length _ _ _
    have hbz := hbnd z.2.1 hz0 hz1
    rw [hflt0, List.length_cons] at hbz
    have hcur' : ∀ j : Int, 0 ≤ j → j < mb →
        getI (scatStep st z).1 j =
          (if j = z.2.1 then pos j + 1 else pos j) := by
      intro j h0 h1
      by_cases hj : j = z.2.1
      · rw [if_pos hj, hj, hst1,
          getI_listSet_self st.1 z.2.1 _ hz0 (by omega), hdest]
      · rw [if_neg hj, hst1, getI_listSet_ne _ _ _ _ hj]
        exact hcur j h0 h1
    have hbnd' : ∀ j : Int, 0 ≤ j → j < mb →
        0 ≤ (if j = z.2.1 then pos j + 1 else pos j) ∧
        (if j = z.2.1 then pos j + 1 else pos j) +
          ((W.filter (fun w => w.2.1 = j)).length : Int) ≤
          ((scatStep st z).2.1.length : Int) ∧
        (if j = z.2.1 then pos j + 1 else pos j) +
          ((W.filter (fun w => w.2.1 = j)).length : Int) ≤
          ((scatStep st z).2.2.length : Int) := by
      intro j h0 h1
      rw [hl21, hl22]
      by_cases hj : j = z.2.1
      · rw [if_pos hj, hj]
        push_cast at hbz ⊢
        subst hj
        refine ⟨by omega, by omega, by omega⟩
      · rw [if_neg hj]
        have hb := hbnd j h0 h1
        rw [hflt j hj] at hb
        exact hb
    have hdisj' : ∀ j1 j2 : Int, 0 ≤ j1 → j1 < j2 → j2 < mb →
        (if j1 = z.2.1 then pos j1 + 1 else pos j1) +
          ((W.filter (fun w => w.2.1 = j1)).length : Int) ≤
        (if j2 = z.2.1 then pos j2 + 1 else pos j2) := by
      intro j1 j2 h0 h12 h2
      have hd := hdisj j1 j2 h0 h12 h2
      by_cases hj1 : j1 = z.2.1
      · rw [if_pos hj1, if_neg (by omega : ¬ j2 = z.2.1), hj1]
        rw [hj1] at hd
        rw [hflt0, List.length_cons] at hd
        push_cast at hd ⊢
        omega
      · rw [hflt j1 hj1] at hd
        rw [if_neg hj1]
        by_cases hj2 : j2 = z.2.1
        · rw [if_pos hj2]
          omega
        · rw [if_neg hj2]
          exact hd
    obtain ⟨c1, c2, c3, c4, c5, c6, c7⟩ := ihW (scatStep st z)
      (fun j => if j = z.2.1 then pos j + 1 else pos j)
      (fun w hw => hkeys w (by simp [hw]))
      (by rw [hl1]; exact hlia) hcur' hbnd' hdisj'
    rw [List.foldl_cons]
    refine ⟨c1.trans hl1, c2.trans hl21, c3.trans hl22, ?_, ?_, ?_, ?_⟩
    · intro j h0 h1
      have hc : getI (W.foldl scatStep (scatStep st z)).1 j =
          (if j = z.2.1 then pos j + 1 else pos j) +
            ((W.filter (fun w => w.2.1 = j)).length : Int) := c4 j h0 h1
      by_cases hj : j = z.2.1
      · rw [if_pos hj] at hc
        rw [hc, hj, hflt0, List.length_cons]
        push_cast
        ring
      · rw [if_neg hj] at hc
        rw [hc, hflt j hj]
    · intro t htt
      rw [c5 t htt, hst1, getI_listSet_ne _ _ _ _ (by omega : t ≠ z.2.1)]
    · intro t havoid
      have hav' : ∀ j : Int, 0 ≤ j → j < mb →
          ¬((if j = z.2.1 then pos j + 1 else pos j) ≤ t ∧
            t < (if j = z.2.1 then pos j + 1 else pos j) +
              ((W.filter (fun w => w.2.1 = j)).length : Int)) := by
        intro j h0 h1
        have ha := havoid j h0 h1
        by_cases hj : j = z.2.1
        · rw [if_pos hj, hj]
          rw [hj, hflt0, List.length_cons] at ha
          push_cast at ha ⊢
          omega
        · rw [if_neg hj]
          rw [hflt j hj] at ha
          exact ha
      have hc : getI (W.foldl scatStep (scatStep st z)).2.1 t =
          getI (scatStep st z).2.1 t ∧
          getI (W.foldl scatStep (scatStep st z)).2.2 t =
            getI (scatStep st z).2.2 t := c6 t hav'
      have haz := havoid z.2.1 hz0 hz1
      rw [hflt0, List.length_cons] at haz
      have htne : t ≠ pos z.2.1 := by
        intro he
        subst he
        push_cast at haz
        omega
      rw [hc.1, hc.2, hst21, hst22, getI_listSet_ne _ _ _ _ htne,
        getI_listSet_ne _ _ _ _ htne]
      exact ⟨rfl, rfl⟩
    · intro j h0 h1 r hr
      rcases eq_or_ne j z.2.1 with rfl | hne
      · rw [hflt0, List.length_cons] at hr
        rw [hflt0]
        cases r with
        | zero =>
          simp only [Nat.cast_zero, add_zero]
          have havoid : ∀ j : Int, 0 ≤ j → j < mb →
              ¬((if j = z.2.1 then pos j + 1 else pos j) ≤ pos z.2.1 ∧
                pos z.2.1 < (if j = z.2.1 then pos j + 1 else pos j) +
                    ((W.filter (fun w => w.2.1 = j)).length : Int)) := by
            intro j h0' h1'
            by_cases hj : j = z.2.1
            · rw [if_pos hj, hj]
              omega
            · rw [if_neg hj]
              rcases lt_or_gt_of_ne hj with hlt | hgt
              · have hd := hdisj j z.2.1 h0' hlt hz1
                rw [hflt j hj] at hd
                omega
              · have hd := hdisj z.2.1 j hz0 hgt h1'
                rw [hflt0, List.length_cons] at hd
                push_cast at hd
                omega
          have hc : getI (W.foldl scatStep (scatStep st z)).2.1
                (pos z.2.1) = getI (scatStep st z).2.1 (pos z.2.1) ∧
              getI (W.foldl scatStep (scatStep st z)).2.2 (pos z.2.1) =
                getI (scatStep st z).2.2 (pos z.2.1) := c6 (pos z.2.1) havoid
          rw [hc.1, hc.2, hst21, hst22,
            getI_listSet_self st.2.1 _ _ (hbz.1)
              (by push_cast at hbz; omega),
            getI_listSet_self st.2.2 _ _ (hbz.1)
              (by push_cast at hbz; omega)]
          simp [List.map_cons, getI_cons_zero]
        | succ r' =>
          have hc : getI (W.foldl scatStep (scatStep st z)).2.1
                ((pos z.2.1 + 1) + (r' : Int)) =
                getI ((W.filter (fun w => w.2.1 = z.2.1)).map
                  (fun w => w.1)) (r' : Int) ∧
              getI (W.foldl scatStep (scatStep st z)).2.2
                ((pos z.2.1 + 1) + (r' : Int)) =
                getI ((W.filter (fun w => w.2.1 = z.2.1)).map
                  (fun w => w.2.2)) (r' : Int) := by
            have := c7 z.2.1 hz0 hz1 r' (by omega)
            rw [if_pos rfl] at this
            exact this
          have hcast : pos z.2.1 + ((r' + 1 : Nat) : Int) =
              (pos z.2.1 + 1) + (r' : Int) := by push_cast; ring
          rw [hcast]
          simp only [List.map_cons]
          have hcast2 : ((r' + 1 : Nat) : Int) = (r' : Int) + 1 := by
            push_cast; ring
          rw [hcast2, getI_cons_succ _ _ _ (by omega),
            getI_cons_succ _ _ _ (by omega)]
          exact hc
      · rw [hflt j hne] at hr ⊢
        have hc : getI (W.foldl scatStep (scatStep st z)).2.1
              (pos j + (r : Int)) =
              getI ((W.filter (fun w => w.2.1 = j)).map (fun w => w.1))
                (r : Int) ∧
            getI (W.foldl scatStep (scatStep st z)).2.2
              (pos j + (r : Int)) =
              getI ((W.filter (fun w => w.2.1 = j)).map (fun w => w.2.2))
                (r : Int) := by
          have := c7 j h0 h1 r hr
          rw [if_neg hne] at this
          exact this
        exact hc

theorem getI_append_left (A B : List Int) (r : Nat) (hr : r < A.length) :
    getI (A ++ B) (r : Int) = getI A (r : Int) := by
  unfold getI
  rw [if_pos (by omega), if_pos (by omega)]
  have e : ((r : Int)).toNat = r := rfl
  rw [e, List.getD_eq_getElem?_getD, List.getD_eq_getElem?_getD,
    List.getElem?_append_left hr]

theorem flatten_map_range_length (g : Int → List Int) (pos : Int → Int)
    (hpos0 : pos 0 = 0) :
    ∀ b : Nat,
      (∀ j : Int, 0 ≤ j → j < (b : Int) →
        pos (j + 1) = pos j + ((g j).length : Int)) →
      ((((intRange 0 (b : Int)).map g).flatten).length : Int) =
        pos (b : Int) := by
  intro b
  induction b with
  | zero =>
    intro _
    simp only [Nat.cast_zero]
    have hnil : intRange 0 (0 : Int) = [] := by unfold intRange; simp
    rw [hnil, hpos0]
    rfl
  | succ b ih =>
    intro hstep
    have hc : ((b + 1 : Nat) : Int) = (b : Int) + 1 := by push_cast; ring
    rw [hc, intRange_succ_right _ (by omega : (0 : Int) ≤ (b : Int)),
      List.map_append, List.flatten_append, List.length_append]
    have h1 := ih (fun j hj0 hj1 => hstep j hj0 (by omega))
    have h2 := hstep (b : Int) (by omega) (by omega)
    have h3 : (([(b : Int)].map g).flatten).length = (g (b : Int)).length := by
      simp
    push_cast
    push_cast at h1 h3
    rw [h1, h3, h2]

theorem getI_flatten_bucket (m : Int) (g : Int → List Int) (pos : Int → Int)
    (hpos0 : pos 0 = 0)
    (hstep : ∀ j : Int, 0 ≤ j → j < m →
      pos (j + 1) = pos j + ((g j).length : Int))
    (j : Int) (h0 : 0 ≤ j) (h1 : j < m) (r : Nat) (hr : r < (g j).length) :
    getI (((intRange 0 m).map g).flatten) (pos j + (r : Int)) =
      getI (g j) (r : Int) := by
  have hsplit : intRange 0 m = intRange 0 j ++ (j :: intRange (j + 1) m) := by
    rw [← intRange_eq_cons h1]
    exact (intRange_append 0 j m h0 (le_of_lt h1)).symm
  rw [hsplit, List.map_append, List.flatten_append, List.map_cons,
    List.flatten_cons]
  have hlenA : ((((intRange 0 j).map g).flatten).length : Int) = pos j := by
    have hbase := flatten_map_range_length g pos hpos0 j.toNat
      (by
        intro j' hj0 hj1
        exact hstep j' hj0 (by omega))
    rwa [Int.toNat_of_nonneg h0] at hbase
  rw [← hlenA, getI_append_right]
  exact getI_append_left _ _ r hr

theorem bucket_decompose (ja : List Int) (hpos : ∀ x ∈ ja, 0 ≤ x) :
    ∀ (b : Nat) (t : Int), 0 ≤ t →
      t < ((ja.filter (fun x => x < (b : Int))).length : Int) →
      ∃ j : Int, 0 ≤ j ∧ j < (b : Int) ∧ ∃ r : Nat,
        r < (ja.filter (fun x => x = j)).length ∧
        t = ((ja.filter (fun x => x < j)).length : Int) + r := by
  intro b
  induction b with
  | zero =>
    intro t h0 h1
    exfalso
    have hnil : ja.filter (fun x => x < ((0 : Nat) : Int)) = [] := by
      rw [List.filter_eq_nil_iff]
      intro x hx
      simp only [decide_eq_true_eq]
      have := hpos x hx
      omega
    rw [hnil] at h1
    simp at h1
    omega
  | succ b ih =>
    intro t h0 h1
    have hc : ((b + 1 : Nat) : Int) = (b : Int) + 1 := by push_cast; ring
    rw [hc, filter_lt_succ ja (b : Int)] at h1
    by_cases hlt : t < ((ja.filter (fun x => x < (b : Int))).length : Int)
    · obtain ⟨j, hj0, hj1, r, hr, ht⟩ := ih t h0 hlt
      exact ⟨j, hj0, by omega, r, hr, ht⟩
    · refine ⟨(b : Int), by omega, by omega,
        (t - ((ja.filter (fun x => x < (b : Int))).length : Int)).toNat,
        by push_cast at h1 ⊢; omega, by push_cast at h1 ⊢; omega⟩

theorem flatMap_nil_of_mem {α : Type} (R : List Int) (g : Int → List α)
    (h : ∀ j ∈ R, g j = []) : R.flatMap g = [] := by
  induction R with
  | nil => rfl
  | cons x R ih =>
    rw [List.flatMap_cons, h x (by simp), List.nil_append]
    exact ih (fun j hj => h j (by simp [hj]))

theorem flatMap_eq_single {α : Type} (R : List Int) (g : Int → List α)
    (i : Int) (hi : i ∈ R) (hR : R.Nodup)
    (hz : ∀ j ∈ R, j ≠ i → g j = []) :
    R.flatMap g = g i := by
  induction R with
  | nil => simp at hi
  | cons x R ih =>
    rw [List.flatMap_cons]
    rcases List.mem_cons.mp hi with rfl | hmem
    · have hrest : R.flatMap g = [] := by
        apply flatMap_nil_of_mem
        intro j hj
        refine hz j (by simp [hj]) ?_
        intro he
        subst he
        exact (List.nodup_cons.mp hR).1 hj
      rw [hrest, List.append_nil]
    · have hx : g x = [] := by
        refine hz x (by simp) ?_
        intro he
        subst he
        exact (List.nodup_cons.mp hR).1 hmem
      rw [hx, List.nil_append]
      exact ih hmem (List.nodup_cons.mp hR).2
        (fun j hj hne => hz j (by simp [hj]) hne)

theorem bucket_fix (L : List (Int × Int × Int)) :
    ∀ a m : Int, (∀ z ∈ L, a ≤ z.2.1 ∧ z.2.1 < m) →
      L.Pairwise (fun u v => u.2.1 ≤ v.2.1) →
      (intRange a m).flatMap (fun j => L.filter (fun w => w.2.1 = j)) =
        L := by
  induction L with
  | nil =>
    intro a m _ _
    apply flatMap_nil_of_mem
    intro j _
    rfl
  | cons z L ih =>
    intro a m hk hs
    obtain ⟨hz0, hz1⟩ := hk z (by simp)
    have hmin : ∀ w ∈ L, z.2.1 ≤ w.2.1 := (List.pairwise_cons.mp hs).1
    have hs' := (List.pairwise_cons.mp hs).2
    have hra : intRange a m = intRange a z.2.1 ++ intRange z.2.1 m :=
      (intRange_append _ _ _ hz0 (le_of_lt hz1)).symm
    rw [hra, List.flatMap_append]
    have hempty : (intRange a z.2.1).flatMap
        (fun j => (z :: L).filter (fun w => w.2.1 = j)) = [] := by
      apply flatMap_nil_of_mem
      intro j hj
      rw [mem_intRange] at hj
      rw [List.filter_eq_nil_iff]
      intro w hw
      simp only [decide_eq_true_eq]
      rcases List.mem_cons.mp hw with rfl | hw2
      · omega
      · have := hmin w hw2
        omega
    rw [hempty, List.nil_append, intRange_eq_cons hz1, List.flatMap_cons]
    have hhead : (z :: L).filter (fun w => w.2.1 = z.2.1) =
        z :: L.filter (fun w => w.2.1 = z.2.1) := by
      simp [List.filter_cons]
    have htail : (intRange (z.2.1 + 1) m).flatMap
        (fun j => (z :: L).filter (fun w => w.2.1 = j)) =
        (intRange (z.2.1 + 1) m).flatMap
          (fun j => L.filter (fun w => w.2.1 = j)) := by
      apply flatMap_congr_mem
      intro j hj
      rw [mem_intRange] at hj
      have hne : ¬ z.2.1 = j := by omega
      simp only [List.filter_cons, decide_eq_true_eq, if_neg hne]
    rw [hhead, htail, List.cons_append]
    congr 1
    have hfull := ih z.2.1 m
      (fun w hw => ⟨hmin w hw, (hk w (by simp [hw])).2⟩) hs'
    rw [intRange_eq_cons hz1, List.flatMap_cons] at hfull
    exact hfull

theorem rowRanges_flatMap (s : SparseStructure) (hmono : MonotoneIa s.ia)
    (h0 : getI s.ia 0 = 0) :
    ∀ b : Nat, b < s.ia.length →
      (intRange 0 (b : Int)).flatMap (fun i => rowRange s i) =
        intRange 0 (getI s.ia (b : Int)) := by
  intro b
  induction b with
  | zero =>
    intro _
    simp only [Nat.cast_zero]
    rw [h0]
    have hnil : intRange 0 (0 : Int) = [] := by unfold intRange; simp
    rw [hnil]
    rfl
  | succ b ih =>
    intro hb
    have hc : ((b + 1 : Nat) : Int) = (b : Int) + 1 := by push_cast; ring
    rw [hc, intRange_succ_right _ (by omega : (0 : Int) ≤ (b : Int)),
      List.flatMap_append, ih (by omega)]
    have hsingle : ([(b : Int)].flatMap (fun i => rowRange s i)) =
        intRange (getI s.ia (b : Int)) (getI s.ia ((b : Int) + 1)) := by
      show rowRange s (b : Int) ++ [] = _
      rw [List.append_nil, rowRange]
    rw [hsingle]
    have hlo : 0 ≤ getI s.ia (b : Int) := by
      have := monotone_getI_int hmono (a := 0) (b := (b : Int)) le_rfl
        (by omega) (by omega)
      omega
    have hhi : getI s.ia (b : Int) ≤ getI s.ia ((b : Int) + 1) :=
      hmono b hb
    exact intRange_append _ _ _ hlo hhi

theorem sum_cntEq (ja : List Int) (hpos : ∀ x ∈ ja, 0 ≤ x) :
    ∀ t : Nat,
      (((intRange 0 (t : Int)).map
          (fun j => ((ja.filter (fun x => x = j)).length : Int))).sum) =
        ((ja.filter (fun x => x < (t : Int))).length : Int) := by
  intro t
  induction t with
  | zero =>
    simp only [Nat.cast_zero]
    have hnil : intRange 0 (0 : Int) = [] := by unfold intRange; simp
    rw [hnil]
    have hfnil : ja.filter (fun x => x < (0 : Int)) = [] := by
      rw [List.filter_eq_nil_iff]
      intro x hx
      simp only [decide_eq_true_eq]
      have := hpos x hx
      omega
    rw [hfnil]
    rfl
  | succ t ih =>
    have hc : ((t + 1 : Nat) : Int) = (t : Int) + 1 := by push_cast; ring
    rw [hc, intRange_succ_right _ (by omega : (0 : Int) ≤ (t : Int)),
      List.map_append, List.sum_append, ih, filter_lt_succ ja (t : Int)]
    push_cast
    simp only [List.map_cons, List.map_nil, List.sum_cons, List.sum_nil]
    ring

theorem take_sum_getI (l : List Int) :
    ∀ t : Nat, t ≤ l.length →
      (l.take t).sum = ((intRange 0 (t : Int)).map (fun u => getI l u)).sum := by
  intro t
  induction t with
  | zero =>
    intro _
    simp only [Nat.cast_zero]
    have hnil : intRange 0 (0 : Int) = [] := by unfold intRange; simp
    rw [hnil]
    rfl
  | succ t ih =>
    intro ht
    have hc : ((t + 1 : Nat) : Int) = (t : Int) + 1 := by push_cast; ring
    have hr : intRange 0 ((t + 1 : Nat) : Int) =
        intRange 0 (t : Int) ++ [(t : Int)] := by
      rw [hc]
      exact intRange_succ_right _ (by omega : (0 : Int) ≤ (t : Int))
    rw [List.sum_take_succ l t (by omega), ih (by omega), hr,
      List.map_append, List.sum_append]
    simp only [List.map_cons, List.map_nil, List.sum_cons, List.sum_nil]
    have hg : getI l (t : Int) = l.getD t 0 := by
      unfold getI
      rw [if_pos (by omega)]
      rfl
    rw [hg, List.getD_eq_getElem l 0 (by omega : t < l.length)]
    ring

set_option maxHeartbeats 1000000 in
theorem convert_spec (rm : Bool) (o : SparseStructure) (values : List Int)
    (hn : 0 ≤ cfDimN rm o) (hm : 0 ≤ cfDimM rm o)
    (hlen : (o.ia.length : Int) = cfDimN rm o + 1)
    (h0 : getI o.ia 0 = 0) (hmono : MonotoneIa o.ia)
    (hlast : o.ia.getLastD 0 = (o.ja.length : Int))
    (hjr : ∀ x ∈ o.ja, 0 ≤ x ∧ x < cfDimM rm o)
    (hvlen : (values.length : Int) = (o.ja.length : Int)) :
    convert_from rm o values =
      some (from_pattern o.rows o.cols
          ((bucketsBy (cfDimM rm o) (cfZ o (cfDimN rm o) values)).map
            (fun B => B.map (fun z => z.1))),
        ((bucketsBy (cfDimM rm o) (cfZ o (cfDimN rm o) values)).map
            (fun B => B.map (fun z => z.2.2))).flatten) := by
  have hne : o.ia ≠ [] := by
    intro hnil
    rw [hnil] at hlen
    simp at hlen
    omega
  have hnnz : nb_nonzeros o = (o.ja.length : Int) := hlast
  have hnnz0 : 0 ≤ nb_nonzeros o := by rw [hnnz]; positivity
  have hia_n : getI o.ia (cfDimN rm o) = (o.ja.length : Int) := by
    have h1 := getLastD_eq_getI o.ia hne
    rw [hlast] at h1
    rw [show cfDimN rm o = (o.ia.length : Int) - 1 from by omega]
    exact h1.symm
  -- membership structure of the traversal triples
  have hWelim : ∀ z ∈ cfZ o (cfDimN rm o) values,
      ∃ i, (0 ≤ i ∧ i < cfDimN rm o) ∧ ∃ k, k ∈ rowRange o i ∧
        0 ≤ k ∧ k < (o.ja.length : Int) ∧
        z = (i, getI o.ja k, getI values k) := by
    intro z hz
    unfold cfZ at hz
    rw [List.mem_flatMap] at hz
    obtain ⟨i, hi, hz2⟩ := hz
    rw [List.mem_map] at hz2
    obtain ⟨k, hk, rfl⟩ := hz2
    rw [mem_intRange] at hi
    have hkb := hk
    rw [rowRange, mem_intRange] at hkb
    have hlo : 0 ≤ getI o.ia i := by
      have := monotone_getI_int hmono (a := 0) (b := i) le_rfl hi.1
        (by omega)
      omega
    have hhi : getI o.ia (i + 1) ≤ (o.ja.length : Int) := by
      rw [← hia_n]
      exact monotone_getI_int hmono (by omega) (by omega) (by omega)
    exact ⟨i, ⟨hi.1, hi.2⟩, k, hk, by omega, by omega, rfl⟩
  have hWkey : ∀ z ∈ cfZ o (cfDimN rm o) values,
      0 ≤ z.2.1 ∧ z.2.1 < cfDimM rm o := by
    intro z hz
    obtain ⟨i, _, k, _, hk0, hk1, rfl⟩ := hWelim z hz
    exact hjr _ (getI_mem hk0 hk1)
  have hWrow : ∀ z ∈ cfZ o (cfDimN rm o) values,
      0 ≤ z.1 ∧ z.1 < cfDimN rm o := by
    intro z hz
    obtain ⟨i, hi, k, _, _, _, rfl⟩ := hWelim z hz
    exact hi
  -- the key projection of the triples is exactly ja
  have hWkeymap : (cfZ o (cfDimN rm o) values).map (fun z => z.2.1) =
      o.ja := by
    unfold cfZ
    rw [List.map_flatMap]
    have hcong : ∀ i ∈ intRange 0 (cfDimN rm o),
        List.map (fun z : Int × Int × Int => z.2.1)
          ((rowRange o i).map (fun k => (i, getI o.ja k, getI values k))) =
        (rowRange o i).map (fun k => getI o.ja k) := by
      intro i _
      rw [List.map_map]
      rfl
    rw [flatMap_congr_mem hcong, ← List.map_flatMap]
    have ht := rowRanges_flatMap o hmono h0 (cfDimN rm o).toNat (by omega)
    rw [Int.toNat_of_nonneg hn] at ht
    rw [ht, hia_n, ja_recon]
  have hWlen : (cfZ o (cfDimN rm o) values).length = o.ja.length := by
    rw [← hWkeymap, List.length_map]
  -- bucket sizes transfer to ja
  have hcnt : ∀ j : Int,
      ((cfZ o (cfDimN rm o) values).filter
        (fun w => w.2.1 = j)).length =
      (o.ja.filter (fun x => x = j)).length := by
    intro j
    have h := length_filter_map_eq (fun z : Int × Int × Int => z.2.1)
      (fun x => decide (x = j)) (cfZ o (cfDimN rm o) values)
    rw [hWkeymap] at h
    exact h.symm
  have hcnt0 : (o.ja.filter (fun x => x < (0 : Int))) = [] := by
    rw [List.filter_eq_nil_iff]
    intro x hx
    simp only [decide_eq_true_eq]
    have := hjr x hx
    omega
  have hcntm : o.ja.filter (fun x => x < cfDimM rm o) = o.ja := by
    rw [List.filter_eq_self]
    intro x hx
    simp only [decide_eq_true_eq]
    exact (hjr x hx).2
  have hstepLt : ∀ j : Int,
      ((o.ja.filter (fun x => x < j + 1)).length : Int) =
        ((o.ja.filter (fun x => x < j)).length : Int) +
          ((o.ja.filter (fun x => x = j)).length : Int) := by
    intro j
    exact_mod_cast filter_lt_succ o.ja j
  have hLtmono : ∀ j1 j2 : Int, j1 ≤ j2 →
      (o.ja.filter (fun x => x < j1)).length ≤
        (o.ja.filter (fun x => x < j2)).length := by
    intro j1 j2 h
    have he : o.ja.filter (fun x => x < j1) =
        (o.ja.filter (fun x => x < j2)).filter (fun x => x < j1) := by
      rw [List.filter_filter]
      apply List.filter_congr
      intro x hx
      by_cases h1 : x < j1
      · simp [h1, show x < j2 by omega]
      · simp [h1]
    rw [he]
    exact List.length_filter_le _ _
  -- phase 1: histogram
  obtain ⟨hhlen0, hhget⟩ := hist_fold o.ja (intRange 0 (nb_nonzeros o))
    (List.replicate (cfDimM rm o + 1).toNat 0)
    (by
      intro k hk
      rw [mem_intRange] at hk
      have hkja : getI o.ja k ∈ o.ja := by
        refine getI_mem hk.1 ?_
        rw [← hnnz]
        exact hk.2
      have := hjr _ hkja
      rw [List.length_replicate]
      constructor
      · exact this.1
      · push_cast
        omega)
  have hKcnt : ∀ t : Int,
      ((intRange 0 (nb_nonzeros o)).filter
        (fun k => getI o.ja k = t)).length =
      (o.ja.filter (fun x => x = t)).length := by
    intro t
    have h := length_filter_map_eq (fun k => getI o.ja k)
      (fun x => decide (x = t)) (intRange 0 (nb_nonzeros o))
    have hmap : (intRange 0 (nb_nonzeros o)).map (fun k => getI o.ja k) =
        o.ja := by
      rw [hnnz]
      exact ja_recon o.ja
    rw [hmap] at h
    exact h.symm
  have hhist : ∀ t : Int, getI (cfHist rm o) t =
      ((o.ja.filter (fun x => x = t)).length : Int) := by
    intro t
    unfold cfHist
    rw [hhget t, getI_replicate_zero, hKcnt t, zero_add]
  have hhistlen : (cfHist rm o).length = (cfDimM rm o + 1).toNat := by
    unfold cfHist
    rw [hhlen0, List.length_replicate]
  -- phases 2-3: cumulative sums and the final slot
  obtain ⟨hclen, hcout, hcin, hcsum⟩ :=
    cumsum_fold (cfHist rm o) (cfDimM rm o).toNat
      (by rw [hhistlen]; omega)
  rw [Int.toNat_of_nonneg hm] at hclen hcout hcin hcsum
  have hPS : ∀ t : Nat, t ≤ (cfDimM rm o + 1).toNat →
      ((cfHist rm o).take t).sum =
        ((o.ja.filter (fun x => x < (t : Int))).length : Int) := by
    intro t ht
    rw [take_sum_getI _ t (by rw [hhistlen]; omega)]
    have hcong : ∀ u ∈ intRange 0 (t : Int),
        getI (cfHist rm o) u =
          ((o.ja.filter (fun x => x = u)).length : Int) :=
      fun u _ => hhist u
    rw [List.map_congr_left hcong]
    exact sum_cntEq o.ja (fun x hx => (hjr x hx).1) t
  have hcumlen : (cfCum rm o).length = (cfDimM rm o + 1).toNat := by
    unfold cfCum
    rw [listSet_length, hclen, hhistlen]
  have hcum : ∀ j : Int, 0 ≤ j → j ≤ cfDimM rm o →
      getI (cfCum rm o) j =
        ((o.ja.filter (fun x => x < j)).length : Int) := by
    intro j h0j h1j
    unfold cfCum
    by_cases hj : j = cfDimM rm o
    · rw [hj, getI_listSet_self _ _ _ hm
        (by rw [hclen, hhistlen]; push_cast; omega)]
      rw [hcntm, hnnz]
    · rw [getI_listSet_ne _ _ _ _ hj]
      have hj2 : j < cfDimM rm o := lt_of_le_of_ne h1j hj
      have hx := hcin j.toNat (by omega)
      rw [Int.toNat_of_nonneg h0j] at hx
      rw [hx, hPS j.toNat (by omega), Int.toNat_of_nonneg h0j]
  -- phase 4: scatter as a fold over the traversal triples
  have hscat_eq : cfScat rm o values =
      (cfZ o (cfDimN rm o) values).foldl scatStep
        (cfCum rm o, List.replicate (nb_nonzeros o).toNat 0, values) := by
    unfold cfScat cfZ
    rw [foldl_flatMap]
    have hfun : (fun (st : List Int × List Int × List Int) i =>
        (rowRange o i).foldl
          (fun st k => scatStep st (i, getI o.ja k, getI values k)) st) =
        (fun st i => ((rowRange o i).map
          (fun k => (i, getI o.ja k, getI values k))).foldl scatStep st) := by
      funext st i
      rw [List.foldl_map]
    rw [hfun]
  obtain ⟨s1len, s2len, s3len, sc4, sc5, sc6, sc7⟩ :=
    scatter_fold (cfDimM rm o) (cfZ o (cfDimN rm o) values)
      (cfCum rm o, List.replicate (nb_nonzeros o).toNat 0, values)
      (fun j => ((o.ja.filter (fun x => x < j)).length : Int))
      hWkey
      (by
        show cfDimM rm o ≤ ((cfCum rm o).length : Int)
        rw [hcumlen]
        push_cast
        omega)
      (by
        intro j hj0 hj1
        exact hcum j hj0 (le_of_lt hj1))
      (by
        intro j hj0 hj1
        show 0 ≤ ((o.ja.filter (fun x => x < j)).length : Int) ∧
          ((o.ja.filter (fun x => x < j)).length : Int) +
            (((cfZ o (cfDimN rm o) values).filter
              (fun w => w.2.1 = j)).length : Int) ≤
            ((List.replicate (nb_nonzeros o).toNat (0 : Int)).length : Int) ∧
          ((o.ja.filter (fun x => x < j)).length : Int) +
            (((cfZ o (cfDimN rm o) values).filter
              (fun w => w.2.1 = j)).length : Int) ≤
            ((values.length : Nat) : Int)
        rw [List.length_replicate, hcnt j]
        have hs := hstepLt j
        have hmo := hLtmono (j + 1) (cfDimM rm o) (by omega)
        have hja : (o.ja.filter (fun x => x < cfDimM rm o)).length =
            o.ja.length := by rw [hcntm]
        refine ⟨by positivity, ?_, ?_⟩
        · push_cast at hs hmo ⊢
          omega
        · push_cast at hs hmo ⊢
          omega)
      (by
        intro j1 j2 hj0 hj12 hj2
        show ((o.ja.filter (fun x => x < j1)).length : Int) +
          (((cfZ o (cfDimN rm o) values).filter
            (fun w => w.2.1 = j1)).length : Int) ≤
          ((o.ja.filter (fun x => x < j2)).length : Int)
        rw [hcnt j1]
        have hs := hstepLt j1
        have hmo := hLtmono (j1 + 1) j2 (by omega)
        push_cast at hs hmo ⊢
        omega)
  -- phase 5: shift-restore
  have hscatlen1 : (cfScat rm o values).1.length = (cfDimM rm o + 1).toNat := by
    rw [hscat_eq, s1len, hcumlen]
  have hscatlen2 : (cfScat rm o values).2.1.length = (nb_nonzeros o).toNat := by
    rw [hscat_eq, s2len, List.length_replicate]
  have hscatlen3 : (cfScat rm o values).2.2.length = values.length := by
    rw [hscat_eq, s3len]
  obtain ⟨sh1, sh2, sh3, sh4⟩ := shift_fold (cfScat rm o values).1
    (cfDimM rm o + 1).toNat (by rw [hscatlen1])
  rw [Int.toNat_of_nonneg (by omega : (0 : Int) ≤ cfDimM rm o + 1)]
    at sh1 sh2 sh3 sh4
  have hshiftlen : (cfShift rm o values).length = (cfDimM rm o + 1).toNat := by
    unfold cfShift
    rw [sh1, hscatlen1]
  have hia_sc : ∀ j : Int, 0 ≤ j → j < cfDimM rm o →
      getI (cfScat rm o values).1 j =
        ((o.ja.filter (fun x => x < j + 1)).length : Int) := by
    intro j hj0 hj1
    have hc : getI ((cfZ o (cfDimN rm o) values).foldl scatStep
        (cfCum rm o, List.replicate (nb_nonzeros o).toNat 0, values)).1 j =
        ((o.ja.filter (fun x => x < j)).length : Int) +
          (((cfZ o (cfDimN rm o) values).filter
            (fun w => w.2.1 = j)).length : Int) := sc4 j hj0 hj1
    rw [← hscat_eq] at hc
    rw [hc, hcnt j, hstepLt j]
  have hia4 : ∀ j : Int, 0 ≤ j → j ≤ cfDimM rm o →
      getI (cfShift rm o values) j =
        ((o.ja.filter (fun x => x < j)).length : Int) := by
    intro j hj0 hj1
    unfold cfShift
    have hx := sh3 j.toNat (by omega)
    rw [Int.toNat_of_nonneg hj0] at hx
    rw [hx]
    by_cases hj : j = 0
    · rw [if_pos (by omega : j.toNat = 0), hj, hcnt0]
      rfl
    · rw [if_neg (by omega : ¬ j.toNat = 0)]
      have hs := hia_sc (j - 1) (by omega) (by omega)
      rw [hs]
      have e : j - 1 + 1 = j := by omega
      rw [e]
  -- the scattered ja and values are the flattened buckets
  have hpos0 : ((o.ja.filter (fun x => x < (0 : Int))).length : Int) = 0 := by
    rw [hcnt0]
    rfl
  have hstepG1 : ∀ j : Int, 0 ≤ j → j < cfDimM rm o →
      ((o.ja.filter (fun x => x < j + 1)).length : Int) =
        ((o.ja.filter (fun x => x < j)).length : Int) +
          ((((cfZ o (cfDimN rm o) values).filter
            (fun w => w.2.1 = j)).map
              (fun w : Int × Int × Int => w.1)).length : Int) := by
    intro j _ _
    rw [List.length_map, hcnt j]
    exact hstepLt j
  have hstepG2 : ∀ j : Int, 0 ≤ j → j < cfDimM rm o →
      ((o.ja.filter (fun x => x < j + 1)).length : Int) =
        ((o.ja.filter (fun x => x < j)).length : Int) +
          ((((cfZ o (cfDimN rm o) values).filter
            (fun w => w.2.1 = j)).map
              (fun w : Int × Int × Int => w.2.2)).length : Int) := by
    intro j _ _
    rw [List.length_map, hcnt j]
    exact hstepLt j
  have hflatlen1 : ((((intRange 0 (cfDimM rm o)).map
      (fun j => ((cfZ o (cfDimN rm o) values).filter
        (fun w => w.2.1 = j)).map
          (fun w : Int × Int × Int => w.1))).flatten).length : Int) =
      (o.ja.length : Int) := by
    have := flatten_map_range_length
      (fun j => ((cfZ o (cfDimN rm o) values).filter
        (fun w => w.2.1 = j)).map (fun w : Int × Int × Int => w.1))
      (fun j => ((o.ja.filter (fun x => x < j)).length : Int))
      hpos0 (cfDimM rm o).toNat
      (by
        intro j hj0 hj1
        rw [Int.toNat_of_nonneg hm] at hj1
        exact hstepG1 j hj0 hj1)
    rw [Int.toNat_of_nonneg hm] at this
    refine this.trans ?_
    show ((o.ja.filter (fun x => x < cfDimM rm o)).length : Int) =
      (o.ja.length : Int)
    rw [hcntm]
  have hflatlen2 : ((((intRange 0 (cfDimM rm o)).map
      (fun j => ((cfZ o (cfDimN rm o) values).filter
        (fun w => w.2.1 = j)).map
          (fun w : Int × Int × Int => w.2.2))).flatten).length : Int) =
      (o.ja.length : Int) := by
    have := flatten_map_range_length
      (fun j => ((cfZ o (cfDimN rm o) values).filter
        (fun w => w.2.1 = j)).map (fun w : Int × Int × Int => w.2.2))
      (fun j => ((o.ja.filter (fun x => x < j)).length : Int))
      hpos0 (cfDimM rm o).toNat
      (by
        intro j hj0 hj1
        rw [Int.toNat_of_nonneg hm] at hj1
        exact hstepG2 j hj0 hj1)
    rw [Int.toNat_of_nonneg hm] at this
    refine this.trans ?_
    show ((o.ja.filter (fun x => x < cfDimM rm o)).length : Int) =
      (o.ja.length : Int)
    rw [hcntm]
  have hja2 : (cfScat rm o values).2.1 =
      ((intRange 0 (cfDimM rm o)).map
        (fun j => ((cfZ o (cfDimN rm o) values).filter
          (fun w => w.2.1 = j)).map
            (fun w : Int × Int × Int => w.1))).flatten := by
    apply list_eq_of_getI
    · rw [hscatlen2]
      have : ((nb_nonzeros o).toNat : Int) = (o.ja.length : Int) := by
        rw [Int.toNat_of_nonneg hnnz0, hnnz]
      omega
    · intro t ht
      rw [hscatlen2] at ht
      have htI : (t : Int) <
          ((o.ja.filter (fun x => x < cfDimM rm o)).length : Int) := by
        rw [hcntm]
        push_cast
        omega
      obtain ⟨j, hj0, hj1, r, hr, hteq⟩ :=
        bucket_decompose o.ja (fun x hx => (hjr x hx).1) (cfDimM rm o).toNat
          (t : Int) (by omega)
          (by rw [Int.toNat_of_nonneg hm]; exact htI)
      rw [Int.toNat_of_nonneg hm] at hj1
      have hsc : getI ((cfZ o (cfDimN rm o) values).foldl scatStep
          (cfCum rm o, List.replicate (nb_nonzeros o).toNat 0, values)).2.1
          (((o.ja.filter (fun x => x < j)).length : Int) + (r : Int)) =
          getI (((cfZ o (cfDimN rm o) values).filter
            (fun w => w.2.1 = j)).map (fun w => w.1)) (r : Int) :=
        (sc7 j hj0 hj1 r (by rw [hcnt j]; exact hr)).1
      rw [← hscat_eq] at hsc
      rw [hteq, hsc]
      exact (getI_flatten_bucket (cfDimM rm o)
        (fun j => ((cfZ o (cfDimN rm o) values).filter
          (fun w => w.2.1 = j)).map (fun w : Int × Int × Int => w.1))
        (fun j => ((o.ja.filter (fun x => x < j)).length : Int))
        hpos0 hstepG1 j hj0 hj1 r
        (by rw [List.length_map, hcnt j]; exact hr)).symm
  have hvals2 : (cfScat rm o values).2.2 =
      ((intRange 0 (cfDimM rm o)).map
        (fun j => ((cfZ o (cfDimN rm o) values).filter
          (fun w => w.2.1 = j)).map
            (fun w : Int × Int × Int => w.2.2))).flatten := by
    apply list_eq_of_getI
    · rw [hscatlen3]
      omega
    · intro t ht
      rw [hscatlen3] at ht
      have htI : (t : Int) <
          ((o.ja.filter (fun x => x < cfDimM rm o)).length : Int) := by
        rw [hcntm]
        push_cast
        omega
      obtain ⟨j, hj0, hj1, r, hr, hteq⟩ :=
        bucket_decompose o.ja (fun x hx => (hjr x hx).1) (cfDimM rm o).toNat
          (t : Int) (by omega)
          (by rw [Int.toNat_of_nonneg hm]; exact htI)
      rw [Int.toNat_of_nonneg hm] at hj1
      have hsc : getI ((cfZ o (cfDimN rm o) values).foldl scatStep
          (cfCum rm o, List.replicate (nb_nonzeros o).toNat 0, values)).2.2
          (((o.ja.filter (fun x => x < j)).length : Int) + (r : Int)) =
          getI (((cfZ o (cfDimN rm o) values).filter
            (fun w => w.2.1 = j)).map (fun w => w.2.2)) (r : Int) :=
        (sc7 j hj0 hj1 r (by rw [hcnt j]; exact hr)).2
      rw [← hscat_eq] at hsc
      rw [hteq, hsc]
      exact (getI_flatten_bucket (cfDimM rm o)
        (fun j => ((cfZ o (cfDimN rm o) values).filter
          (fun w => w.2.1 = j)).map (fun w : Int × Int × Int => w.2.2))
        (fun j => ((o.ja.filter (fun x => x < j)).length : Int))
        hpos0 hstepG2 j hj0 hj1 r
        (by rw [List.length_map, hcnt j]; exact hr)).symm
  -- the buckets-as-pattern form
  have hbp1 : (bucketsBy (cfDimM rm o) (cfZ o (cfDimN rm o) values)).map
      (fun B => B.map (fun z => z.1)) =
      (intRange 0 (cfDimM rm o)).map
        (fun j => ((cfZ o (cfDimN rm o) values).filter
          (fun w => w.2.1 = j)).map (fun w : Int × Int × Int => w.1)) := by
    unfold bucketsBy
    rw [List.map_map]
    rfl
  have hbp2 : (bucketsBy (cfDimM rm o) (cfZ o (cfDimN rm o) values)).map
      (fun B => B.map (fun z => z.2.2)) =
      (intRange 0 (cfDimM rm o)).map
        (fun j => ((cfZ o (cfDimN rm o) values).filter
          (fun w => w.2.1 = j)).map (fun w : Int × Int × Int => w.2.2)) := by
    unfold bucketsBy
    rw [List.map_map]
    rfl
  -- the shifted ia equals from_pattern's scanl offsets
  have hia_eq : cfShift rm o values =
      List.scanl (· + ·) 0
        (((bucketsBy (cfDimM rm o) (cfZ o (cfDimN rm o) values)).map
          (fun B => B.map (fun z => z.1))).map
            (fun r => (r.length : Int))) := by
    rw [hbp1]
    apply list_eq_of_getI
    · rw [hshiftlen, List.length_scanl, List.length_map, List.length_map,
        length_intRange]
      omega
    · intro t ht
      rw [hshiftlen] at ht
      rw [hia4 (t : Int) (by omega) (by omega)]
      rw [scanl_getI _ 0 t (by
        rw [List.length_map, List.length_map, length_intRange]
        omega)]
      rw [List.map_map, ← List.map_take,
        intRange_take (cfDimM rm o) t (by omega)]
      have hcong : ∀ j ∈ intRange 0 (t : Int),
          ((fun r : List Int => (r.length : Int)) ∘
            (fun j => ((cfZ o (cfDimN rm o) values).filter
              (fun w => w.2.1 = j)).map
                (fun w : Int × Int × Int => w.1))) j =
          ((o.ja.filter (fun x => x = j)).length : Int) := by
        intro j _
        show ((((cfZ o (cfDimN rm o) values).filter
          (fun w => w.2.1 = j)).map
            (fun w : Int × Int × Int => w.1)).length : Int) = _
        rw [List.length_map, hcnt j]
      rw [List.map_congr_left hcong,
        sum_cntEq o.ja (fun x hx => (hjr x hx).1) t, zero_add]
  -- entries of the scattered ja are source leading indices, below n
  have hja2mem : ∀ x ∈ (cfScat rm o values).2.1, 0 ≤ x ∧ x < cfDimN rm o := by
    intro x hx
    rw [hja2] at hx
    rw [List.mem_flatten] at hx
    obtain ⟨B, hB, hxB⟩ := hx
    rw [List.mem_map] at hB
    obtain ⟨j, _, rfl⟩ := hB
    rw [List.mem_map] at hxB
    obtain ⟨z, hz, rfl⟩ := hxB
    exact hWrow z ((List.filter_sublist _).subset hz)
  -- assemble: the constructor succeeds and yields the bucket structure
  unfold convert_from
  have hlead : leadingSize rm o.rows o.cols = cfDimM rm o := rfl
  have hsec : secondarySize rm o.rows o.cols = cfDimN rm o := rfl
  unfold construct
  rw [if_neg (by
    rw [hlead, hshiftlen]
    push_cast
    omega)]
  rw [if_neg (by
    rintro ⟨hpos, hmax⟩
    rw [hsec] at hmax
    have hnem : (cfScat rm o values).2.1 ≠ [] := by
      intro hnil
      rw [hnil] at hpos
      simp at hpos
    have := hja2mem _ (maxCoeff_mem hnem)
    omega)]
  refine congrArg some (Prod.ext ?_ ?_)
  · show (⟨o.rows, o.cols, cfShift rm o values,
        (cfScat rm o values).2.1⟩ : SparseStructure) = _
    unfold from_pattern
    simp only [SparseStructure.mk.injEq]
    exact ⟨trivial, trivial, hia_eq, by rw [hbp1, hja2]⟩
  · show (cfScat rm o values).2.2 = _
    rw [hbp2, hvals2]

theorem from_pattern_ia_length (rows cols : Int) (pat : List (List Int)) :
    (from_pattern rows cols pat).ia.length = pat.length + 1 := by
  show (List.scanl (· + ·) 0
    (pat.map (fun r => (r.length : Int)))).length = _
  rw [List.length_scanl (f := (· + ·)), List.length_map]

theorem from_pattern_h0 (rows cols : Int) (pat : List (List Int)) :
    getI (from_pattern rows cols pat).ia 0 = 0 := by
  show getI (List.scanl (· + ·) 0
    (pat.map (fun r => (r.length : Int)))) 0 = 0
  have h := scanl_getI (pat.map (fun r => (r.length : Int))) 0 0 (by omega)
  simpa using h

theorem from_pattern_mono (rows cols : Int) (pat : List (List Int)) :
    MonotoneIa (from_pattern rows cols pat).ia := by
  intro t ht
  rw [from_pattern_ia_length] at ht
  show getI (List.scanl (· + ·) 0
      (pat.map (fun r => (r.length : Int)))) (t : Int) ≤
    getI (List.scanl (· + ·) 0
      (pat.map (fun r => (r.length : Int)))) ((t : Int) + 1)
  have h1 := scanl_getI (pat.map (fun r => (r.length : Int))) 0 t
    (by rw [List.length_map]; omega)
  have h2 := scanl_getI (pat.map (fun r => (r.length : Int))) 0 (t + 1)
    (by rw [List.length_map]; omega)
  have hc : ((t : Int) + 1) = ((t + 1 : Nat) : Int) := by push_cast; ring
  rw [hc, h1, h2, List.sum_take_succ _ t (by rw [List.length_map]; omega),
    List.getElem_map]
  have : (0 : Int) ≤ ((pat[t].length : Nat) : Int) := by positivity
  omega

theorem from_pattern_last (rows cols : Int) (pat : List (List Int)) :
    (from_pattern rows cols pat).ia.getLastD 0 =
      ((from_pattern rows cols pat).ja.length : Int) := by
  show (List.scanl (· + ·) 0
      (pat.map (fun r => (r.length : Int)))).getLastD 0 =
    ((pat.flatten.length : Nat) : Int)
  rw [scanl_getLastD, List.length_flatten, zero_add, Nat.cast_list_sum,
    List.map_map]
  rfl

theorem getD_map_intRange {α : Type} (m : Int) (h : Int → α) (d : α)
    (t : Nat) (ht : (t : Int) < m) :
    ((intRange 0 m).map h).getD t d = h (t : Int) := by
  unfold intRange
  rw [List.map_map, List.getD_eq_getElem?_getD, List.getElem?_map,
    List.getElem?_range (by omega : t < (m - 0).toNat)]
  show h (0 + (t : Int)) = h (t : Int)
  exact congrArg h (by omega)

theorem from_pattern_slice (rows cols : Int) (pat v : List (List Int))
    (hmap : pat.map (fun r => (r.length : Int)) =
      v.map (fun r => (r.length : Int)))
    (i : Nat) (hi : i < pat.length) :
    (rowRange (from_pattern rows cols pat) (i : Int)).map
      (fun k => getI v.flatten k) = v.getD i [] := by
  have hlenv : pat.length = v.length := by
    have h := congrArg List.length hmap
    rwa [List.length_map, List.length_map] at h
  have hiv : i < v.length := by omega
  have h1 := from_pattern_ia rows cols pat i (le_of_lt hi)
  have h2 := from_pattern_ia rows cols pat (i + 1) hi
  rw [hmap] at h1 h2
  have hsplit : v = v.take i ++ (v.getD i [] :: v.drop (i + 1)) := by
    conv_lhs => rw [← List.take_append_drop i v]
    congr 1
    rw [List.drop_eq_getElem_cons hiv]
    congr 1
    exact (List.getD_eq_getElem v [] hiv).symm
  have hfl : v.flatten =
      (v.take i).flatten ++ (v.getD i [] ++ (v.drop (i + 1)).flatten) := by
    conv_lhs => rw [hsplit]
    rw [List.flatten_append, List.flatten_cons]
  have hoff : getI (from_pattern rows cols pat).ia (i : Int) =
      ((v.take i).flatten.length : Int) := by
    rw [h1, flatten_take_length_cast]
  have hoff2 : getI (from_pattern rows cols pat).ia ((i : Int) + 1) =
      ((v.take i).flatten.length : Int) + ((v.getD i []).length : Int) := by
    have hc : ((i : Int) + 1) = ((i + 1 : Nat) : Int) := by push_cast; ring
    rw [hc, h2, List.sum_take_succ _ i (by rw [List.length_map]; omega),
      ← flatten_take_length_cast]
    congr 1
    rw [List.getElem_map, List.getD_eq_getElem v [] hiv]
  rw [rowRange, hoff, hoff2, hfl]
  exact slice_of_append _ _ _

theorem cfZ_mem_row (o : SparseStructure) (nn : Int) (vals : List Int) :
    ∀ z ∈ cfZ o nn vals, 0 ≤ z.1 ∧ z.1 < nn := by
  intro z hz
  unfold cfZ at hz
  rw [List.mem_flatMap] at hz
  obtain ⟨i, hi, hz2⟩ := hz
  rw [List.mem_map] at hz2
  obtain ⟨k, _, rfl⟩ := hz2
  rw [mem_intRange] at hi
  exact hi

theorem cfZ_key_bounds (o : SparseStructure) (vals : List Int) (nn mm : Int)
    (hn : 0 ≤ nn)
    (hlen : (o.ia.length : Int) = nn + 1)
    (h0 : getI o.ia 0 = 0) (hmono : MonotoneIa o.ia)
    (hlast : o.ia.getLastD 0 = (o.ja.length : Int))
    (hjr : ∀ x ∈ o.ja, 0 ≤ x ∧ x < mm) :
    ∀ z ∈ cfZ o nn vals, 0 ≤ z.2.1 ∧ z.2.1 < mm := by
  have hne : o.ia ≠ [] := by
    intro hnil
    rw [hnil] at hlen
    simp at hlen
    omega
  have hia_n : getI o.ia nn = (o.ja.length : Int) := by
    have h1 := getLastD_eq_getI o.ia hne
    rw [hlast] at h1
    rw [show nn = (o.ia.length : Int) - 1 from by omega]
    exact h1.symm
  intro z hz
  unfold cfZ at hz
  rw [List.mem_flatMap] at hz
  obtain ⟨i, hi, hz2⟩ := hz
  rw [List.mem_map] at hz2
  obtain ⟨k, hk, rfl⟩ := hz2
  rw [mem_intRange] at hi
  rw [rowRange, mem_intRange] at hk
  have hlo : 0 ≤ getI o.ia i := by
    have := monotone_getI_int hmono (a := 0) (b := i) le_rfl hi.1 (by omega)
    omega
  have hhi : getI o.ia (i + 1) ≤ (o.ja.length : Int) := by
    rw [← hia_n]
    exact monotone_getI_int hmono (by omega) (by omega) (by omega)
  exact hjr _ (getI_mem (by omega) (by omega))

theorem cfZ_filter_row (o : SparseStructure) (vals : List Int) (nn i : Int)
    (hi0 : 0 ≤ i) (hi1 : i < nn) :
    (cfZ o nn vals).filter (fun w => w.1 = i) =
      (rowRange o i).map (fun k => (i, getI o.ja k, getI vals k)) := by
  unfold cfZ
  rw [List.filter_flatMap]
  rw [flatMap_eq_single (intRange 0 nn) _ i
    (mem_intRange.mpr ⟨hi0, hi1⟩) (nodup_intRange 0 nn)
    (by
      intro j hj hne
      rw [List.filter_eq_nil_iff]
      intro z hz
      rw [List.mem_map] at hz
      obtain ⟨k, _, rfl⟩ := hz
      simp [hne])]
  rw [List.filter_eq_self]
  intro z hz
  rw [List.mem_map] at hz
  obtain ⟨k, _, rfl⟩ := hz
  simp

theorem ia_telescope (o : SparseStructure) :
    ∀ t : Nat, t < o.ia.length →
      ((intRange 0 (t : Int)).map
        (fun i => getI o.ia (i + 1) - getI o.ia i)).sum =
        getI o.ia (t : Int) - getI o.ia 0 := by
  intro t
  induction t with
  | zero =>
    intro _
    simp only [Nat.cast_zero]
    have hnil : intRange 0 (0 : Int) = [] := by unfold intRange; simp
    rw [hnil]
    simp
  | succ t ih =>
    intro ht
    have hc : ((t + 1 : Nat) : Int) = (t : Int) + 1 := by push_cast; ring
    rw [hc, intRange_succ_right _ (by omega : (0 : Int) ≤ (t : Int)),
      List.map_append, List.sum_append, ih (by omega)]
    simp only [List.map_cons, List.map_nil, List.sum_cons, List.sum_nil]
    ring

theorem cfZ_from_pattern (rows cols m : Int) (W : List (Int × Int × Int)) :
    cfZ (from_pattern rows cols
        ((bucketsBy m W).map (fun B => B.map (fun z => z.1))))
      m
      (((bucketsBy m W).map (fun B => B.map (fun z => z.2.2))).flatten) =
    (intRange 0 m).flatMap
      (fun j => (W.filter (fun w => w.2.1 = j)).map
        (fun z => (z.2.1, z.1, z.2.2))) := by
  unfold cfZ
  apply flatMap_congr_mem
  intro j hj
  rw [mem_intRange] at hj
  obtain ⟨t, rfl⟩ : ∃ t : Nat, (t : Int) = j := ⟨j.toNat, by omega⟩
  have hpatlen : ((bucketsBy m W).map
      (fun B => B.map (fun z : Int × Int × Int => z.1))).length = m.toNat := by
    rw [List.length_map]
    unfold bucketsBy
    rw [List.length_map, length_intRange]
    omega
  have ht : t < ((bucketsBy m W).map
      (fun B => B.map (fun z : Int × Int × Int => z.1))).length := by
    rw [hpatlen]
    omega
  have hmapeq : ((bucketsBy m W).map
      (fun B => B.map (fun z : Int × Int × Int => z.1))).map
        (fun r => (r.length : Int)) =
      ((bucketsBy m W).map
        (fun B => B.map (fun z : Int × Int × Int => z.2.2))).map
          (fun r => (r.length : Int)) := by
    unfold bucketsBy
    rw [List.map_map, List.map_map, List.map_map, List.map_map]
    apply List.map_congr_left
    intro j2 _
    show (((W.filter (fun w => w.2.1 = j2)).map
        (fun z : Int × Int × Int => z.1)).length : Int) =
      (((W.filter (fun w => w.2.1 = j2)).map
        (fun z : Int × Int × Int => z.2.2)).length : Int)
    rw [List.length_map, List.length_map]
  have hrow1 := from_pattern_row rows cols
    ((bucketsBy m W).map (fun B => B.map (fun z : Int × Int × Int => z.1)))
    t ht
  have hrow2 := from_pattern_slice rows cols
    ((bucketsBy m W).map (fun B => B.map (fun z : Int × Int × Int => z.1)))
    ((bucketsBy m W).map (fun B => B.map (fun z : Int × Int × Int => z.2.2)))
    hmapeq t ht
  have hgd1 : ((bucketsBy m W).map
      (fun B => B.map (fun z : Int × Int × Int => z.1))).getD t [] =
      (W.filter (fun w => w.2.1 = (t : Int))).map
        (fun z : Int × Int × Int => z.1) := by
    unfold bucketsBy
    rw [List.map_map]
    exact getD_map_intRange m _ [] t hj.2
  have hgd2 : ((bucketsBy m W).map
      (fun B => B.map (fun z : Int × Int × Int => z.2.2))).getD t [] =
      (W.filter (fun w => w.2.1 = (t : Int))).map
        (fun z : Int × Int × Int => z.2.2) := by
    unfold bucketsBy
    rw [List.map_map]
    exact getD_map_intRange m _ [] t hj.2
  have hzip : (rowRange (from_pattern rows cols
      ((bucketsBy m W).map
        (fun B => B.map (fun z : Int × Int × Int => z.1)))) (t : Int)).map
      (fun k => ((t : Int),
        getI (from_pattern rows cols
          ((bucketsBy m W).map
            (fun B => B.map (fun z : Int × Int × Int => z.1)))).ja k,
        getI (((bucketsBy m W).map
          (fun B => B.map (fun z : Int × Int × Int => z.2.2))).flatten) k)) =
      (((rowRange (from_pattern rows cols
        ((bucketsBy m W).map
          (fun B => B.map (fun z : Int × Int × Int => z.1)))) (t : Int)).map
        (fun k => getI (from_pattern rows cols
          ((bucketsBy m W).map
            (fun B => B.map (fun z : Int × Int × Int => z.1)))).ja k)).zip
      ((rowRange (from_pattern rows cols
        ((bucketsBy m W).map
          (fun B => B.map (fun z : Int × Int × Int => z.1)))) (t : Int)).map
        (fun k => getI (((bucketsBy m W).map
          (fun B => B.map (fun z : Int × Int × Int => z.2.2))).flatten) k))).map
        (fun p => ((t : Int), p.1, p.2)) := by
    rw [List.zip_map', List.map_map]
    rfl
  rw [hzip, hrow1, hrow2, hgd1, hgd2, List.zip_map', List.map_map]
  apply List.map_congr_left
  intro z hz
  have hzt := List.of_mem_filter hz
  rw [decide_eq_true_eq] at hzt
  show ((t : Int), z.1, z.2.2) = (z.2.1, z.1, z.2.2)
  rw [hzt]

theorem bucketSwap_filter (o : SparseStructure) (vals : List Int)
    (nn mm i : Int) (hi0 : 0 ≤ i) (hi1 : i < nn)
    (hkeys : ∀ z ∈ cfZ o nn vals, 0 ≤ z.2.1 ∧ z.2.1 < mm)
    (hsort : ((rowRange o i).map
      (fun k => getI o.ja k)).Pairwise (· ≤ ·)) :
    ((intRange 0 mm).flatMap
      (fun j => ((cfZ o nn vals).filter (fun w => w.2.1 = j)).map
        (fun z => (z.2.1, z.1, z.2.2)))).filter (fun w => w.2.1 = i) =
    (rowRange o i).map (fun k => (getI o.ja k, i, getI vals k)) := by
  rw [List.filter_flatMap]
  have hstep1 : ∀ j ∈ intRange 0 mm,
      ((((cfZ o nn vals).filter (fun w => w.2.1 = j)).map
        (fun z => (z.2.1, z.1, z.2.2))).filter (fun w => w.2.1 = i)) =
      ((((cfZ o nn vals).filter (fun w => w.2.1 = j)).filter
        (fun w => w.1 = i)).map (fun z => (z.2.1, z.1, z.2.2))) := by
    intro j _
    rw [List.filter_map]
    rfl
  rw [flatMap_congr_mem hstep1]
  have hout : (intRange 0 mm).flatMap
      (fun j => ((((cfZ o nn vals).filter (fun w => w.2.1 = j)).filter
        (fun w => w.1 = i)).map (fun z => (z.2.1, z.1, z.2.2)))) =
      ((intRange 0 mm).flatMap
        (fun j => (((cfZ o nn vals).filter (fun w => w.2.1 = j)).filter
          (fun w => w.1 = i)))).map (fun z => (z.2.1, z.1, z.2.2)) :=
    (List.map_flatMap _ _ _).symm
  rw [hout]
  have hcomm : ∀ j ∈ intRange 0 mm,
      (((cfZ o nn vals).filter (fun w => w.2.1 = j)).filter
        (fun w => w.1 = i)) =
      (((cfZ o nn vals).filter (fun w => w.1 = i)).filter
        (fun w => w.2.1 = j)) := by
    intro j _
    exact List.filter_comm _ _ _
  rw [flatMap_congr_mem hcomm, cfZ_filter_row o vals nn i hi0 hi1]
  have hfix : (intRange 0 mm).flatMap
      (fun j => (((rowRange o i).map
        (fun k => (i, getI o.ja k, getI vals k))).filter
          (fun w => w.2.1 = j))) =
      (rowRange o i).map (fun k => (i, getI o.ja k, getI vals k)) := by
    apply bucket_fix
    · intro z hz
      rw [List.mem_map] at hz
      obtain ⟨k, hk, rfl⟩ := hz
      refine hkeys _ ?_
      unfold cfZ
      rw [List.mem_flatMap]
      exact ⟨i, mem_intRange.mpr ⟨hi0, hi1⟩, List.mem_map.mpr ⟨k, hk, rfl⟩⟩
    · rw [List.pairwise_map]
      have hs := List.pairwise_map.mp hsort
      exact hs
  rw [hfix, List.map_map]
  rfl

set_option maxHeartbeats 1000000 in
/-- C4 (amended): `convert_from` round-trips only on SORTED structures.
For every pattern that is valid (offsets of the right length starting at
0, non-decreasing, ending at `len(ja)`; secondary indices in range) and
whose secondary indices are non-decreasing within each leading range,
together with a value array of matching length, applying `convert_from`
(orientation transpose) and then `convert_from` again to the result
reproduces the original offset array, index array and value ordering
exactly.  (On unsorted input the round trip instead returns the sorted
form — `c4_counterexample`.) -/
theorem c4_roundtrip_amended (rm : Bool) (o : SparseStructure)
    (values : List Int)
    (hn : 0 ≤ cfDimN rm o) (hm : 0 ≤ cfDimM rm o)
    (hlen : (o.ia.length : Int) = cfDimN rm o + 1)
    (h0 : getI o.ia 0 = 0) (hmono : MonotoneIa o.ia)
    (hlast : o.ia.getLastD 0 = (o.ja.length : Int))
    (hjr : ∀ x ∈ o.ja, 0 ≤ x ∧ x < cfDimM rm o)
    (hvlen : (values.length : Int) = (o.ja.length : Int))
    (hsort : ∀ i ∈ intRange 0 (cfDimN rm o),
      ((rowRange o i).map (fun k => getI o.ja k)).Pairwise (· ≤ ·)) :
    ∃ mid : SparseStructure × List Int,
      convert_from rm o values = some mid ∧
      convert_from (!rm) mid.1 mid.2 = some (o, values) := by
  have hne : o.ia ≠ [] := by
    intro hnil
    rw [hnil] at hlen
    simp at hlen
    omega
  have hia_n : getI o.ia (cfDimN rm o) = (o.ja.length : Int) := by
    have h1 := getLastD_eq_getI o.ia hne
    rw [hlast] at h1
    rw [show cfDimN rm o = (o.ia.length : Int) - 1 from by omega]
    exact h1.symm
  have hWkeys := cfZ_key_bounds o values (cfDimN rm o) (cfDimM rm o)
    hn hlen h0 hmono hlast hjr
  have hWrows := cfZ_mem_row o (cfDimN rm o) values
  refine ⟨_, convert_spec rm o values hn hm hlen h0 hmono hlast hjr hvlen,
    ?_⟩
  have hd1 : cfDimN (!rm) (from_pattern o.rows o.cols
      ((bucketsBy (cfDimM rm o) (cfZ o (cfDimN rm o) values)).map
        (fun B => B.map (fun z => z.1)))) = cfDimM rm o := by
    cases rm <;> rfl
  have hd2 : cfDimM (!rm) (from_pattern o.rows o.cols
      ((bucketsBy (cfDimM rm o) (cfZ o (cfDimN rm o) values)).map
        (fun B => B.map (fun z => z.1)))) = cfDimN rm o := by
    cases rm <;> rfl
  have hpatlen : ((bucketsBy (cfDimM rm o) (cfZ o (cfDimN rm o) values)).map
      (fun B => B.map (fun z : Int × Int × Int => z.1))).length =
      (cfDimM rm o).toNat := by
    rw [List.length_map]
    unfold bucketsBy
    rw [List.length_map, length_intRange]
    omega
  have hlennat : ((bucketsBy (cfDimM rm o) (cfZ o (cfDimN rm o) values)).map
      (fun B => B.map (fun z : Int × Int × Int => z.1))).map List.length =
      ((bucketsBy (cfDimM rm o) (cfZ o (cfDimN rm o) values)).map
        (fun B => B.map (fun z : Int × Int × Int => z.2.2))).map
          List.length := by
    unfold bucketsBy
    rw [List.map_map, List.map_map, List.map_map, List.map_map]
    apply List.map_congr_left
    intro j _
    show (((cfZ o (cfDimN rm o) values).filter (fun w => w.2.1 = j)).map
        (fun z : Int × Int × Int => z.1)).length =
      (((cfZ o (cfDimN rm o) values).filter (fun w => w.2.1 = j)).map
        (fun z : Int × Int × Int => z.2.2)).length
    rw [List.length_map, List.length_map]
  have hn2 : 0 ≤ cfDimN (!rm) (from_pattern o.rows o.cols
      ((bucketsBy (cfDimM rm o) (cfZ o (cfDimN rm o) values)).map
        (fun B => B.map (fun z => z.1)))) := by
    rw [hd1]
    exact hm
  have hm2 : 0 ≤ cfDimM (!rm) (from_pattern o.rows o.cols
      ((bucketsBy (cfDimM rm o) (cfZ o (cfDimN rm o) values)).map
        (fun B => B.map (fun z => z.1)))) := by
    rw [hd2]
    exact hn
  have hlen2 : (((from_pattern o.rows o.cols
      ((bucketsBy (cfDimM rm o) (cfZ o (cfDimN rm o) values)).map
        (fun B => B.map (fun z => z.1)))).ia.length : Int)) =
      cfDimN (!rm) (from_pattern o.rows o.cols
        ((bucketsBy (cfDimM rm o) (cfZ o (cfDimN rm o) values)).map
          (fun B => B.map (fun z => z.1)))) + 1 := by
    rw [hd1, from_pattern_ia_length, hpatlen]
    push_cast
    omega
  have hjr2 : ∀ x ∈ (from_pattern o.rows o.cols
      ((bucketsBy (cfDimM rm o) (cfZ o (cfDimN rm o) values)).map
        (fun B => B.map (fun z => z.1)))).ja,
      0 ≤ x ∧ x < cfDimM (!rm) (from_pattern o.rows o.cols
        ((bucketsBy (cfDimM rm o) (cfZ o (cfDimN rm o) values)).map
          (fun B => B.map (fun z => z.1)))) := by
    rw [hd2]
    intro x hx
    have hx2 : x ∈ ((bucketsBy (cfDimM rm o)
        (cfZ o (cfDimN rm o) values)).map
          (fun B => B.map (fun z : Int × Int × Int => z.1))).flatten := hx
    rw [List.mem_flatten] at hx2
    obtain ⟨B, hB, hxB⟩ := hx2
    rw [List.mem_map] at hB
    obtain ⟨Bb, hBb, rfl⟩ := hB
    rw [List.mem_map] at hxB
    obtain ⟨z, hz, rfl⟩ := hxB
    unfold bucketsBy at hBb
    rw [List.mem_map] at hBb
    obtain ⟨j, _, rfl⟩ := hBb
    exact hWrows z ((List.filter_sublist _).subset hz)
  have hvlen2 : (((((bucketsBy (cfDimM rm o)
      (cfZ o (cfDimN rm o) values)).map
        (fun B => B.map (fun z => z.2.2))).flatten).length : Int)) =
      (((from_pattern o.rows o.cols
        ((bucketsBy (cfDimM rm o) (cfZ o (cfDimN rm o) values)).map
          (fun B => B.map (fun z => z.1)))).ja.length : Int)) := by
    show ((((bucketsBy (cfDimM rm o) (cfZ o (cfDimN rm o) values)).map
      (fun B => B.map (fun z : Int × Int × Int => z.2.2))).flatten).length
        : Int) =
      ((((bucketsBy (cfDimM rm o) (cfZ o (cfDimN rm o) values)).map
        (fun B => B.map (fun z : Int × Int × Int => z.1))).flatten).length
          : Int)
    rw [List.length_flatten, List.length_flatten, hlennat]
  have h2 := convert_spec (!rm)
    (from_pattern o.rows o.cols
      ((bucketsBy (cfDimM rm o) (cfZ o (cfDimN rm o) values)).map
        (fun B => B.map (fun z => z.1))))
    (((bucketsBy (cfDimM rm o) (cfZ o (cfDimN rm o) values)).map
      (fun B => B.map (fun z => z.2.2))).flatten)
    hn2 hm2 hlen2
    (from_pattern_h0 o.rows o.cols _)
    (from_pattern_mono o.rows o.cols _)
    (from_pattern_last o.rows o.cols _)
    hjr2 hvlen2
  rw [hd1, hd2] at h2
  rw [cfZ_from_pattern o.rows o.cols (cfDimM rm o)
    (cfZ o (cfDimN rm o) values)] at h2
  have hPAT2 : (bucketsBy (cfDimN rm o)
      ((intRange 0 (cfDimM rm o)).flatMap
        (fun j => ((cfZ o (cfDimN rm o) values).filter
          (fun w => w.2.1 = j)).map
            (fun z => (z.2.1, z.1, z.2.2))))).map
      (fun B => B.map (fun z : Int × Int × Int => z.1)) =
      (intRange 0 (cfDimN rm o)).map
        (fun i => (rowRange o i).map (fun k => getI o.ja k)) := by
    unfold bucketsBy
    rw [List.map_map]
    apply List.map_congr_left
    intro i hi
    rw [mem_intRange] at hi
    show (((intRange 0 (cfDimM rm o)).flatMap
      (fun j => ((cfZ o (cfDimN rm o) values).filter
        (fun w => w.2.1 = j)).map
          (fun z => (z.2.1, z.1, z.2.2)))).filter
            (fun w => w.2.1 = i)).map (fun z : Int × Int × Int => z.1) = _
    rw [bucketSwap_filter o values (cfDimN rm o) (cfDimM rm o) i hi.1 hi.2
      hWkeys (hsort i (mem_intRange.mpr hi)), List.map_map]
    rfl
  have hV2 : (bucketsBy (cfDimN rm o)
      ((intRange 0 (cfDimM rm o)).flatMap
        (fun j => ((cfZ o (cfDimN rm o) values).filter
          (fun w => w.2.1 = j)).map
            (fun z => (z.2.1, z.1, z.2.2))))).map
      (fun B => B.map (fun z : Int × Int × Int => z.2.2)) =
      (intRange 0 (cfDimN rm o)).map
        (fun i => (rowRange o i).map (fun k => getI values k)) := by
    unfold bucketsBy
    rw [List.map_map]
    apply List.map_congr_left
    intro i hi
    rw [mem_intRange] at hi
    show (((intRange 0 (cfDimM rm o)).flatMap
      (fun j => ((cfZ o (cfDimN rm o) values).filter
        (fun w => w.2.1 = j)).map
          (fun z => (z.2.1, z.1, z.2.2)))).filter
            (fun w => w.2.1 = i)).map (fun z : Int × Int × Int => z.2.2) = _
    rw [bucketSwap_filter o values (cfDimN rm o) (cfDimM rm o) i hi.1 hi.2
      hWkeys (hsort i (mem_intRange.mpr hi)), List.map_map]
    rfl
  rw [hPAT2, hV2] at h2
  rw [show (from_pattern o.rows o.cols
      ((bucketsBy (cfDimM rm o) (cfZ o (cfDimN rm o) values)).map
        (fun B => B.map (fun z => z.1)))).rows = o.rows from rfl,
    show (from_pattern o.rows o.cols
      ((bucketsBy (cfDimM rm o) (cfZ o (cfDimN rm o) values)).map
        (fun B => B.map (fun z => z.1)))).cols = o.cols from rfl] at h2
  have hia3 : List.scanl (· + ·) 0
      (((intRange 0 (cfDimN rm o)).map
        (fun i => (rowRange o i).map (fun k => getI o.ja k))).map
          (fun r => (r.length : Int))) = o.ia := by
    apply list_eq_of_getI
    · rw [List.length_scanl (f := (· + ·)), List.length_map,
        List.length_map, length_intRange]
      omega
    · intro t ht
      rw [List.length_scanl (f := (· + ·)), List.length_map,
        List.length_map, length_intRange] at ht
      rw [scanl_getI _ 0 t (by
        rw [List.length_map, List.length_map, length_intRange]
        omega)]
      rw [List.map_map, ← List.map_take,
        intRange_take (cfDimN rm o) t (by omega)]
      have hcong : ∀ i ∈ intRange 0 (t : Int),
          ((fun r : List Int => (r.length : Int)) ∘
            (fun i => (rowRange o i).map (fun k => getI o.ja k))) i =
          getI o.ia (i + 1) - getI o.ia i := by
        intro i hi
        rw [mem_intRange] at hi
        show (((rowRange o i).map
          (fun k => getI o.ja k)).length : Int) = _
        rw [List.length_map, rowRange, length_intRange]
        have hmi := hmono i.toNat (by omega)
        rw [Int.toNat_of_nonneg hi.1] at hmi
        omega
      rw [List.map_congr_left hcong,
        ia_telescope o t (by omega), h0, zero_add]
      omega
  have hja3 : ((intRange 0 (cfDimN rm o)).map
      (fun i => (rowRange o i).map (fun k => getI o.ja k))).flatten =
      o.ja := by
    rw [← List.flatMap_def, ← List.map_flatMap]
    have ht := rowRanges_flatMap o hmono h0 (cfDimN rm o).toNat (by omega)
    rw [Int.toNat_of_nonneg hn] at ht
    rw [ht, hia_n]
    exact ja_recon o.ja
  have hs3 : from_pattern o.rows o.cols
      ((intRange 0 (cfDimN rm o)).map
        (fun i => (rowRange o i).map (fun k => getI o.ja k))) = o := by
    conv_rhs => rw [show o = (⟨o.rows, o.cols, o.ia, o.ja⟩ :
      SparseStructure) from rfl]
    unfold from_pattern
    simp only [SparseStructure.mk.injEq]
    exact ⟨trivial, trivial, hia3, hja3⟩
  have hv3 : ((intRange 0 (cfDimN rm o)).map
      (fun i => (rowRange o i).map (fun k => getI values k))).flatten =
      values := by
    rw [← List.flatMap_def, ← List.map_flatMap]
    have ht := rowRanges_flatMap o hmono h0 (cfDimN rm o).toNat (by omega)
    rw [Int.toNat_of_nonneg hn] at ht
    rw [ht, hia_n, show (o.ja.length : Int) = (values.length : Int)
      from hvlen.symm]
    exact ja_recon values
  rw [hs3, hv3] at h2
  exact h2

theorem c4_witness :
    ∃ mid : SparseStructure × List Int,
      convert_from true ⟨2, 2, [0, 2, 2], [0, 1]⟩ [10, 20] = some mid ∧
      convert_from false mid.1 mid.2 =
        some (⟨2, 2, [0, 2, 2], [0, 1]⟩, [10, 20]) :=
  c4_roundtrip_amended true ⟨2, 2, [0, 2, 2], [0, 1]⟩ [10, 20]
    (by decide) (by decide) (by decide) (by decide) (by decide) (by decide)
    (by decide) (by decide) (by decide)
